import Mathlib

/-!
Verification of the maze library `mazes.py`: the grid/cell data model with its
link relation, the maze-generation algorithms, the markup machinery and the
ASCII renderer.  Cells are identified by their (row, column) slot in the grid,
which mirrors object identity in the source (each slot holds one distinct cell
object).  Mutation of a cell object is modelled as an update of its slot.
-/

namespace Mazes

/-- Python runtime errors that the source can raise. -/
inductive PyErr where
  | indexError
  | keyError
  | typeError
  | attributeError
  | valueError
  deriving DecidableEq, Repr

/-- A cell identity: (row, column). -/
abbrev Coord := Nat × Nat

/-- Insertion into the `links` dictionary of a cell: Python `d[k] = True`
keeps the first insertion position and is a no-op on the key order when the
key is already present (the stored value is always `True`). -/
def linksInsert (l : List Coord) (k : Coord) : List Coord :=
  if k ∈ l then l else l ++ [k]

/-- A cell of the maze (class `Cell`): its identity fields, the key list of
its `links` dictionary in insertion order, the four neighbor references
(absent = Python `None`) and the `visit` flag. -/
structure Cell where
  row : Nat
  column : Nat
  links : List Coord
  north : Option Coord
  south : Option Coord
  east : Option Coord
  west : Option Coord
  visit : Bool
  deriving DecidableEq, Repr

/-- A bare cell as `Cell.__init__` creates it. -/
def mkCell (r c : Nat) : Cell :=
  { row := r, column := c, links := [], north := none, south := none,
    east := none, west := none, visit := false }

/-- `Cell.link` one direction: `self.links[cell] = True`. -/
def Cell.addLink (c : Cell) (k : Coord) : Cell :=
  { c with links := linksInsert c.links k }

/-- `Cell.unlink` one direction after the key check: `del self.links[cell]`. -/
def Cell.delLink (c : Cell) (k : Coord) : Cell :=
  { c with links := c.links.erase k }

/-- The grid (class `Grid`): dimensions and the row-major list of rows of
cells, exactly as `self.grid` stores them. -/
structure Grid where
  num_rows : Nat
  num_columns : Nat
  grid : List (List Cell)
  deriving DecidableEq, Repr

/-- `Grid.create_cells`: one fresh unconnected cell per slot. -/
def create_cells (R C : Nat) : List (List Cell) :=
  (List.range R).map (fun r => (List.range C).map (fun c => mkCell r c))

/-- The neighbor wiring `Grid.connect_cells` performs on one cell:
`north`/`south`/`west`/`east` point at the adjacent coordinate when it is in
bounds (`cell.row-1 >= 0` on Python ints is `1 ≤ row`, etc.). -/
def connect_one (R C : Nat) (cell : Cell) : Cell :=
  { cell with
    north := if 1 ≤ cell.row then some (cell.row - 1, cell.column) else none,
    south := if cell.row + 1 < R then some (cell.row + 1, cell.column) else none,
    west := if 1 ≤ cell.column then some (cell.row, cell.column - 1) else none,
    east := if cell.column + 1 < C then some (cell.row, cell.column + 1) else none }

/-- `Grid.__init__ (num_rows, num_columns)`: create the cells, then connect
them (the `assert num_rows > 0` / `assert num_columns > 0` preconditions are
hypotheses of the theorems below). -/
def Grid.init (R C : Nat) : Grid :=
  { num_rows := R, num_columns := C,
    grid := (create_cells R C).map (fun row => row.map (connect_one R C)) }

/-- Look up the cell object stored at slot `p` (in-bounds row-major access). -/
def cellAtOpt (g : Grid) (p : Coord) : Option Cell :=
  (g.grid.get? p.1).bind (fun row => row.get? p.2)

/-- Replace the list entry at index `i` by `f` of it (no-op out of bounds). -/
def listModify (l : List α) (i : Nat) (f : α → α) : List α :=
  match l, i with
  | [], _ => []
  | x :: xs, 0 => f x :: xs
  | x :: xs, i + 1 => x :: listModify xs i f

/-- Mutate the cell object at slot `p` (models Python mutating the object
that every alias refers to). -/
def Grid.updateCell (g : Grid) (p : Coord) (f : Cell → Cell) : Grid :=
  { g with grid := listModify g.grid p.1 (fun row => listModify row p.2 f) }

/-- `Cell.is_linked`: `cell in self.links.keys()`. -/
def is_linked (g : Grid) (a b : Coord) : Bool :=
  match cellAtOpt g a with
  | some c => decide (b ∈ c.links)
  | none => false

/-- `Cell.link(cell)` with `bidirectional=True`: record the link in both
cells' dictionaries. -/
def Grid.link (g : Grid) (a b : Coord) : Grid :=
  (g.updateCell a (fun c => c.addLink b)).updateCell b (fun c => c.addLink a)

/-- `Cell.unlink(cell)` with `bidirectional=True`: `del self.links[cell]`
raises `KeyError` when the key is absent, then the same on the other cell. -/
def Grid.unlink (g : Grid) (a b : Coord) : Except PyErr Grid :=
  if is_linked g a b then
    let g1 := g.updateCell a (fun c => c.delLink b)
    if is_linked g1 b a then .ok (g1.updateCell b (fun c => c.delLink a))
    else .error .keyError
  else .error .keyError

/-- `Cell.link_count`: the number of keys of the `links` dictionary. -/
def link_count (g : Grid) (p : Coord) : Nat :=
  match cellAtOpt g p with
  | some c => c.links.length
  | none => 0

/-- `Cell.neighbors()`: the present geographic neighbors, in the source's
north, south, west, east order. -/
def neighborsOf (g : Grid) (p : Coord) : List Coord :=
  match cellAtOpt g p with
  | some c => c.north.toList ++ c.south.toList ++ c.west.toList ++ c.east.toList
  | none => []

/-- `Grid.each_cell()`: all coordinates in row-major order. -/
def Grid.each_cell (g : Grid) : List Coord :=
  (List.range g.num_rows).flatMap (fun r => (List.range g.num_columns).map (fun c => (r, c)))

/-- `Grid.size()`. -/
def Grid.size (g : Grid) : Nat := g.num_rows * g.num_columns

/-- Python list indexing `l[i]` for `int` i: non-negative in-range indices
read directly, negative indices in `[-len, 0)` wrap around from the end, and
everything else raises `IndexError`. -/
def pyListGet (l : List α) (i : Int) : Except PyErr α :=
  if h : 0 ≤ i ∧ i < l.length then
    .ok (l.get ⟨i.toNat, by omega⟩)
  else if h2 : -(l.length : Int) ≤ i ∧ i < 0 then
    .ok (l.get ⟨(i + l.length).toNat, by omega⟩)
  else .error .indexError

/-- `Grid.cell_at(row, column)`: `self.grid[row][column]` with Python `int`
indexing semantics. -/
def Grid.cell_at (g : Grid) (row column : Int) : Except PyErr Cell := do
  let r ← pyListGet g.grid row
  pyListGet r column

/-- `Grid.deadends` as written in the source: the body evaluates
`len(Cell.all_links())`, calling the instance method `all_links` on the class
`Cell` itself with no instance, which raises `TypeError` before any cell of
the grid is examined. -/
def Grid.deadends (_ : Grid) : Except PyErr (List Cell) :=
  .error .typeError

/-- The cells of `g` (by coordinate) whose `link_count` is 1: what the spec
says `deadends()` returns. -/
def deadendCoords (g : Grid) : List Coord :=
  g.each_cell.filter (fun p => link_count g p = 1)

/-- Class `Markup`, generic in the value type: the `marks` dictionary as an
association list in insertion order, plus the default value. -/
structure MarkupT (α : Type) where
  marks : List (Coord × α)
  default : α
  deriving DecidableEq, Repr

/-- Dictionary lookup in `marks`. -/
def marksGet (l : List (Coord × α)) (k : Coord) : Option α :=
  match l with
  | [] => none
  | (k', v) :: rest => if k' = k then some v else marksGet rest k

/-- Dictionary store `self.marks[cell] = value`: overwrite in place when the
key exists (keeping its position), append otherwise. -/
def marksSet (l : List (Coord × α)) (k : Coord) (v : α) : List (Coord × α) :=
  match l with
  | [] => [(k, v)]
  | (k', v') :: rest => if k' = k then (k, v) :: rest else (k', v') :: marksSet rest k v

/-- `Markup.__getitem__`: `self.marks.get(cell, self.default)`. -/
def MarkupT.getitem (m : MarkupT α) (k : Coord) : α :=
  (marksGet m.marks k).getD m.default

/-- `Markup.__setitem__`. -/
def MarkupT.setitem (m : MarkupT α) (k : Coord) (v : α) : MarkupT α :=
  { m with marks := marksSet m.marks k v }

/-- Python `max(iterable, key=f)`: scan the iterable keeping the current
best, replacing it only when a strictly larger key value appears, so the
FIRST element attaining the maximum is returned; `ValueError` on an empty
iterable. -/
def pyMaxBy (l : List Coord) (f : Coord → Int) : Except PyErr Coord :=
  match l with
  | [] => .error .valueError
  | x :: xs => .ok (xs.foldl (fun best y => if f best < f y then y else best) x)

/-- Python `min(iterable, key=f)`, same first-of-ties behavior. -/
def pyMinBy (l : List Coord) (f : Coord → Int) : Except PyErr Coord :=
  match l with
  | [] => .error .valueError
  | x :: xs => .ok (xs.foldl (fun best y => if f y < f best then y else best) x)

/-- `Markup.max`: `max(self.marks.keys(), key=self.__getitem__)`. -/
def MarkupT.max (m : MarkupT Int) : Except PyErr Coord :=
  pyMaxBy (m.marks.map Prod.fst) m.getitem

/-- `Markup.min`: `min(self.marks.keys(), key=self.__getitem__)`. -/
def MarkupT.min (m : MarkupT Int) : Except PyErr Coord :=
  pyMinBy (m.marks.map Prod.fst) m.getitem

/-- `n` spaces. -/
def spacesStr (n : Nat) : String :=
  String.mk (List.replicate n ' ')

/-- Python `'...'.format` with spec `^3` on a string: strings of length at
least 3 pass through; shorter ones are centered in width 3, the extra space
going to the right. -/
def pad3 (s : String) : String :=
  if 3 ≤ s.length then s
  else spacesStr ((3 - s.length) / 2) ++ s ++ spacesStr (3 - s.length - (3 - s.length) / 2)

/-- `s` repeated `n` times. -/
def strRepeat (s : String) (n : Nat) : String :=
  String.join (List.replicate n s)

/-- The cell-row part of `Grid.__str__` for one stored row: `'|'`, then per
cell the 3-wide label and the east wall (`'|'` when there is no east
neighbor, `' '` when the east neighbor `is_linked` back to this cell, `'|'`
otherwise). -/
def rowTopStr (g : Grid) (m : MarkupT String) (row : List Cell) : String :=
  row.foldl (fun acc cell =>
    acc ++ pad3 (m.getitem (cell.row, cell.column)) ++
      (match cell.east with
       | none => "|"
       | some e => if is_linked g e (cell.row, cell.column) then " " else "|")) "|"

/-- The border part of `Grid.__str__` for one stored row: `'+'`, then per
cell `'---+'` unless the south neighbor `is_linked` back, in which case
`'   +'`. -/
def rowBottomStr (g : Grid) (row : List Cell) : String :=
  row.foldl (fun acc cell =>
    acc ++ (match cell.south with
            | none => "---+"
            | some s0 => if is_linked g s0 (cell.row, cell.column) then "   +" else "---+")) "+"

/-- `Grid.__str__`: reads `self.markup`, which exists only after
`set_markup` was called — rendering a grid on which no markup was ever set
raises `AttributeError`.  With a markup, the top border line then, per row,
the cell line and the border line. -/
def gridStr (g : Grid) (markup : Option (MarkupT String)) : Except PyErr String :=
  match markup with
  | none => .error .attributeError
  | some m =>
    .ok (g.grid.foldl (fun acc row =>
      acc ++ rowTopStr g m row ++ "\n" ++ rowBottomStr g row ++ "\n")
      ("+" ++ strRepeat "---+" g.num_columns ++ "\n"))

/-- Renderer written from the SPEC's words (§6, ASCII render format): the
first line is `+` followed by `---+` repeated `columns` times; each cell row
renders a 3-character center-padded label per cell bounded by `|` where the
east link is absent and by a space where it is present, followed by a border
row with `---+` per cell without a south link and `   +` per south-linked
cell.  Used only to compare against `gridStr`. -/
def specRender (R C : Nat) (linked : Coord → Coord → Bool) (label : Coord → String) : String :=
  "+" ++ strRepeat "---+" C ++ "\n" ++
  String.join ((List.range R).map (fun r =>
    "|" ++ String.join ((List.range C).map (fun c =>
      pad3 (label (r, c)) ++
      (if c + 1 < C ∧ linked (r, c) (r, c + 1) then " " else "|"))) ++ "\n" ++
    "+" ++ String.join ((List.range C).map (fun c =>
      if r + 1 < R ∧ linked (r, c) (r + 1, c) then "   +" else "---+")) ++ "\n"))

/-- The keys of a cell's `links` dictionary. -/
def linkedNbrs (g : Grid) (p : Coord) : List Coord :=
  match cellAtOpt g p with
  | some c => c.links
  | none => []

/-- Geographic adjacency of coordinates inside an `R × C` grid: both in
bounds and differing by one in exactly one component. -/
def geoAdj (R C : Nat) (p q : Coord) : Prop :=
  p.1 < R ∧ p.2 < C ∧ q.1 < R ∧ q.2 < C ∧
    ((q.1 + 1 = p.1 ∧ q.2 = p.2) ∨ (p.1 + 1 = q.1 ∧ p.2 = q.2) ∨
     (q.2 + 1 = p.2 ∧ q.1 = p.1) ∨ (p.2 + 1 = q.2 ∧ p.1 = q.1))

/-- One breadth-first expansion step over the link relation: the set itself
together with everything linked from it. -/
def expandLinks (g : Grid) (s : Finset Coord) : Finset Coord :=
  s ∪ s.biUnion (fun p => (linkedNbrs g p).toFinset)

/-- The cells reachable from `root` in at most `n` link-hops. -/
def reachF (g : Grid) (root : Coord) : Nat → Finset Coord
  | 0 => {root}
  | n + 1 => expandLinks g (reachF g root n)

/-- Ascending search for the first index `n` in `[k, k + fuel)` with
`p ∈ reachF g root n`. -/
def firstReach (g : Grid) (root p : Coord) : Nat → Nat → Option Nat
  | _, 0 => none
  | k, fuel + 1 => if p ∈ reachF g root k then some k else firstReach g root p (k + 1) fuel

/-- The minimum number of link-hops from `root` to `p` (the first BFS level
containing `p`), or `none` when `p` is unreachable; the search range
`0..size` suffices because BFS stabilizes after `size` steps. -/
def djDist (g : Grid) (root p : Coord) : Option Nat :=
  firstReach g root p 0 (g.size + 1)

/-- One hop of the link relation, as a relation. -/
def linkStep (g : Grid) (x y : Coord) : Prop :=
  is_linked g x y = true

/-- The 2×2 grid whose only link joins (1,0) and (1,1): a linked pair in a
component not containing the root (0,0). -/
def discGrid : Grid :=
  (Grid.init 2 2).link (1, 0) (1, 1)

/-- `l` is the list of successive cells of a walk along links from `root`
ending at `p` (so `l.length` is its number of link-hops). -/
def walkTo (g : Grid) (root p : Coord) (l : List Coord) : Prop :=
  List.Chain (linkStep g) root l ∧ (root :: l).getLast (by simp) = p

/-- The 1×2 grid with its two cells linked: a small fully connected maze. -/
def wGrid : Grid :=
  (Grid.init 1 2).link (0, 0) (0, 1)

/-- Modelled from the spec: the body of `DijkstraMarkup.__init__` is an
unimplemented stub in the source (`pass`).  §4.4 of the spec: a breadth-first
expansion over the link relation assigns each cell reachable from
`root_cell` its minimum number of link-hops from the root (the root itself
0), and unreachable cells keep the default (0). -/
def DijkstraMarkup.init (g : Grid) (root : Coord) : MarkupT Int :=
  { marks := g.each_cell.filterMap
      (fun p => ((djDist g root p).map (fun n => (n : Int))).map (fun v => (p, v))),
    default := 0 }

/-- The injected random source: an infinite supply of naturals; a consumer
passes along the index of the next draw. -/
abbrev Rng := Nat → Nat

/-- `random.choice(seq)`: pick the element at a uniformly drawn index
(`IndexError` on an empty sequence).  The draw is reduced mod the length, so
a uniform draw induces a uniform index. -/
def pyChoice (l : List α) (r : Rng) (t : Nat) : Except PyErr (α × Nat) :=
  if h : 0 < l.length then .ok (l.get ⟨r t % l.length, Nat.mod_lt _ h⟩, t + 1)
  else .error .indexError

/-- `Grid.random_cell`: `random.choice(random.choice(self.grid))`. -/
def Grid.random_cell (g : Grid) (r : Rng) (t : Nat) : Except PyErr (Cell × Nat) := do
  let (row, t1) ← pyChoice g.grid r t
  pyChoice row r t1

/-- Link the cell at `p` to the cell its field `dir` points at (`cell.link
(cell.east)` and the like).  The `none` branch is a no-op; in the runs below
it is unreachable (the source would fail its `isinstance` assertion there,
and the corresponding theorems show the field is always present). -/
def linkToField (g : Grid) (p : Coord) (dir : Cell → Option Coord) : Grid :=
  match cellAtOpt g p with
  | some c =>
    match dir c with
    | some q => g.link p q
    | none => g
  | none => g

/-- `binary_tree(grid)`: link the whole top row eastward, the easternmost
column northward, and every remaining cell to its north or east neighbor by
a fair draw (`random.choice([north, east])`: an even draw picks `north`).
One draw is consumed per remaining cell, in the source's loop order. -/
def binary_tree (g : Grid) (r : Rng) : Grid :=
  let C := g.num_columns
  let g1 := (List.range C).foldl
    (fun acc j => if j ≠ C - 1 then linkToField acc (0, j) Cell.east else acc) g
  let g2 := (List.range (g.num_rows - 1)).foldl
    (fun acc k => linkToField acc (k + 1, C - 1) Cell.north) g1
  (((List.range (g.num_rows - 1)).foldl (fun st k =>
      (List.range (C - 1)).foldl (fun st2 j =>
        match cellAtOpt st2.1 (k + 1, j) with
        | some c =>
          ((match (if r st2.2 % 2 = 0 then c.north else c.east) with
            | some q => Grid.link st2.1 (k + 1, j) q
            | none => st2.1), st2.2 + 1)
        | none => (st2.1, st2.2 + 1)) st) (g2, 0)) : Grid × Nat).1

/-- The inner fold body of `binary_tree` on its `(grid, draw counter)`
state, named so the fold can be reasoned about. -/
def btStep (r : Rng) (k : Nat) (st2 : Grid × Nat) (j : Nat) : Grid × Nat :=
  match cellAtOpt st2.1 (k + 1, j) with
  | some c =>
    ((match (if r st2.2 % 2 = 0 then c.north else c.east) with
      | some q => Grid.link st2.1 (k + 1, j) q
      | none => st2.1), st2.2 + 1)
  | none => (st2.1, st2.2 + 1)

/-- The link drawn by `binary_tree` for interior cell `(k+1, j)`: its draw
counter there is `k*(C-1) + j`; an even draw links north, an odd one east. -/
def btPair (r : Rng) (C k j : Nat) : Coord × Coord :=
  if r (k * (C - 1) + j) % 2 = 0 then ((k + 1, j), (k, j))
  else ((k + 1, j), (k + 1, j + 1))

/-- One column step of a `sidewinder` row `i`: when the coin passes and the
column is not the last, append the cell and its east neighbor to the run and
link them; otherwise append the cell, choose a random entry of the run, link
it to its north neighbor, and clear the run.  The closed run is also pushed
on `log` (instrumentation only — the grid evolution is exactly the
source's). -/
def swStep (C i : Nat) (coin : Nat → Nat → Bool) (pick : Nat → Nat → Nat)
    (st : Grid × List Coord × List (List Coord)) (j : Nat) :
    Grid × List Coord × List (List Coord) :=
  let g := st.1
  let tmp := st.2.1
  let log := st.2.2
  if coin i j = true ∧ j ≠ C - 1 then
    (Grid.link g (i, j) (i, j + 1), tmp ++ [(i, j), (i, j + 1)], log)
  else
    let tmp' := tmp ++ [(i, j)]
    let chose := tmp'.getD (pick i j % tmp'.length) (i, j)
    (linkToField g chose Cell.north, [], log ++ [tmp'])

/-- `sidewinder(grid, odds)`: the top row is linked eastward; every later
row is scanned west→east by `swStep`.  `coin i j` is the outcome of
`random.uniform(0, 1) >= odds` at row `i`, column `j`; `pick i j` is the
draw behind `random.choice(tmplist)` when the run closes there.  The second
component returns every closed run list (instrumentation). -/
def sidewinder (g : Grid) (coin : Nat → Nat → Bool) (pick : Nat → Nat → Nat) :
    Grid × List (List Coord) :=
  let C := g.num_columns
  let g1 := (List.range C).foldl
    (fun acc j => if j ≠ C - 1 then linkToField acc (0, j) Cell.east else acc) g
  (List.range (g.num_rows - 1)).foldl (fun st k =>
    let st2 := (List.range C).foldl (swStep C (k + 1) coin pick) (st.1, [], st.2)
    (st2.1, st2.2.2)) (g1, [])

/-- Outcome of a fuel-bounded run: finished, out of fuel, or a raised
error. -/
inductive RunOut (α : Type) where
  | done (a : α)
  | fuel
  | err (e : PyErr)
  deriving DecidableEq, Repr

/-- The loop of `aldous_broder`: while unvisited cells remain, step to a
random geographic neighbor, linking to it first when it is unvisited.
Membership in `notvisited` is exactly the source's visited test (the
shadowing attribute and the `cell_notvisited` list are kept in sync by the
source). -/
def abLoop (r : Rng) : Nat → Grid → Coord → List Coord → Nat → RunOut Grid
  | 0, _, _, _, _ => .fuel
  | fuel + 1, g, cur, notvisited, t =>
    if notvisited = [] then .done g
    else
      match pyChoice (neighborsOf g cur) r t with
      | .error e => .err e
      | .ok (next, t1) =>
        if next ∈ notvisited then
          abLoop r fuel (Grid.link g cur next) next (notvisited.erase next) t1
        else
          abLoop r fuel g next notvisited t1

/-- `aldous_broder(grid)`: a random start cell, every other cell initially
not visited, then the random walk until all are visited. -/
def aldous_broder (g : Grid) (r : Rng) (fuel : Nat) : RunOut Grid :=
  match Grid.random_cell g r 0 with
  | .error e => .err e
  | .ok (startCell, t) =>
    abLoop r fuel g (startCell.row, startCell.column)
      (g.each_cell.erase (startCell.row, startCell.column)) t

/-- The close-out loop of `wilson`: `for i, cell in enumerate(tmpgrids)`,
linking `tmpgrids[i]` to `tmpgrids[i+1]` whenever `tmpgrids[i]` differs
from the final entry.  On the duplicate-free paths the loop-erased walk
produces, this links exactly the consecutive pairs. -/
def wilsonLinkPath (g0 : Grid) (path : List Coord) : Grid :=
  (List.range path.length).foldl (fun acc i =>
    if path.getD i (0, 0) ≠ path.getLastD (0, 0) then
      Grid.link acc (path.getD i (0, 0)) (path.getD (i + 1) (0, 0))
    else acc) g0

/-- One step of the `wilson` close-out loop (the fold body of
`wilsonLinkPath`), named so the fold can be reasoned about. -/
def wlpStep (path : List Coord) (acc : Grid) (i : Nat) : Grid :=
  if path.getD i (0, 0) ≠ path.getLastD (0, 0) then
    Grid.link acc (path.getD i (0, 0)) (path.getD (i + 1) (0, 0))
  else acc

/-- `while tmpgrids[-1] != next_cell: tmpgrids.pop()`: drop entries from the
end until the last one is `x`. -/
def popUntil (path : List Coord) (x : Coord) : List Coord :=
  (path.reverse.dropWhile (fun q => q ≠ x)).reverse

/-- The main loop of `wilson`: walk from the head of the current path
(`tmpgrids[-1]`); on hitting a cell outside `cell_unused`, carve the path
and close it into that cell, remove the path from `cell_unused`, and either
finish or start a new path at a random unused cell; on hitting the path
itself, erase the loop; otherwise extend the path. -/
def wilsonLoop (r : Rng) : Nat → Grid → List Coord → List Coord → Nat → RunOut Grid
  | 0, _, _, _, _ => .fuel
  | fuel + 1, g, path, unused, t =>
    match pyChoice (neighborsOf g (path.getLastD (0, 0))) r t with
    | .error e => .err e
    | .ok (next, t1) =>
      if next ∉ unused then
        let g2 := Grid.link (wilsonLinkPath g path) (path.getLastD (0, 0)) next
        let unused1 := path.foldl (fun acc p => acc.erase p) unused
        if unused1 = [] then .done g2
        else
          match pyChoice unused1 r t1 with
          | .error e => .err e
          | .ok (f1, t2) => wilsonLoop r fuel g2 [f1] unused1 t2
      else if next ∈ path then
        wilsonLoop r fuel g (popUntil path next) unused t1
      else
        wilsonLoop r fuel g (path ++ [next]) unused t1

/-- `wilson(grid)`: mark one random cell visited (remove it from
`cell_unused`), pick a random unused cell to start the first loop-erased
walk — `random.choice` on the list of unused cells, which RAISES
`IndexError` when every cell is already visited (the 1×1 grid) — then run
the walk loop. -/
def wilson (g : Grid) (r : Rng) (fuel : Nat) : RunOut Grid :=
  match Grid.random_cell g r 0 with
  | .error e => .err e
  | .ok (chosenCell, t) =>
    let unused := g.each_cell.erase (chosenCell.row, chosenCell.column)
    match pyChoice unused r t with
    | .error e => .err e
    | .ok (f1, t1) => wilsonLoop r fuel g [f1] unused t1

/-- Modelled from the spec: the body of `recursive_backtracker` is an
unimplemented stub in the source (`pass`).  §4.8 of the spec: an explicit
stack of cells and a visited marker; while the stack is non-empty, collect
the top cell's unvisited geographic neighbors; link the top to a uniformly
random one, mark it visited and push it, or pop when none remain. -/
def rbLoop (r : Rng) : Nat → Grid → List Coord → List Coord → Nat → RunOut Grid
  | 0, _, _, _, _ => .fuel
  | fuel + 1, g, stack, visited, t =>
    match stack with
    | [] => .done g
    | top :: rest =>
      let unvis := (neighborsOf g top).filter (fun q => q ∉ visited)
      if unvis = [] then rbLoop r fuel g rest visited t
      else
        match pyChoice unvis r t with
        | .error e => .err e
        | .ok (q, t1) => rbLoop r fuel (Grid.link g top q) (q :: top :: rest) (q :: visited) t1

/-- Modelled from the spec (see `rbLoop`): start at the given cell, mark it
visited, and run the stack loop. -/
def recursive_backtracker (g : Grid) (start : Coord) (r : Rng) (fuel : Nat) : RunOut Grid :=
  rbLoop r fuel g [start] [start] 0

/-- Adjacency generated by an explicit list of linked pairs. -/
def adjE (E : List (Coord × Coord)) (x y : Coord) : Prop :=
  (x, y) ∈ E ∨ (y, x) ∈ E

/-- Adjacency of a grid state: some link between the two cells, in either
direction. -/
def gridAdj (g : Grid) (x y : Coord) : Prop :=
  is_linked g x y = true ∨ is_linked g y x = true

/-- A simple cycle for an adjacency relation: pairwise-distinct vertices
`a :: l`, at least three of them, consecutive ones adjacent, closing back at
`a`. -/
def HasCycle (adj : Coord → Coord → Prop) : Prop :=
  ∃ (a : Coord) (l : List Coord), 2 ≤ l.length ∧ (a :: l).Nodup ∧
    List.Chain adj a (l ++ [a])

/-- The link relation of `g` is connected over all cells of the grid. -/
def ConnectedGrid (g : Grid) : Prop :=
  ∀ p ∈ g.each_cell, ∀ q ∈ g.each_cell, Relation.ReflTransGen (gridAdj g) p q

/-- Links present in a grid state, as directed pairs read off every cell. -/
def linkPairs (g : Grid) : List (Coord × Coord) :=
  g.each_cell.flatMap (fun p => (linkedNbrs g p).map (fun q => (p, q)))

/-- The undirected links of a grid state, each counted once. -/
def edgeFinsetOf (g : Grid) : Finset (Sym2 Coord) :=
  ((linkPairs g).map (fun p => s(p.1, p.2))).toFinset

/-- The number of undirected links of a grid state. -/
def undirectedLinkCount (g : Grid) : Nat :=
  (edgeFinsetOf g).card

/-- Perform a list of bidirectional links. -/
def applyLinks (g : Grid) (ps : List (Coord × Coord)) : Grid :=
  ps.foldl (fun acc p => acc.link p.1 p.2) g

/-- `Grows T ps T'`: scanning `ps` left to right, each pair attaches one
fresh vertex to a vertex already present (in either orientation), growing
`T` into `T'`.  This is the defining shape of a tree built edge by edge. -/
inductive Grows : Finset Coord → List (Coord × Coord) → Finset Coord → Prop where
  | nil {T : Finset Coord} : Grows T [] T
  | consF {T T' : Finset Coord} {a b : Coord} {ps : List (Coord × Coord)} :
      a ∈ T → b ∉ T → Grows (insert b T) ps T' → Grows T ((a, b) :: ps) T'
  | consR {T T' : Finset Coord} {a b : Coord} {ps : List (Coord × Coord)} :
      b ∈ T → a ∉ T → Grows (insert a T) ps T' → Grows T ((a, b) :: ps) T'

/-- The undirected edges between consecutive entries of a list of cells. -/
def walkEdges (l : List Coord) : Finset (Sym2 Coord) :=
  (Finset.range (l.length - 1)).image (fun i => s(l.getD i (0, 0), l.getD (i + 1) (0, 0)))

/-- What the spec promises every generation algorithm: exactly `R*C - 1`
undirected links, a connected link graph, and no cycle. -/
def mazeOk (g : Grid) (R C : Nat) : Prop :=
  undirectedLinkCount g = R * C - 1 ∧ ConnectedGrid g ∧ ¬ HasCycle (gridAdj g)

/-- All coordinates of an `R × C` grid. -/
def allCoordsF (R C : Nat) : Finset Coord :=
  Finset.range R ×ˢ Finset.range C

/-- A grid whose slots hold cells with matching identity fields and the
neighbor wiring `connect_cells` establishes, with the stored row structure
matching the dimensions.  The link lists are unconstrained.  `Grid.init`
produces such a grid and `link`/`unlink` preserve the shape. -/
def SlotStd (g : Grid) (r c : Nat) : Prop :=
  (cellAtOpt g (r, c)).map Cell.row = some r ∧
  (cellAtOpt g (r, c)).map Cell.column = some c ∧
  (cellAtOpt g (r, c)).map Cell.north = some (if 1 ≤ r then some (r - 1, c) else none) ∧
  (cellAtOpt g (r, c)).map Cell.south = some (if r + 1 < g.num_rows then some (r + 1, c) else none) ∧
  (cellAtOpt g (r, c)).map Cell.west = some (if 1 ≤ c then some (r, c - 1) else none) ∧
  (cellAtOpt g (r, c)).map Cell.east = some (if c + 1 < g.num_columns then some (r, c + 1) else none)

def Grid.Std (g : Grid) : Prop :=
  g.grid.length = g.num_rows ∧
  (∀ row ∈ g.grid, row.length = g.num_columns) ∧
  ∀ r, r < g.num_rows → ∀ c, c < g.num_columns → SlotStd g r c

/-- Mid-run invariant of the generation algorithms: a standard `R × C` grid
whose links are exactly the Sym2 image of a list growing a tree from `root`
over the visited set `V`. -/
def TreeInv (g : Grid) (R C : Nat) (root : Coord) (ps : List (Coord × Coord))
    (V : Finset Coord) : Prop :=
  g.Std ∧ g.num_rows = R ∧ g.num_columns = C ∧
  Grows {root} ps V ∧ V ⊆ allCoordsF R C ∧
  edgeFinsetOf g = (ps.map (fun pr => s(pr.1, pr.2))).toFinset

/-- Final state of a generation algorithm: a standard `R × C` grid whose
links are exactly a tree spanning all cells. -/
def TreeOut (g : Grid) (R C : Nat) : Prop :=
  g.Std ∧ g.num_rows = R ∧ g.num_columns = C ∧
  ∃ root ps, Grows {root} ps (allCoordsF R C) ∧
    edgeFinsetOf g = (ps.map (fun pr => s(pr.1, pr.2))).toFinset

/-- Every cell's `links` dictionary has pairwise distinct keys (Python
dictionaries cannot hold a key twice). -/
def LinksNodup (g : Grid) : Prop :=
  ∀ row ∈ g.grid, ∀ cell ∈ row, cell.links.Nodup

/-- Every link target lies inside the grid. -/
def LinksIn (g : Grid) : Prop :=
  ∀ row ∈ g.grid, ∀ cell ∈ row, ∀ q ∈ cell.links, q.1 < g.num_rows ∧ q.2 < g.num_columns

/-- The link relation is symmetric over the cells of the grid. -/
def SymLinks (g : Grid) : Prop :=
  ∀ p ∈ g.each_cell, ∀ q ∈ g.each_cell, is_linked g p q = is_linked g q p

/-- Every link joins geographically adjacent cells. -/
def LinksGeo (g : Grid) : Prop :=
  ∀ p ∈ g.each_cell, ∀ q ∈ linkedNbrs g p, geoAdj g.num_rows g.num_columns p q

/-- The non-link fields of the cell at `p` (used to state that operations
never change the topology). -/
def topoFields (g : Grid) (p : Coord) : Option (Option Coord × Option Coord × Option Coord × Option Coord) :=
  (cellAtOpt g p).map (fun c => (c.north, c.south, c.west, c.east))

/-- Python's index normalization for a list of length `n`: negative indices
count from the end. -/
def pyWrap (n : Nat) (i : Int) : Nat :=
  if 0 ≤ i then i.toNat else (i + n).toNat

/-- The run list a Sidewinder close at column `e` draws from, for a run
that started at column `s` of row `i`: the first run member once, every
later member twice. -/
def runShape (i s e : Nat) : List Coord :=
  (i, s) :: (List.range (e - s)).flatMap (fun k => [(i, s + k + 1), (i, s + k + 1)])

/-- The run list while a run is still open: before column `j` is processed,
a run begun at column `s < j` holds its first member once, members strictly
between once doubled, and the current head `j` once. -/
def midShape (i s j : Nat) : List Coord :=
  (i, s) :: ((List.range (j - s - 1)).flatMap (fun k => [(i, s + k + 1), (i, s + k + 1)])) ++ [(i, j)]

/-- The tmp-list/log evolution of `swStep`, without the grid (the run
bookkeeping does not depend on the grid state). -/
def swTmpStep (C i : Nat) (coin : Nat → Nat → Bool) (st : List Coord × List (List Coord)) (j : Nat) :
    List Coord × List (List Coord) :=
  if coin i j = true ∧ j ≠ C - 1 then
    (st.1 ++ [(i, j), (i, j + 1)], st.2)
  else
    (([] : List Coord), st.2 ++ [st.1 ++ [(i, j)]])

/-- The 2×2 grid fully linked in an L shape (the spec's deadend scenario):
a path (1,0) — (0,0) — (0,1) — (1,1). -/
def lGrid : Grid :=
  (((Grid.init 2 2).link (1, 0) (0, 0)).link (0, 0) (0, 1)).link (0, 1) (1, 1)

/-- A markup over the 1×2 grid with two entries tied at value 5, the cell
(0,1) inserted before (0,0). -/
def tieMarkup : MarkupT Int :=
  { marks := [((0, 1), 5), ((0, 0), 5)], default := 0 }

/-- A one-entry markup. -/
def oneMarkup : MarkupT Int :=
  { marks := [((0, 0), 1)], default := 0 }

/-- A `Markup(grid)` with no explicit entries: every cell reads the default
blank label. -/
def blankMarkup : MarkupT String :=
  { marks := [], default := " " }

instance (g : Grid) : Decidable (LinksNodup g) :=
  inferInstanceAs (Decidable (∀ row ∈ g.grid, ∀ cell ∈ row, cell.links.Nodup))

instance (g : Grid) : Decidable (LinksIn g) :=
  inferInstanceAs (Decidable (∀ row ∈ g.grid, ∀ cell ∈ row, ∀ q ∈ cell.links,
    q.1 < g.num_rows ∧ q.2 < g.num_columns))

instance (g : Grid) : Decidable (SymLinks g) :=
  inferInstanceAs (Decidable (∀ p ∈ g.each_cell, ∀ q ∈ g.each_cell,
    is_linked g p q = is_linked g q p))

instance (R C : Nat) (p q : Coord) : Decidable (geoAdj R C p q) :=
  inferInstanceAs (Decidable (_ ∧ _ ∧ _ ∧ _ ∧ (_ ∨ _ ∨ _ ∨ _)))

instance (g : Grid) : Decidable (LinksGeo g) :=
  inferInstanceAs (Decidable (∀ p ∈ g.each_cell, ∀ q ∈ linkedNbrs g p,
    geoAdj g.num_rows g.num_columns p q))

instance {ε α : Type} [DecidableEq ε] [DecidableEq α] : DecidableEq (Except ε α)
  | .ok a, .ok b => decidable_of_iff (a = b) (by simp)
  | .error a, .error b => decidable_of_iff (a = b) (by simp)
  | .ok _, .error _ => isFalse (by simp)
  | .error _, .ok _ => isFalse (by simp)

instance (g : Grid) (r c : Nat) : Decidable (SlotStd g r c) := by
  unfold SlotStd
  infer_instance

instance (g : Grid) : Decidable g.Std := by
  unfold Grid.Std
  infer_instance

/-! ### Basic lemmas about the state model -/

theorem listModify_length (l : List α) (i : Nat) (f : α → α) :
    (listModify l i f).length = l.length := by
  induction l generalizing i with
  | nil => rfl
  | cons x xs ih =>
    cases i with
    | zero => rfl
    | succ i => simp [listModify, ih]

theorem listModify_getElem? (l : List α) (i j : Nat) (f : α → α) :
    (listModify l i f)[j]? = if j = i then l[j]?.map f else l[j]? := by
  induction l generalizing i j with
  | nil => simp [listModify]
  | cons x xs ih =>
    cases i with
    | zero =>
      cases j with
      | zero => simp [listModify]
      | succ j => simp [listModify]
    | succ i =>
      cases j with
      | zero => simp [listModify]
      | succ j => simpa [listModify] using ih i j

theorem mem_listModify (l : List α) (i : Nat) (f : α → α) (x : α)
    (hx : x ∈ listModify l i f) : x ∈ l ∨ ∃ y ∈ l, x = f y := by
  induction l generalizing i with
  | nil => simp [listModify] at hx
  | cons a as ih =>
    cases i with
    | zero =>
      rcases List.mem_cons.mp hx with h | h
      · exact .inr ⟨a, by simp, h⟩
      · exact .inl (by simp [h])
    | succ i =>
      rcases List.mem_cons.mp hx with h | h
      · exact .inl (by simp [h])
      · rcases ih i h with h' | ⟨y, hy, hxy⟩
        · exact .inl (by simp [h'])
        · exact .inr ⟨y, by simp [hy], hxy⟩

theorem cellAtOpt_updateCell (g : Grid) (p q : Coord) (f : Cell → Cell) :
    cellAtOpt (g.updateCell p f) q =
      if q = p then (cellAtOpt g p).map f else cellAtOpt g q := by
  obtain ⟨p1, p2⟩ := p
  obtain ⟨q1, q2⟩ := q
  simp only [cellAtOpt, Grid.updateCell, List.get?_eq_getElem?, listModify_getElem?,
    Prod.mk.injEq]
  by_cases h1 : q1 = p1
  · subst h1
    rw [if_pos rfl]
    by_cases h2 : q2 = p2
    · subst h2
      rw [if_pos ⟨rfl, rfl⟩]
      cases hrow : g.grid[q1]? with
      | none => simp [hrow]
      | some row => simp [hrow, listModify_getElem?]
    · rw [if_neg (by simp [h2])]
      cases hrow : g.grid[q1]? with
      | none => simp [hrow]
      | some row => simp [hrow, listModify_getElem?, h2]
  · rw [if_neg (by simp [h1])]
    simp [h1]

theorem num_rows_updateCell (g : Grid) (p : Coord) (f : Cell → Cell) :
    (g.updateCell p f).num_rows = g.num_rows := rfl

theorem num_columns_updateCell (g : Grid) (p : Coord) (f : Cell → Cell) :
    (g.updateCell p f).num_columns = g.num_columns := rfl

theorem num_rows_link (g : Grid) (a b : Coord) : (g.link a b).num_rows = g.num_rows := rfl

theorem num_columns_link (g : Grid) (a b : Coord) : (g.link a b).num_columns = g.num_columns := rfl

theorem mem_linksInsert (l : List Coord) (k x : Coord) :
    x ∈ linksInsert l k ↔ x ∈ l ∨ x = k := by
  unfold linksInsert
  by_cases h : k ∈ l
  · simp only [if_pos h]
    constructor
    · exact fun hx => .inl hx
    · rintro (hx | rfl) <;> [exact hx; exact h]
  · simp [if_neg h]

theorem addLink_fields (c : Cell) (k : Coord) :
    (c.addLink k).row = c.row ∧ (c.addLink k).column = c.column ∧
    (c.addLink k).north = c.north ∧ (c.addLink k).south = c.south ∧
    (c.addLink k).west = c.west ∧ (c.addLink k).east = c.east := by
  simp [Cell.addLink]

theorem delLink_fields (c : Cell) (k : Coord) :
    (c.delLink k).row = c.row ∧ (c.delLink k).column = c.column ∧
    (c.delLink k).north = c.north ∧ (c.delLink k).south = c.south ∧
    (c.delLink k).west = c.west ∧ (c.delLink k).east = c.east := by
  simp [Cell.delLink]

theorem topoFields_updateCell (g : Grid) (p q : Coord) (f : Cell → Cell)
    (hf : ∀ c, (f c).north = c.north ∧ (f c).south = c.south ∧
               (f c).west = c.west ∧ (f c).east = c.east) :
    topoFields (g.updateCell p f) q = topoFields g q := by
  simp only [topoFields, cellAtOpt_updateCell]
  by_cases h : q = p
  · subst h
    cases cellAtOpt g q with
    | none => simp
    | some c => simp [(hf c).1, (hf c).2.1, (hf c).2.2.1, (hf c).2.2.2]
  · simp [h]

theorem topoFields_link (g : Grid) (a b q : Coord) :
    topoFields (g.link a b) q = topoFields g q := by
  unfold Grid.link
  rw [topoFields_updateCell, topoFields_updateCell]
  · exact fun c => ⟨rfl, rfl, rfl, rfl⟩
  · exact fun c => ⟨rfl, rfl, rfl, rfl⟩

theorem is_linked_of_cell (g : Grid) (x y : Coord) (c : Cell)
    (h : cellAtOpt g x = some c) : is_linked g x y = decide (y ∈ c.links) := by
  unfold is_linked
  rw [h]

theorem is_linked_of_none (g : Grid) (x y : Coord)
    (h : cellAtOpt g x = none) : is_linked g x y = false := by
  unfold is_linked
  rw [h]

theorem is_linked_link_iff (g : Grid) (a b x y : Coord)
    (ha : (cellAtOpt g a).isSome) (hb : (cellAtOpt g b).isSome) :
    is_linked (g.link a b) x y = true ↔
      is_linked g x y = true ∨ (x = a ∧ y = b) ∨ (x = b ∧ y = a) := by
  obtain ⟨ca, hca⟩ := Option.isSome_iff_exists.mp ha
  obtain ⟨cb, hcb⟩ := Option.isSome_iff_exists.mp hb
  have key : cellAtOpt (g.link a b) x =
      if x = b then
        (if (b : Coord) = a then (cellAtOpt g a).map (fun c => c.addLink b)
         else cellAtOpt g b).map (fun c => c.addLink a)
      else if x = a then (cellAtOpt g a).map (fun c => c.addLink b) else cellAtOpt g x := by
    unfold Grid.link
    simp only [cellAtOpt_updateCell]
  by_cases hxb : x = b
  · subst hxb
    by_cases hxa : x = a
    · subst hxa
      simp only [if_pos rfl, hca, Option.map_some'] at key
      rw [is_linked_of_cell _ _ _ _ key, is_linked_of_cell _ _ _ _ hca]
      simp [Cell.addLink, mem_linksInsert]
    · simp only [if_pos rfl, if_neg hxa, hcb, Option.map_some'] at key
      rw [is_linked_of_cell _ _ _ _ key, is_linked_of_cell _ _ _ _ hcb]
      simp [Cell.addLink, mem_linksInsert, hxa]
  · by_cases hxa : x = a
    · subst hxa
      simp only [if_neg hxb, if_pos rfl, hca, Option.map_some'] at key
      rw [is_linked_of_cell _ _ _ _ key, is_linked_of_cell _ _ _ _ hca]
      simp [Cell.addLink, mem_linksInsert, hxb]
    · simp only [if_neg hxb, if_neg hxa] at key
      cases hcx : cellAtOpt g x with
      | none =>
        rw [hcx] at key
        rw [is_linked_of_none _ _ _ key, is_linked_of_none _ _ _ hcx]
        simp [hxa, hxb]
      | some cx =>
        rw [hcx] at key
        rw [is_linked_of_cell _ _ _ _ key, is_linked_of_cell _ _ _ _ hcx]
        simp [hxa, hxb]

theorem cellAtOpt_init (R C : Nat) (r c : Nat) :
    cellAtOpt (Grid.init R C) (r, c) =
      if r < R ∧ c < C then some (connect_one R C (mkCell r c)) else none := by
  simp only [cellAtOpt, Grid.init, create_cells, List.map_map, List.get?_eq_getElem?,
    List.getElem?_map, List.getElem?_range']
  by_cases hr : r < R
  · by_cases hc : c < C
    · simp [List.getElem?_range, hr, hc, Function.comp]
    · simp [List.getElem?_range, hr, hc, Function.comp]
      omega
  · have hnone : (List.range R)[r]? = none := List.getElem?_eq_none (by simpa using by omega)
    simp [hnone, hr]

theorem mem_each_cell (g : Grid) (p : Coord) :
    p ∈ g.each_cell ↔ p.1 < g.num_rows ∧ p.2 < g.num_columns := by
  obtain ⟨p1, p2⟩ := p
  simp only [Grid.each_cell, List.mem_flatMap, List.mem_map, List.mem_range]
  constructor
  · rintro ⟨r, hr, c, hc, h⟩
    obtain ⟨rfl, rfl⟩ := Prod.mk.injEq .. ▸ h
    exact ⟨hr, hc⟩
  · rintro ⟨h1, h2⟩
    exact ⟨p1, h1, p2, h2, rfl⟩

theorem is_linked_true_iff (g : Grid) (x y : Coord) :
    is_linked g x y = true ↔ ∃ c, cellAtOpt g x = some c ∧ y ∈ c.links := by
  unfold is_linked
  cases h : cellAtOpt g x with
  | none => simp
  | some c => simp [h]

theorem cellAtOpt_mem (g : Grid) (p : Coord) (c : Cell) (h : cellAtOpt g p = some c) :
    ∃ row ∈ g.grid, c ∈ row := by
  unfold cellAtOpt at h
  cases hrow : g.grid.get? p.1 with
  | none => rw [hrow] at h; cases h
  | some row =>
    rw [hrow] at h
    simp only [Option.some_bind] at h
    refine ⟨row, ?_, ?_⟩
    · exact List.get?_mem hrow
    · exact List.get?_mem h

theorem linksNodup_at (g : Grid) (hnd : LinksNodup g) (p : Coord) (c : Cell)
    (h : cellAtOpt g p = some c) : c.links.Nodup := by
  obtain ⟨row, hrow, hc⟩ := cellAtOpt_mem g p c h
  exact hnd row hrow c hc

theorem bool_eq_of_iff {a b : Bool} (h : a = true ↔ b = true) : a = b := by
  cases a <;> cases b <;> simp_all

/-! ### Standard shape: established by construction, preserved by linking -/

theorem std_init (R C : Nat) : (Grid.init R C).Std := by
  refine ⟨?_, ?_, ?_⟩
  · simp [Grid.init, create_cells]
  · intro row hrow
    simp only [Grid.init, create_cells, List.map_map, List.mem_map, List.mem_range] at hrow
    obtain ⟨r, _, rfl⟩ := hrow
    simp [Function.comp, Grid.init]
  · intro r hr c hc
    rw [show ((Grid.init R C).num_rows : Nat) = R from rfl] at hr
    rw [show ((Grid.init R C).num_columns : Nat) = C from rfl] at hc
    unfold SlotStd
    rw [cellAtOpt_init, if_pos ⟨hr, hc⟩]
    simp [connect_one, mkCell, Grid.init]

theorem std_updateCell (g : Grid) (p : Coord) (f : Cell → Cell)
    (hf : ∀ c, (f c).row = c.row ∧ (f c).column = c.column ∧
               (f c).north = c.north ∧ (f c).south = c.south ∧
               (f c).west = c.west ∧ (f c).east = c.east)
    (h : g.Std) : (g.updateCell p f).Std := by
  obtain ⟨hlen, hrows, hcells⟩ := h
  refine ⟨?_, ?_, ?_⟩
  · show (listModify g.grid p.1 _).length = g.num_rows
    rw [listModify_length]; exact hlen
  · intro row hrow
    rcases mem_listModify _ _ _ _ hrow with h' | ⟨row₀, hrow₀, rfl⟩
    · exact hrows row h'
    · show (listModify row₀ p.2 f).length = _
      rw [listModify_length]; exact hrows row₀ hrow₀
  · intro r hr c hc
    rw [show ((g.updateCell p f).num_rows : Nat) = g.num_rows from rfl] at hr
    rw [show ((g.updateCell p f).num_columns : Nat) = g.num_columns from rfl] at hc
    have := hcells r hr c hc
    unfold SlotStd at this ⊢
    rw [show ((g.updateCell p f).num_rows : Nat) = g.num_rows from rfl,
        show ((g.updateCell p f).num_columns : Nat) = g.num_columns from rfl,
        cellAtOpt_updateCell]
    by_cases hq : ((r, c) : Coord) = p
    · cases hcell : cellAtOpt g p with
      | none =>
        rw [← hq] at hcell
        rw [hcell] at this
        simp at this
      | some cell =>
        have heq := hcell
        rw [← hq] at heq
        rw [heq] at this
        simp only [if_pos hq, hcell, Option.map_some']
        obtain ⟨f1, f2, f3, f4, f5, f6⟩ := hf cell
        simp only [Option.map_some'] at this ⊢
        rw [f1, f2, f3, f4, f5, f6]
        exact this
    · rw [if_neg hq]
      exact this

theorem std_link (g : Grid) (a b : Coord) (h : g.Std) : (g.link a b).Std := by
  unfold Grid.link
  apply std_updateCell
  · exact fun c => ⟨rfl, rfl, rfl, rfl, rfl, rfl⟩
  · apply std_updateCell
    · exact fun c => ⟨rfl, rfl, rfl, rfl, rfl, rfl⟩
    · exact h

theorem unlink_ok_eq (g : Grid) (a b : Coord) (g' : Grid) (h : g.unlink a b = .ok g') :
    g' = (g.updateCell a (fun c => c.delLink b)).updateCell b (fun c => c.delLink a) ∧
    is_linked g a b = true ∧
    is_linked (g.updateCell a (fun c => c.delLink b)) b a = true := by
  unfold Grid.unlink at h
  by_cases h1 : is_linked g a b
  · rw [if_pos h1] at h
    by_cases h2 : is_linked (g.updateCell a (fun c => c.delLink b)) b a
    · rw [if_pos h2] at h
      exact ⟨(Except.ok.inj h).symm, h1, h2⟩
    · rw [if_neg h2] at h
      cases h
  · rw [if_neg h1] at h
    cases h

theorem std_unlink (g : Grid) (a b : Coord) (g' : Grid)
    (h : g.unlink a b = .ok g') (hstd : g.Std) : g'.Std := by
  obtain ⟨rfl, -, -⟩ := unlink_ok_eq g a b g' h
  apply std_updateCell
  · exact fun c => ⟨rfl, rfl, rfl, rfl, rfl, rfl⟩
  · apply std_updateCell
    · exact fun c => ⟨rfl, rfl, rfl, rfl, rfl, rfl⟩
    · exact hstd

theorem is_linked_updateCell_other (g : Grid) (p : Coord) (f : Cell → Cell)
    (x y : Coord) (hx : x ≠ p) :
    is_linked (g.updateCell p f) x y = is_linked g x y := by
  unfold is_linked
  rw [cellAtOpt_updateCell, if_neg hx]

theorem is_linked_unlink_iff (g g' : Grid) (a b : Coord) (hab : a ≠ b)
    (hnd : LinksNodup g) (h : g.unlink a b = .ok g') (x y : Coord) :
    is_linked g' x y = true ↔
      is_linked g x y = true ∧ ¬(x = a ∧ y = b) ∧ ¬(x = b ∧ y = a) := by
  obtain ⟨rfl, h1, -⟩ := unlink_ok_eq g a b g' h
  obtain ⟨ca, hca, -⟩ := (is_linked_true_iff g a b).mp h1
  have hndca := linksNodup_at g hnd a ca hca
  by_cases hxb : x = b
  · subst hxb
    have hxa : x ≠ a := fun hc => hab (hc ▸ rfl)
    have hL : cellAtOpt ((g.updateCell a (fun c => c.delLink x)).updateCell x
        (fun c => c.delLink a)) x = (cellAtOpt g x).map (fun c => c.delLink a) := by
      rw [cellAtOpt_updateCell, if_pos rfl, cellAtOpt_updateCell, if_neg hxa]
    cases hcx : cellAtOpt g x with
    | none =>
      rw [is_linked_of_none _ _ _ (by rw [hL, hcx]; rfl), is_linked_of_none _ _ _ hcx]
      simp
    | some cx =>
      have hndcx := linksNodup_at g hnd x cx hcx
      rw [is_linked_of_cell _ _ _ (cx.delLink a) (by rw [hL, hcx]; rfl),
        is_linked_of_cell _ _ _ _ hcx]
      simp only [Cell.delLink, decide_eq_true_eq]
      rw [List.Nodup.mem_erase_iff hndcx]
      simp [hxa]
      tauto
  · by_cases hxa : x = a
    · subst hxa
      have hL : cellAtOpt ((g.updateCell x (fun c => c.delLink b)).updateCell b
          (fun c => c.delLink x)) x = some (ca.delLink b) := by
        rw [cellAtOpt_updateCell, if_neg hxb, cellAtOpt_updateCell, if_pos rfl, hca]
        rfl
      rw [is_linked_of_cell _ _ _ _ hL, is_linked_of_cell _ _ _ _ hca]
      simp only [Cell.delLink, decide_eq_true_eq]
      rw [List.Nodup.mem_erase_iff hndca]
      simp [hxb]
      tauto
    · have hL : cellAtOpt ((g.updateCell a (fun c => c.delLink b)).updateCell b
          (fun c => c.delLink a)) x = cellAtOpt g x := by
        rw [cellAtOpt_updateCell, if_neg hxb, cellAtOpt_updateCell, if_neg hxa]
      cases hcx : cellAtOpt g x with
      | none =>
        rw [is_linked_of_none _ _ _ (by rw [hL, hcx]), is_linked_of_none _ _ _ hcx]
        simp
      | some cx =>
        rw [is_linked_of_cell _ _ _ _ (by rw [hL, hcx] : _ = some cx),
          is_linked_of_cell _ _ _ _ hcx]
        simp [hxa, hxb]

/-- C10: after construction with `rows > 0` and `columns > 0`, the
geographic neighbor references are exactly the in-bounds row-major
coordinate neighbors, east/west and north/south references are mutually
inverse, and neither `link` nor a successful `unlink` ever changes any
cell's neighbor references. -/
theorem C10_topology (R C : Nat) (hR : 0 < R) (hC : 0 < C) :
    (∀ r c, r < R → c < C →
      (cellAtOpt (Grid.init R C) (r, c)).map Cell.north
          = some (if 1 ≤ r then some (r - 1, c) else none) ∧
      (cellAtOpt (Grid.init R C) (r, c)).map Cell.south
          = some (if r + 1 < R then some (r + 1, c) else none) ∧
      (cellAtOpt (Grid.init R C) (r, c)).map Cell.west
          = some (if 1 ≤ c then some (r, c - 1) else none) ∧
      (cellAtOpt (Grid.init R C) (r, c)).map Cell.east
          = some (if c + 1 < C then some (r, c + 1) else none)) ∧
    (∀ r c r' c' cell cell',
      cellAtOpt (Grid.init R C) (r, c) = some cell →
      cellAtOpt (Grid.init R C) (r', c') = some cell' →
      ((cell.east = some (r', c') ↔ cell'.west = some (r, c)) ∧
       (cell.north = some (r', c') ↔ cell'.south = some (r, c)))) ∧
    (∀ (g : Grid) (x y q : Coord), topoFields (g.link x y) q = topoFields g q) ∧
    (∀ (g g' : Grid) (x y : Coord), g.unlink x y = .ok g' →
      ∀ q, topoFields g' q = topoFields g q) := by
  refine ⟨?_, ?_, ?_, ?_⟩
  · intro r c hr hc
    rw [cellAtOpt_init, if_pos ⟨hr, hc⟩]
    simp [connect_one, mkCell]
  · intro r c r' c' cell cell' h h'
    rw [cellAtOpt_init] at h h'
    by_cases hb : r < R ∧ c < C
    · rw [if_pos hb] at h
      by_cases hb' : r' < R ∧ c' < C
      · rw [if_pos hb'] at h'
        obtain rfl := Option.some.inj h
        obtain rfl := Option.some.inj h'
        obtain ⟨hr, hc⟩ := hb
        obtain ⟨hr', hc'⟩ := hb'
        constructor
        · simp only [connect_one, mkCell]
          constructor
          · intro he
            split_ifs at he with h1
            · obtain ⟨h2, h3⟩ := Prod.mk.injEq .. ▸ Option.some.inj he
              have : 1 ≤ c' := by omega
              rw [if_pos this]
              simp only [Option.some.injEq, Prod.mk.injEq]
              omega
          · intro hw
            split_ifs at hw with h1
            · obtain ⟨h2, h3⟩ := Prod.mk.injEq .. ▸ Option.some.inj hw
              have : c + 1 < C := by omega
              rw [if_pos this]
              simp only [Option.some.injEq, Prod.mk.injEq]
              omega
        · simp only [connect_one, mkCell]
          constructor
          · intro he
            split_ifs at he with h1
            · obtain ⟨h2, h3⟩ := Prod.mk.injEq .. ▸ Option.some.inj he
              have : r' + 1 < R := by omega
              rw [if_pos this]
              simp only [Option.some.injEq, Prod.mk.injEq]
              omega
          · intro hw
            split_ifs at hw with h1
            · obtain ⟨h2, h3⟩ := Prod.mk.injEq .. ▸ Option.some.inj hw
              have : 1 ≤ r := by omega
              rw [if_pos this]
              simp only [Option.some.injEq, Prod.mk.injEq]
              omega
      · rw [if_neg hb'] at h'
        cases h'
    · rw [if_neg hb] at h
      cases h
  · intro g x y q
    exact topoFields_link g x y q
  · intro g g' x y h q
    obtain ⟨rfl, -, -⟩ := unlink_ok_eq g x y g' h
    rw [topoFields_updateCell, topoFields_updateCell]
    · exact fun c => ⟨rfl, rfl, rfl, rfl⟩
    · exact fun c => ⟨rfl, rfl, rfl, rfl⟩

theorem C10_topology_witness :
    (cellAtOpt (Grid.init 2 2) (0, 0)).map Cell.east = some (some (0, 1)) ∧
    (cellAtOpt (Grid.init 2 2) (0, 0)).map Cell.north = some none := by
  have h := C10_topology 2 2 (by decide) (by decide)
  obtain ⟨hn, -, hw, he⟩ := h.1 0 0 (by decide) (by decide)
  exact ⟨by rw [he]; decide, by rw [hn]; decide⟩

/-- C7: for distinct linked cells, `unlink` succeeds and makes `isLinked`
false in both directions, re-`link`ing restores it in both directions, and
bidirectional `link`/`unlink` preserve symmetry of the link relation. -/
theorem C7_round_trip (g : Grid) (a b : Coord) (hab : a ≠ b) (hnd : LinksNodup g)
    (h1 : is_linked g a b = true) (h2 : is_linked g b a = true) :
    (∃ g', g.unlink a b = .ok g' ∧
      is_linked g' a b = false ∧ is_linked g' b a = false ∧
      is_linked (g'.link a b) a b = true ∧ is_linked (g'.link a b) b a = true) ∧
    (∀ (h : Grid) (c d : Coord), (cellAtOpt h c).isSome → (cellAtOpt h d).isSome →
      SymLinks h → SymLinks (h.link c d)) ∧
    (∀ (h h' : Grid) (c d : Coord), c ≠ d → LinksNodup h →
      h.unlink c d = .ok h' → SymLinks h → SymLinks h') := by
  have hba : b ≠ a := fun hc => hab hc.symm
  obtain ⟨ca, hca, hmem_ab⟩ := (is_linked_true_iff g a b).mp h1
  obtain ⟨cb, hcb, hmem_ba⟩ := (is_linked_true_iff g b a).mp h2
  have hok : g.unlink a b =
      .ok ((g.updateCell a (fun c => c.delLink b)).updateCell b (fun c => c.delLink a)) := by
    unfold Grid.unlink
    rw [if_pos h1, if_pos]
    rw [is_linked_updateCell_other g a _ b a hba]
    exact h2
  set g' := (g.updateCell a (fun c => c.delLink b)).updateCell b (fun c => c.delLink a) with hg'
  have hiff := is_linked_unlink_iff g g' a b hab hnd hok
  have hfab : is_linked g' a b = false := by
    rcases hb : is_linked g' a b with _ | _
    · rfl
    · rcases (hiff a b).mp hb with ⟨-, hcon, -⟩
      exact absurd ⟨rfl, rfl⟩ hcon
  have hfba : is_linked g' b a = false := by
    rcases hb : is_linked g' b a with _ | _
    · rfl
    · rcases (hiff b a).mp hb with ⟨-, -, hcon⟩
      exact absurd ⟨rfl, rfl⟩ hcon
  have hga' : cellAtOpt g' a = some ((ca.delLink b)) := by
    rw [hg', cellAtOpt_updateCell, if_neg hab, cellAtOpt_updateCell, if_pos rfl, hca]
    rfl
  have hgb' : cellAtOpt g' b = some ((cb.delLink a)) := by
    rw [hg', cellAtOpt_updateCell, if_pos rfl, cellAtOpt_updateCell, if_neg hba, hcb]
    rfl
  have hsa : (cellAtOpt g' a).isSome := by rw [hga']; rfl
  have hsb : (cellAtOpt g' b).isSome := by rw [hgb']; rfl
  refine ⟨⟨g', hok, hfab, hfba, ?_, ?_⟩, ?_, ?_⟩
  · exact (is_linked_link_iff g' a b a b hsa hsb).mpr (.inr (.inl ⟨rfl, rfl⟩))
  · exact (is_linked_link_iff g' a b b a hsa hsb).mpr (.inr (.inr ⟨rfl, rfl⟩))
  · intro h c d hc hd hsym p hp q hq
    have hp' : p ∈ h.each_cell := hp
    have hq' : q ∈ h.each_cell := hq
    apply bool_eq_of_iff
    rw [is_linked_link_iff h c d p q hc hd, is_linked_link_iff h c d q p hc hd,
      hsym p hp' q hq']
    tauto
  · intro h h' c d hcd hndh hok' hsym p hp q hq
    obtain ⟨rfl, -, -⟩ := unlink_ok_eq h c d h' hok'
    have hp' : p ∈ h.each_cell := hp
    have hq' : q ∈ h.each_cell := hq
    apply bool_eq_of_iff
    rw [is_linked_unlink_iff h _ c d hcd hndh hok' p q,
      is_linked_unlink_iff h _ c d hcd hndh hok' q p, hsym p hp' q hq']
    tauto

theorem C7_round_trip_witness :
    ∃ g', ((Grid.init 1 2).link (0, 0) (0, 1)).unlink (0, 0) (0, 1) = .ok g' ∧
      is_linked g' (0, 0) (0, 1) = false ∧
      is_linked (g'.link (0, 0) (0, 1)) (0, 0) (0, 1) = true := by
  obtain ⟨⟨g', hok, hf1, -, hr1, -⟩, -, -⟩ :=
    C7_round_trip ((Grid.init 1 2).link (0, 0) (0, 1)) (0, 0) (0, 1)
      (by decide) (by decide) (by decide) (by decide)
  exact ⟨g', hok, hf1, hr1⟩

/-! ### `cell_at` (C4) -/

theorem pyListGet_spec (l : List α) (i : Int) :
    pyListGet l i = if h : -(l.length : Int) ≤ i ∧ i < l.length then
        .ok (l.get ⟨pyWrap l.length i, by unfold pyWrap; split <;> omega⟩)
      else .error .indexError := by
  unfold pyListGet
  by_cases h1 : 0 ≤ i ∧ i < l.length
  · rw [dif_pos h1, dif_pos (by omega)]
    have hw : pyWrap l.length i = i.toNat := by unfold pyWrap; rw [if_pos h1.1]
    simp only [List.get_eq_getElem, hw]
  · rw [dif_neg h1]
    by_cases h2 : -(l.length : Int) ≤ i ∧ i < 0
    · rw [dif_pos h2, dif_pos (by omega)]
      have hw : pyWrap l.length i = (i + l.length).toNat := by
        unfold pyWrap
        rw [if_neg (by omega)]
      simp only [List.get_eq_getElem, hw]
    · rw [dif_neg h2, dif_neg (by omega)]

theorem init_grid_get? (R C : Nat) (k : Nat) :
    (Grid.init R C).grid[k]? =
      if k < R then some ((List.range C).map (fun c => connect_one R C (mkCell k c)))
      else none := by
  simp only [Grid.init, create_cells, List.map_map, List.getElem?_map]
  by_cases hk : k < R
  · rw [List.getElem?_range hk]
    simp [Function.comp, hk]
  · rw [List.getElem?_eq_none (by simpa using by omega)]
    simp [hk]

theorem init_grid_length (R C : Nat) : (Grid.init R C).grid.length = R := by
  simp [Grid.init, create_cells]

/-- C4 counterexample: `cell_at(-1, 0)` on a 2×2 grid returns the cell at
(1, 0) instead of failing with an index error. -/
theorem C4_cell_at_counterexample :
    ((Grid.init 2 2).cell_at (-1) 0).map (fun cl => (cl.row, cl.column)) =
      .ok ((1 : Nat), (0 : Nat)) := by decide

/-- C4 amended: `cell_at` on a constructed grid returns the cell with the
requested identity for in-bounds non-negative indices; a negative row or
column index of magnitude at most the corresponding dimension wraps around
Python-style and returns the cell at the wrapped position instead of
failing; all other indices raise `IndexError`. -/
theorem pyListGet_ok (l : List α) (i : Int) (h : -(l.length : Int) ≤ i ∧ i < l.length)
    (x : α) (hx : l[pyWrap l.length i]? = some x) : pyListGet l i = .ok x := by
  rw [pyListGet_spec, dif_pos h]
  have hlt : pyWrap l.length i < l.length := by unfold pyWrap; split <;> omega
  congr 1
  rw [List.get_eq_getElem]
  exact Option.some.inj (by rw [← List.getElem?_eq_getElem hlt, hx])

theorem pyListGet_err (l : List α) (i : Int)
    (h : ¬(-(l.length : Int) ≤ i ∧ i < l.length)) :
    pyListGet l i = .error .indexError := by
  rw [pyListGet_spec, dif_neg h]

theorem C4_cell_at_amended (R C : Nat) (hR : 0 < R) (hC : 0 < C) (r c : Int) :
    (Grid.init R C).cell_at r c =
      if -(R : Int) ≤ r ∧ r < R ∧ -(C : Int) ≤ c ∧ c < C then
        .ok (connect_one R C (mkCell (pyWrap R r) (pyWrap C c)))
      else .error .indexError := by
  by_cases hr : -(R : Int) ≤ r ∧ r < R
  · have hlt : pyWrap R r < R := by unfold pyWrap; split <;> omega
    have hrow : pyListGet (Grid.init R C).grid r =
        .ok ((List.range C).map (fun cc => connect_one R C (mkCell (pyWrap R r) cc))) := by
      apply pyListGet_ok
      · rw [init_grid_length]; exact hr
      · rw [show pyWrap (Grid.init R C).grid.length r = pyWrap R r from by rw [init_grid_length]]
        rw [init_grid_get?, if_pos hlt]
    unfold Grid.cell_at
    rw [hrow]
    show pyListGet ((List.range C).map (fun cc => connect_one R C (mkCell (pyWrap R r) cc))) c = _
    by_cases hc : -(C : Int) ≤ c ∧ c < C
    · rw [if_pos ⟨hr.1, hr.2, hc.1, hc.2⟩]
      have hltc : pyWrap C c < C := by unfold pyWrap; split <;> omega
      apply pyListGet_ok
      · simpa using hc
      · rw [show pyWrap ((List.range C).map
            (fun cc => connect_one R C (mkCell (pyWrap R r) cc))).length c = pyWrap C c from by
          simp]
        rw [List.getElem?_map, List.getElem?_range hltc]
        rfl
    · rw [if_neg (by tauto)]
      apply pyListGet_err
      simpa using hc
  · have h1 : pyListGet (Grid.init R C).grid r = .error .indexError := by
      apply pyListGet_err
      rw [init_grid_length]; exact hr
    unfold Grid.cell_at
    rw [h1, if_neg (by tauto)]
    rfl

theorem C4_cell_at_amended_witness :
    (Grid.init 2 2).cell_at (-1) 0 = .ok (connect_one 2 2 (mkCell 1 0)) := by
  have h := C4_cell_at_amended 2 2 (by decide) (by decide) (-1) 0
  rw [h]
  decide

/-! ### `deadends` (C3) -/

/-- C3: `deadends()` raises `TypeError` on every grid — shown on the spec's
own 2×2 L-shaped scenario — while the cells with exactly one link (what the
claim says it returns) are the two path endpoints there. -/
theorem C3_deadends_code_bug :
    lGrid.deadends = .error .typeError ∧
    deadendCoords lGrid = [(1, 0), (1, 1)] ∧
    (deadendCoords lGrid).length = 2 := by
  refine ⟨rfl, by decide, by decide⟩

/-! ### `Markup.max` / `Markup.min` (C5) -/

theorem pyFold_max_spec (f : Coord → Int) (xs : List Coord) (best : Coord) :
    (xs.foldl (fun b y => if f b < f y then y else b) best = best ∧
      ∀ k ∈ xs, f k ≤ f best) ∨
    (∃ pre post, xs = pre ++ (xs.foldl (fun b y => if f b < f y then y else b) best) :: post ∧
      f best < f (xs.foldl (fun b y => if f b < f y then y else b) best) ∧
      (∀ k ∈ pre, f k < f (xs.foldl (fun b y => if f b < f y then y else b) best)) ∧
      ∀ k ∈ xs, f k ≤ f (xs.foldl (fun b y => if f b < f y then y else b) best)) := by
  induction xs generalizing best with
  | nil => exact .inl ⟨rfl, by simp⟩
  | cons x xs ih =>
    by_cases hx : f best < f x
    · have hstep : (x :: xs).foldl (fun b y => if f b < f y then y else b) best =
          xs.foldl (fun b y => if f b < f y then y else b) x := by
        simp [hx]
      rw [hstep]
      rcases ih x with ⟨heq, hle⟩ | ⟨pre, post, hsplit, hlt, hpre, hle⟩
      · rw [heq]
        refine .inr ⟨[], xs, by simp, hx, by simp, ?_⟩
        intro k hk
        rcases List.mem_cons.mp hk with rfl | hk'
        · exact le_refl _
        · exact hle k hk'
      · refine .inr ⟨x :: pre, post, ?_, lt_trans hx hlt, ?_, ?_⟩
        · rw [List.cons_append, ← hsplit]
        · intro k hk
          rcases List.mem_cons.mp hk with rfl | hk'
          · exact hlt
          · exact hpre k hk'
        · intro k hk
          rcases List.mem_cons.mp hk with rfl | hk'
          · exact le_of_lt hlt
          · exact hle k hk'
    · have hstep : (x :: xs).foldl (fun b y => if f b < f y then y else b) best =
          xs.foldl (fun b y => if f b < f y then y else b) best := by
        simp [hx]
      rw [hstep]
      rcases ih best with ⟨heq, hle⟩ | ⟨pre, post, hsplit, hlt, hpre, hle⟩
      · rw [heq]
        refine .inl ⟨rfl, ?_⟩
        intro k hk
        rcases List.mem_cons.mp hk with rfl | hk'
        · omega
        · exact hle k hk'
      · refine .inr ⟨x :: pre, post, ?_, hlt, ?_, ?_⟩
        · rw [List.cons_append, ← hsplit]
        · intro k hk
          rcases List.mem_cons.mp hk with rfl | hk'
          · omega
          · exact hpre k hk'
        · intro k hk
          rcases List.mem_cons.mp hk with rfl | hk'
          · omega
          · exact hle k hk'

theorem pyMaxBy_spec (l : List Coord) (f : Coord → Int) (h : l ≠ []) :
    ∃ c pre post, pyMaxBy l f = .ok c ∧ l = pre ++ c :: post ∧
      (∀ k ∈ pre, f k < f c) ∧ (∀ k ∈ l, f k ≤ f c) := by
  cases l with
  | nil => exact absurd rfl h
  | cons x xs =>
    rcases pyFold_max_spec f xs x with ⟨heq, hle⟩ | ⟨pre, post, hsplit, hlt, hpre, hle⟩
    · refine ⟨x, [], xs, ?_, by simp, by simp, ?_⟩
      · show Except.ok (xs.foldl (fun b y => if f b < f y then y else b) x) = Except.ok x
        rw [heq]
      · intro k hk
        rcases List.mem_cons.mp hk with rfl | hk'
        · exact le_refl _
        · exact hle k hk'
    · refine ⟨xs.foldl (fun b y => if f b < f y then y else b) x, x :: pre, post, rfl, ?_, ?_, ?_⟩
      · rw [List.cons_append, ← hsplit]
      · intro k hk
        rcases List.mem_cons.mp hk with rfl | hk'
        · exact hlt
        · exact hpre k hk'
      · intro k hk
        rcases List.mem_cons.mp hk with rfl | hk'
        · exact le_of_lt hlt
        · exact hle k hk'

theorem pyMinBy_eq (l : List Coord) (f : Coord → Int) :
    pyMinBy l f = pyMaxBy l (fun k => -(f k)) := by
  unfold pyMinBy pyMaxBy
  cases l with
  | nil => rfl
  | cons x xs =>
    have hfun : (fun (b y : Coord) => if (fun k => -(f k)) b < (fun k => -(f k)) y then y else b) =
        (fun (b y : Coord) => if f y < f b then y else b) := by
      funext b y
      simp only
      exact if_congr neg_lt_neg_iff rfl rfl
    rw [hfun]

/-- C5 counterexample: two cells tie at value 5 over a 1×2 grid.  The marks
dictionary was filled with (0,1) first, so `max` returns (0,1), while the
first tied cell in row-major iteration order of the grid is (0,0). -/
theorem C5_max_counterexample :
    tieMarkup.max = .ok (0, 1) ∧
    tieMarkup.getitem (0, 0) = tieMarkup.getitem (0, 1) ∧
    (Grid.init 1 2).each_cell = [(0, 0), (0, 1)] := by
  refine ⟨by decide, by decide, by decide⟩

/-- C5 amended: for a markup with at least one explicit entry, `max` (resp.
`min`) returns a cell with the largest (resp. smallest) value; among ties
the returned cell is the FIRST such cell in the insertion order of the marks
dictionary, not the first in row-major grid order. -/
theorem C5_max_min_amended (m : MarkupT Int) (h : m.marks ≠ []) :
    (∃ c pre post, m.max = .ok c ∧ m.marks.map Prod.fst = pre ++ c :: post ∧
      (∀ k ∈ pre, m.getitem k < m.getitem c) ∧
      ∀ k ∈ m.marks.map Prod.fst, m.getitem k ≤ m.getitem c) ∧
    (∃ c pre post, m.min = .ok c ∧ m.marks.map Prod.fst = pre ++ c :: post ∧
      (∀ k ∈ pre, m.getitem c < m.getitem k) ∧
      ∀ k ∈ m.marks.map Prod.fst, m.getitem c ≤ m.getitem k) := by
  have hne : m.marks.map Prod.fst ≠ [] := by simpa using h
  constructor
  · exact pyMaxBy_spec (m.marks.map Prod.fst) m.getitem hne
  · obtain ⟨c, pre, post, hok, hsplit, hpre, hall⟩ :=
      pyMaxBy_spec (m.marks.map Prod.fst) (fun k => -(m.getitem k)) hne
    refine ⟨c, pre, post, ?_, hsplit, ?_, ?_⟩
    · show pyMinBy (m.marks.map Prod.fst) m.getitem = .ok c
      rw [pyMinBy_eq]
      exact hok
    · intro k hk
      have := hpre k hk
      omega
    · intro k hk
      have := hall k hk
      omega

theorem C5_max_min_amended_witness :
    ∃ c, oneMarkup.max = .ok c := by
  obtain ⟨⟨c, pre, post, hok, -, -, -⟩, -⟩ := C5_max_min_amended oneMarkup (by decide)
  exact ⟨c, hok⟩

/-! ### `wilson` on the 1×1 grid (C6) -/

/-- C6: on a 1×1 grid, `wilson` never terminates normally: after the single
cell is marked visited, `random.choice` is called on the now-empty
`cell_unused` list and raises `IndexError`, whatever the random source and
however much fuel the loop gets. -/
theorem C6_wilson_1x1 (r : Rng) (fuel : Nat) :
    wilson (Grid.init 1 1) r fuel = .err .indexError := by
  have hg : (Grid.init 1 1).grid = [[connect_one 1 1 (mkCell 0 0)]] := by decide
  simp [wilson, Grid.random_cell, pyChoice, hg, Nat.mod_one, Grid.each_cell,
    connect_one, mkCell, Bind.bind, Except.bind, Grid.init, create_cells, List.range_succ]

/-! ### Sidewinder run bookkeeping (C9) -/

/-- C9 counterexample: with a coin that always continues the run, row 1 of a
2×3 grid closes a single run whose choice list holds the first run cell
once and the two later cells twice each — the closing north-link draw is
not uniform over the distinct run members. -/
theorem C9_sidewinder_counterexample :
    (sidewinder (Grid.init 2 3) (fun _ _ => true) (fun _ _ => 0)).2 =
      [[(1, 0), (1, 1), (1, 1), (1, 2), (1, 2)]] ∧
    ([(1, 0), (1, 1), (1, 1), (1, 2), (1, 2)] : List Coord).count (1, 0) = 1 ∧
    ([(1, 0), (1, 1), (1, 1), (1, 2), (1, 2)] : List Coord).count (1, 1) = 2 := by
  refine ⟨by decide, by decide, by decide⟩

theorem swStep_snd (C i : Nat) (coin : Nat → Nat → Bool) (pick : Nat → Nat → Nat)
    (st : Grid × List Coord × List (List Coord)) (j : Nat) :
    (swStep C i coin pick st j).2 = swTmpStep C i coin st.2 j := by
  unfold swStep swTmpStep
  by_cases h : coin i j = true ∧ j ≠ C - 1 <;> simp [h]

theorem sw_fold_snd (C i : Nat) (coin : Nat → Nat → Bool) (pick : Nat → Nat → Nat)
    (js : List Nat) (st : Grid × List Coord × List (List Coord)) :
    (js.foldl (swStep C i coin pick) st).2 = js.foldl (swTmpStep C i coin) st.2 := by
  induction js generalizing st with
  | nil => rfl
  | cons j js ih => rw [List.foldl_cons, List.foldl_cons, ih, swStep_snd]

theorem pairs_singleton (i x : Nat) :
    (([x] : List Nat).flatMap (fun k => ([(i, k), (i, k)] : List Coord))) = [(i, x), (i, x)] := by
  simp

theorem midShape_close (i s n : Nat) (h : s < n) :
    midShape i s n ++ [(i, n)] = runShape i s n := by
  unfold midShape runShape
  have hd : n - s = (n - s - 1) + 1 := by omega
  rw [hd, List.range_succ, List.flatMap_append]
  have he : s + (n - s - 1) + 1 = n := by omega
  simp only [List.flatMap_cons, List.flatMap_nil, List.append_nil, he]
  simp [List.append_assoc]

theorem midShape_extend (i s n : Nat) (h : s < n) :
    midShape i s n ++ [(i, n), (i, n + 1)] = midShape i s (n + 1) := by
  unfold midShape
  have hd : n + 1 - s - 1 = (n - s - 1) + 1 := by omega
  rw [hd, List.range_succ, List.flatMap_append]
  have he : s + (n - s - 1) + 1 = n := by omega
  simp only [List.flatMap_cons, List.flatMap_nil, List.append_nil, he]
  simp [List.append_assoc]

theorem midShape_start (i n : Nat) :
    ([(i, n), (i, n + 1)] : List Coord) = midShape i n (n + 1) := by
  unfold midShape
  simp

theorem runShape_single (i n : Nat) :
    ([(i, n)] : List Coord) = runShape i n n := by
  unfold runShape
  simp

/-- What one row of sidewinder does to the run list and the close log:
after the first `n` columns, the open run (if any) has the `midShape` form,
and every newly logged run has the `runShape` form. -/
theorem swTmp_fold_spec (C i : Nat) (coin : Nat → Nat → Bool)
    (log₀ : List (List Coord)) (n : Nat) :
    (((List.range n).foldl (swTmpStep C i coin) ([], log₀)).1 = [] ∨
      ∃ s, s < n ∧
        ((List.range n).foldl (swTmpStep C i coin) ([], log₀)).1 = midShape i s n) ∧
    ∀ t ∈ ((List.range n).foldl (swTmpStep C i coin) ([], log₀)).2,
      t ∈ log₀ ∨ ∃ s e, s ≤ e ∧ e < n ∧ t = runShape i s e := by
  induction n with
  | zero => exact ⟨.inl rfl, fun t ht => .inl ht⟩
  | succ n ih =>
    obtain ⟨htmp, hlog⟩ := ih
    rw [List.range_succ, List.foldl_append, List.foldl_cons, List.foldl_nil]
    set st := (List.range n).foldl (swTmpStep C i coin) ([], log₀) with hst
    unfold swTmpStep
    by_cases hcoin : coin i n = true ∧ n ≠ C - 1
    · rw [if_pos hcoin]
      refine ⟨?_, ?_⟩
      · rcases htmp with h0 | ⟨s, hs, hmid⟩
        · exact .inr ⟨n, by omega, by rw [h0]; exact (midShape_start i n).symm ▸ rfl⟩
        · refine .inr ⟨s, by omega, ?_⟩
          show st.1 ++ [(i, n), (i, n + 1)] = _
          rw [hmid, midShape_extend i s n hs]
      · intro t ht
        rcases hlog t ht with h | ⟨s, e, hse, he, hts⟩
        · exact .inl h
        · exact .inr ⟨s, e, hse, by omega, hts⟩
    · rw [if_neg hcoin]
      refine ⟨.inl rfl, ?_⟩
      intro t ht
      rcases List.mem_append.mp ht with h | h
      · rcases hlog t h with h' | ⟨s, e, hse, he, hts⟩
        · exact .inl h'
        · exact .inr ⟨s, e, hse, by omega, hts⟩
      · have hteq : t = st.1 ++ [(i, n)] := by simpa using h
        rcases htmp with h0 | ⟨s, hs, hmid⟩
        · refine .inr ⟨n, n, le_refl n, by omega, ?_⟩
          rw [hteq, h0]
          exact runShape_single i n
        · refine .inr ⟨s, n, by omega, by omega, ?_⟩
          rw [hteq, hmid]
          exact midShape_close i s n hs

theorem count_pairs (i s d j : Nat) :
    (((List.range d).flatMap (fun k => [(i, s + k + 1), (i, s + k + 1)])) : List Coord).count
        (i, j) = if s < j ∧ j ≤ s + d then 2 else 0 := by
  induction d with
  | zero =>
    rw [if_neg (by omega)]
    simp
  | succ d ih =>
    rw [List.range_succ, List.flatMap_append, List.count_append, ih]
    have htail : (([d] : List Nat).flatMap
          (fun k => ([(i, s + k + 1), (i, s + k + 1)] : List Coord))).count (i, j) =
        if j = s + d + 1 then 2 else 0 := by
      by_cases hj : j = s + d + 1
      · subst hj
        simp
      · simp [List.count_cons, Prod.ext_iff, hj]
    rw [htail]
    split_ifs <;> omega

theorem runShape_count_head (i s e : Nat) : (runShape i s e).count (i, s) = 1 := by
  unfold runShape
  rw [List.count_cons, count_pairs, if_neg (by omega)]
  simp

theorem runShape_count_mid (i s e k : Nat) (h1 : s < k) (h2 : k ≤ e) :
    (runShape i s e).count (i, k) = 2 := by
  unfold runShape
  rw [List.count_cons, count_pairs, if_pos (by omega)]
  have hbeq : (((i, s) : Coord) == ((i, k) : Coord)) = false := by
    simp [Prod.ext_iff]
    omega
  rw [hbeq]
  simp

theorem sw_outer_log (C : Nat) (coin : Nat → Nat → Bool) (pick : Nat → Nat → Nat)
    (B : Nat) (ks : List Nat) (hks : ∀ k ∈ ks, k < B) :
    ∀ (st : Grid × List (List Coord)),
      (∀ t ∈ st.2, ∃ i s e, 1 ≤ i ∧ i ≤ B ∧ s ≤ e ∧ e < C ∧ t = runShape i s e) →
      ∀ t ∈ (ks.foldl (fun st k =>
          let st2 := (List.range C).foldl (swStep C (k + 1) coin pick) (st.1, [], st.2)
          (st2.1, st2.2.2)) st).2,
        ∃ i s e, 1 ≤ i ∧ i ≤ B ∧ s ≤ e ∧ e < C ∧ t = runShape i s e := by
  induction ks with
  | nil => exact fun st h => h
  | cons k ks ih =>
    intro st hst t ht
    rw [List.foldl_cons] at ht
    refine ih (fun k' hk' => hks k' (by simp [hk'])) _ ?_ t ht
    intro t' ht'
    simp only at ht'
    rw [sw_fold_snd] at ht'
    rcases (swTmp_fold_spec C (k + 1) coin st.2 C).2 t' ht' with h | ⟨s, e, hse, he, hts⟩
    · exact hst t' h
    · exact ⟨k + 1, s, e, by omega, by
        have := hks k (by simp)
        omega, hse, he, hts⟩

/-- C9 amended: whenever sidewinder closes a run in row `i ≥ 1`, the list it
draws the north-linking cell from (uniformly by index) is exactly
`runShape i s e` for the run spanning columns `s..e`: the first run member
appears once and every later member twice, so for runs longer than one cell
the draw is biased towards the later members and is not uniform over the
distinct run cells; the run then restarts empty. -/
theorem C9_sidewinder_amended (R C : Nat) (coin : Nat → Nat → Bool)
    (pick : Nat → Nat → Nat) (t : List Coord)
    (ht : t ∈ (sidewinder (Grid.init R C) coin pick).2) :
    ∃ i s e, 1 ≤ i ∧ i < R ∧ s ≤ e ∧ e < C ∧ t = runShape i s e ∧
      t.count (i, s) = 1 ∧ ∀ k, s < k → k ≤ e → t.count (i, k) = 2 := by
  have hmain : ∃ i s e, 1 ≤ i ∧ i ≤ R - 1 ∧ s ≤ e ∧ e < C ∧ t = runShape i s e := by
    refine sw_outer_log C coin pick (R - 1) (List.range (R - 1)) (by simp)
      (((List.range (Grid.init R C).num_columns).foldl
        (fun acc j => if j ≠ (Grid.init R C).num_columns - 1
          then linkToField acc (0, j) Cell.east else acc) (Grid.init R C)), [])
      (by simp) t ?_
    exact ht
  obtain ⟨i, s, e, hi1, hi2, hse, heC, hts⟩ := hmain
  refine ⟨i, s, e, hi1, by omega, hse, heC, hts, ?_, ?_⟩
  · rw [hts]
    exact runShape_count_head i s e
  · intro k h1 h2
    rw [hts]
    exact runShape_count_mid i s e k h1 h2

/-! ### ASCII rendering (C8) -/

theorem strFoldl_hoist (l : List String) (a b : String) :
    l.foldl (· ++ ·) (a ++ b) = a ++ l.foldl (· ++ ·) b := by
  induction l generalizing b with
  | nil => rfl
  | cons x xs ih => rw [List.foldl_cons, List.foldl_cons, String.append_assoc, ih]

theorem strJoin_cons (s : String) (l : List String) :
    String.join (s :: l) = s ++ String.join l := by
  show l.foldl (· ++ ·) ("" ++ s) = s ++ String.join l
  have h1 : ("" ++ s : String) = s ++ "" := by simp
  rw [h1, strFoldl_hoist]
  rfl

theorem foldl_append_join {β : Type} (f : β → String) (l : List β) (s0 : String) :
    l.foldl (fun acc x => acc ++ f x) s0 = s0 ++ String.join (l.map f) := by
  induction l generalizing s0 with
  | nil => show s0 = s0 ++ ""; simp
  | cons x xs ih =>
    rw [List.foldl_cons, ih, List.map_cons, strJoin_cons, ← String.append_assoc]

theorem foldl_append2_join {β : Type} (f1 f2 : β → String) (l : List β) (s0 : String) :
    l.foldl (fun acc x => acc ++ f1 x ++ f2 x) s0 =
      s0 ++ String.join (l.map (fun x => f1 x ++ f2 x)) := by
  induction l generalizing s0 with
  | nil => show s0 = s0 ++ ""; simp
  | cons x xs ih =>
    rw [List.foldl_cons, ih, List.map_cons, strJoin_cons]
    simp [String.append_assoc]

theorem std_cell_fields (g : Grid) (h : g.Std) (r c : Nat)
    (hr : r < g.num_rows) (hc : c < g.num_columns) :
    ∃ cell, cellAtOpt g (r, c) = some cell ∧ cell.row = r ∧ cell.column = c ∧
      cell.north = (if 1 ≤ r then some (r - 1, c) else none) ∧
      cell.south = (if r + 1 < g.num_rows then some (r + 1, c) else none) ∧
      cell.west = (if 1 ≤ c then some (r, c - 1) else none) ∧
      cell.east = (if c + 1 < g.num_columns then some (r, c + 1) else none) := by
  obtain ⟨-, -, hcells⟩ := h
  have hs := hcells r hr c hc
  unfold SlotStd at hs
  obtain ⟨h1, h2, h3, h4, h5, h6⟩ := hs
  cases hcell : cellAtOpt g (r, c) with
  | none => rw [hcell] at h1; cases h1
  | some cell =>
    rw [hcell] at h1 h2 h3 h4 h5 h6
    simp only [Option.map_some'] at h1 h2 h3 h4 h5 h6
    exact ⟨cell, rfl, Option.some.inj h1, Option.some.inj h2, Option.some.inj h3,
      Option.some.inj h4, Option.some.inj h5, Option.some.inj h6⟩

theorem std_grid_decomp (g : Grid) (h : g.Std) :
    g.grid = (List.range g.num_rows).map (fun r =>
      (List.range g.num_columns).map (fun c => (cellAtOpt g (r, c)).getD (mkCell r c))) := by
  obtain ⟨hlen, hrows, -⟩ := h
  apply List.ext_getElem?
  intro r
  by_cases hr : r < g.num_rows
  · have hrl : r < g.grid.length := by omega
    rw [List.getElem?_eq_getElem hrl, List.getElem?_map, List.getElem?_range hr]
    simp only [Option.map_some']
    congr 1
    have hrowmem : g.grid[r] ∈ g.grid := List.getElem_mem _
    have hrowlen : (g.grid[r]).length = g.num_columns := hrows _ hrowmem
    apply List.ext_getElem?
    intro c
    by_cases hcb : c < g.num_columns
    · have hcl : c < (g.grid[r]).length := by omega
      rw [List.getElem?_eq_getElem hcl, List.getElem?_map, List.getElem?_range hcb]
      have hca : cellAtOpt g (r, c) = some ((g.grid[r])[c]) := by
        unfold cellAtOpt
        rw [List.get?_eq_getElem?, List.getElem?_eq_getElem hrl]
        simp only [Option.some_bind]
        rw [List.get?_eq_getElem?, List.getElem?_eq_getElem hcl]
      simp only [Option.map_some', hca, Option.getD_some]
    · rw [List.getElem?_eq_none (by omega), List.getElem?_eq_none (by simp; omega)]
  · rw [List.getElem?_eq_none (by omega), List.getElem?_eq_none (by simp; omega)]

/-- C8 counterexample: rendering a freshly constructed grid on which no
markup was ever set raises `AttributeError` (reading the absent
`self.markup`) instead of producing the rendering with blank labels. -/
theorem C8_render_counterexample :
    gridStr (Grid.init 1 1) none = .error .attributeError ∧
    specRender 1 1 (fun p q => is_linked (Grid.init 1 1) p q) (fun _ => " ") =
      "+---+\n|   |\n+---+\n" := by
  refine ⟨rfl, by decide⟩

/-- C8 amended: with a markup set, `Grid.__str__` produces exactly the
spec's fixed-width rendering — first line `+` then `---+` per column, each
cell a 3-character center-padded label from the markup with `|`/space east
walls and `---+`/`   +` bottom borders decided by the link state; with no
markup ever set it raises `AttributeError` rather than defaulting to blank
labels. -/
theorem C8_render_amended (g : Grid) (m : MarkupT String) (hstd : g.Std) (hsym : SymLinks g) :
    gridStr g none = .error .attributeError ∧
    gridStr g (some m) = .ok (specRender g.num_rows g.num_columns
      (fun p q => is_linked g p q) (fun p => m.getitem p)) ∧
    ∃ rest, specRender g.num_rows g.num_columns (fun p q => is_linked g p q)
        (fun p => m.getitem p) =
      ("+" ++ strRepeat "---+" g.num_columns ++ "\n") ++ rest := by
  refine ⟨rfl, ?_, ?_⟩
  · show Except.ok _ = Except.ok _
    congr 1
    rw [std_grid_decomp g hstd, List.foldl_map]
    have hfn : (fun (acc : String) r =>
        acc ++ rowTopStr g m ((List.range g.num_columns).map
            (fun c => (cellAtOpt g (r, c)).getD (mkCell r c))) ++ "\n" ++
          rowBottomStr g ((List.range g.num_columns).map
            (fun c => (cellAtOpt g (r, c)).getD (mkCell r c))) ++ "\n") =
        (fun (acc : String) r =>
          acc ++ (rowTopStr g m ((List.range g.num_columns).map
              (fun c => (cellAtOpt g (r, c)).getD (mkCell r c))) ++ "\n" ++
            rowBottomStr g ((List.range g.num_columns).map
              (fun c => (cellAtOpt g (r, c)).getD (mkCell r c))) ++ "\n")) := by
      funext acc r
      simp [String.append_assoc]
    rw [hfn, foldl_append_join]
    unfold specRender
    simp only [String.append_assoc]
    congr 1
    congr 1
    congr 1
    refine congrArg String.join ?_
    apply List.map_congr_left
    intro r hr
    have hrR : r < g.num_rows := List.mem_range.mp hr
    have htop : rowTopStr g m ((List.range g.num_columns).map
        (fun c => (cellAtOpt g (r, c)).getD (mkCell r c))) =
        "|" ++ String.join ((List.range g.num_columns).map (fun c =>
          pad3 (m.getitem (r, c)) ++
          (if c + 1 < g.num_columns ∧ is_linked g (r, c) (r, c + 1) = true
           then " " else "|"))) := by
      unfold rowTopStr
      rw [foldl_append2_join, List.map_map]
      refine congrArg (fun t => "|" ++ t) (congrArg String.join ?_)
      apply List.map_congr_left
      intro c hc
      have hcC : c < g.num_columns := List.mem_range.mp hc
      obtain ⟨cell, hcell, hrow, hcol, -, -, -, heast⟩ := std_cell_fields g hstd r c hrR hcC
      simp only [Function.comp_apply, hcell, Option.getD_some, hrow, hcol, heast]
      by_cases hc1 : c + 1 < g.num_columns
      · rw [if_pos hc1]
        show pad3 (m.getitem (r, c)) ++
            (if is_linked g (r, c + 1) (r, c) = true then " " else "|") = _
        have hflip : is_linked g (r, c + 1) (r, c) = is_linked g (r, c) (r, c + 1) :=
          hsym (r, c + 1) ((mem_each_cell g _).mpr ⟨hrR, hc1⟩)
            (r, c) ((mem_each_cell g _).mpr ⟨hrR, hcC⟩)
        rw [hflip]
        by_cases hl : is_linked g (r, c) (r, c + 1) = true
        · rw [if_pos hl, if_pos ⟨hc1, hl⟩]
        · rw [if_neg hl, if_neg (by tauto)]
      · rw [if_neg hc1]
        show pad3 (m.getitem (r, c)) ++ "|" = _
        rw [if_neg (by tauto)]
    have hbot : rowBottomStr g ((List.range g.num_columns).map
        (fun c => (cellAtOpt g (r, c)).getD (mkCell r c))) =
        "+" ++ String.join ((List.range g.num_columns).map (fun c =>
          if r + 1 < g.num_rows ∧ is_linked g (r, c) (r + 1, c) = true
          then "   +" else "---+")) := by
      unfold rowBottomStr
      rw [foldl_append_join, List.map_map]
      refine congrArg (fun t => "+" ++ t) (congrArg String.join ?_)
      apply List.map_congr_left
      intro c hc
      have hcC : c < g.num_columns := List.mem_range.mp hc
      obtain ⟨cell, hcell, hrow, hcol, -, hsouth, -, -⟩ := std_cell_fields g hstd r c hrR hcC
      simp only [Function.comp_apply, hcell, Option.getD_some, hrow, hcol, hsouth]
      by_cases hr1 : r + 1 < g.num_rows
      · rw [if_pos hr1]
        show (if is_linked g (r + 1, c) (r, c) = true then "   +" else "---+") = _
        have hflip : is_linked g (r + 1, c) (r, c) = is_linked g (r, c) (r + 1, c) :=
          hsym (r + 1, c) ((mem_each_cell g _).mpr ⟨hr1, hcC⟩)
            (r, c) ((mem_each_cell g _).mpr ⟨hrR, hcC⟩)
        rw [hflip]
        by_cases hl : is_linked g (r, c) (r + 1, c) = true
        · rw [if_pos hl, if_pos ⟨hr1, hl⟩]
        · rw [if_neg hl, if_neg (by tauto)]
      · rw [if_neg hr1]
        show "---+" = _
        rw [if_neg (by tauto)]
    rw [htop, hbot]
    simp [String.append_assoc]
  · exact ⟨_, rfl⟩

theorem C8_render_amended_witness :
    gridStr (Grid.init 1 2) (some blankMarkup) = .ok (specRender 1 2
      (fun p q => is_linked (Grid.init 1 2) p q) (fun p => blankMarkup.getitem p)) := by
  obtain ⟨-, h, -⟩ := C8_render_amended (Grid.init 1 2) blankMarkup (by decide) (by decide)
  exact h

theorem C9_sidewinder_amended_witness :
    ∃ i s e, 1 ≤ i ∧ i < 2 ∧ s ≤ e ∧ e < 3 ∧
      ([(1, 0), (1, 1), (1, 1), (1, 2), (1, 2)] : List Coord) = runShape i s e ∧
      ([(1, 0), (1, 1), (1, 1), (1, 2), (1, 2)] : List Coord).count (i, s) = 1 ∧
      ∀ k, s < k → k ≤ e →
        ([(1, 0), (1, 1), (1, 1), (1, 2), (1, 2)] : List Coord).count (i, k) = 2 :=
  C9_sidewinder_amended 2 3 (fun _ _ => true) (fun _ _ => 0)
    [(1, 0), (1, 1), (1, 1), (1, 2), (1, 2)] (by decide)

/-! ### The distance engine (C2, modelled from the spec) -/

/-- C2 counterexample: on a 2×2 grid whose only link joins (1,0)–(1,1),
with root (0,0), the two linked cells are both unreachable and keep the
default 0, so their distances differ by 0, not 1. -/
theorem C2_dijkstra_counterexample :
    is_linked discGrid (1, 0) (1, 1) = true ∧
    (DijkstraMarkup.init discGrid (0, 0)).getitem (1, 0) = 0 ∧
    (DijkstraMarkup.init discGrid (0, 0)).getitem (1, 1) = 0 ∧
    ((DijkstraMarkup.init discGrid (0, 0)).getitem (1, 0) -
      (DijkstraMarkup.init discGrid (0, 0)).getitem (1, 1)).natAbs ≠ 1 := by
  refine ⟨by decide, by decide, by decide, by decide⟩

theorem linkedNbrs_iff (g : Grid) (p q : Coord) :
    q ∈ linkedNbrs g p ↔ is_linked g p q = true := by
  unfold linkedNbrs is_linked
  cases cellAtOpt g p with
  | none => simp
  | some c => simp

theorem reachF_step_mono (g : Grid) (root : Coord) (n : Nat) :
    reachF g root n ⊆ reachF g root (n + 1) := by
  show reachF g root n ⊆ expandLinks g (reachF g root n)
  exact Finset.subset_union_left

theorem reachF_mono (g : Grid) (root : Coord) {m n : Nat} (h : m ≤ n) :
    reachF g root m ⊆ reachF g root n := by
  induction n with
  | zero => rw [Nat.le_zero.mp h]
  | succ n ih =>
    rcases Nat.lt_or_ge m (n + 1) with h' | h'
    · exact (ih (by omega)).trans (reachF_step_mono g root n)
    · rw [show m = n + 1 by omega]

theorem mem_reachF_succ (g : Grid) (root p : Coord) (n : Nat) :
    p ∈ reachF g root (n + 1) ↔
      p ∈ reachF g root n ∨ ∃ q ∈ reachF g root n, is_linked g q p = true := by
  show p ∈ expandLinks g (reachF g root n) ↔ _
  unfold expandLinks
  simp [Finset.mem_union, Finset.mem_biUnion, List.mem_toFinset, linkedNbrs_iff]

theorem firstReach_some (g : Grid) (root p : Coord) :
    ∀ fuel k n, firstReach g root p k fuel = some n →
      p ∈ reachF g root n ∧ k ≤ n ∧ n < k + fuel ∧
      ∀ m, k ≤ m → m < n → p ∉ reachF g root m := by
  intro fuel
  induction fuel with
  | zero => intro k n h; cases h
  | succ fuel ih =>
    intro k n h
    unfold firstReach at h
    by_cases hk : p ∈ reachF g root k
    · rw [if_pos hk] at h
      obtain rfl := Option.some.inj h
      exact ⟨hk, le_refl _, by omega, fun m h1 h2 => absurd h1 (by omega)⟩
    · rw [if_neg hk] at h
      obtain ⟨h1, h2, h3, h4⟩ := ih (k + 1) n h
      refine ⟨h1, by omega, by omega, ?_⟩
      intro m hm1 hm2
      rcases Nat.eq_or_lt_of_le hm1 with rfl | hm1'
      · exact hk
      · exact h4 m (by omega) hm2

theorem firstReach_none (g : Grid) (root p : Coord) :
    ∀ fuel k, firstReach g root p k fuel = none →
      ∀ m, k ≤ m → m < k + fuel → p ∉ reachF g root m := by
  intro fuel
  induction fuel with
  | zero => intro k _ m h1 h2; omega
  | succ fuel ih =>
    intro k h m h1 h2
    unfold firstReach at h
    by_cases hk : p ∈ reachF g root k
    · rw [if_pos hk] at h
      cases h
    · rw [if_neg hk] at h
      rcases Nat.eq_or_lt_of_le h1 with rfl | h1'
      · exact hk
      · exact ih (k + 1) h m (by omega) (by omega)

theorem each_cell_nodup (g : Grid) : g.each_cell.Nodup := by
  show ((List.range g.num_rows) ×ˢ (List.range g.num_columns)).Nodup
  exact List.Nodup.product (List.nodup_range _) (List.nodup_range _)

theorem each_cell_length (g : Grid) : g.each_cell.length = g.size := by
  show ((List.range g.num_rows) ×ˢ (List.range g.num_columns)).length = g.size
  rw [List.length_product]
  simp [Grid.size]

theorem chain_snoc_iff {R : Coord → Coord → Prop} (a b : Coord) (l : List Coord) :
    List.Chain R a (l ++ [b]) ↔ List.Chain R a l ∧ R ((a :: l).getLast (by simp)) b := by
  induction l generalizing a with
  | nil => simp
  | cons x xs ih =>
    simp only [List.cons_append, List.chain_cons]
    rw [ih x]
    constructor
    · rintro ⟨h1, h2, h3⟩
      refine ⟨⟨h1, h2⟩, ?_⟩
      rw [List.getLast_cons (by simp)]
      exact h3
    · rintro ⟨⟨h1, h2⟩, h3⟩
      refine ⟨h1, h2, ?_⟩
      rw [List.getLast_cons (by simp)] at h3
      exact h3

theorem chain_reaches {R : Coord → Coord → Prop} :
    ∀ (l : List Coord) (a : Coord), List.Chain R a l →
      Relation.ReflTransGen R a ((a :: l).getLast (by simp)) := by
  intro l
  induction l with
  | nil => intro a _; exact Relation.ReflTransGen.refl
  | cons x xs ih =>
    intro a h
    rw [List.chain_cons] at h
    have hstep := ih x h.2
    rw [List.getLast_cons (by simp)]
    exact Relation.ReflTransGen.head h.1 hstep

theorem getLast_snoc (a b : Coord) (l : List Coord) (h : a :: (l ++ [b]) ≠ []) :
    (a :: (l ++ [b])).getLast h = b := by
  show ((a :: l) ++ [b]).getLast (by simp) = b
  exact List.getLast_concat _

theorem mem_reachF_iff_walk (g : Grid) (root : Coord) (n : Nat) :
    ∀ p, p ∈ reachF g root n ↔
      ∃ l, List.Chain (linkStep g) root l ∧ l.length ≤ n ∧
        (root :: l).getLast (by simp) = p := by
  induction n with
  | zero =>
    intro p
    show p ∈ ({root} : Finset Coord) ↔ _
    simp only [Finset.mem_singleton]
    constructor
    · rintro rfl
      exact ⟨[], .nil, by simp, by simp⟩
    · rintro ⟨l, hc, hlen, hlast⟩
      have hl0 : l = [] := List.length_eq_zero.mp (by omega)
      subst hl0
      simpa using hlast.symm
  | succ n ih =>
    intro p
    rw [mem_reachF_succ]
    constructor
    · rintro (h | ⟨q, hq, hlink⟩)
      · obtain ⟨l, hc, hlen, hlast⟩ := (ih p).mp h
        exact ⟨l, hc, by omega, hlast⟩
      · obtain ⟨l, hc, hlen, hlast⟩ := (ih q).mp hq
        refine ⟨l ++ [p], ?_, ?_, ?_⟩
        · rw [chain_snoc_iff]
          refine ⟨hc, ?_⟩
          rw [hlast]
          exact hlink
        · simp
          omega
        · exact getLast_snoc root p l _
    · rintro ⟨l, hc, hlen, hlast⟩
      rcases Nat.lt_or_ge l.length (n + 1) with hsh | hlong
      · exact .inl ((ih p).mpr ⟨l, hc, by omega, hlast⟩)
      · have hlen' : l.length = n + 1 := by omega
        have hne : l ≠ [] := by
          intro h
          rw [h] at hlen'
          cases hlen'
        obtain ⟨l', b, rfl⟩ : ∃ l' b, l = l' ++ [b] :=
          ⟨l.dropLast, l.getLast hne, (List.dropLast_append_getLast hne).symm⟩
        rw [chain_snoc_iff] at hc
        obtain ⟨hc', hstep⟩ := hc
        have hblast : b = p := by
          rw [getLast_snoc root b l'] at hlast
          exact hlast
        refine .inr ⟨(root :: l').getLast (by simp), (ih _).mpr ⟨l', hc', ?_, rfl⟩, ?_⟩
        · have : l'.length + 1 = n + 1 := by simpa using hlen'
          omega
        · rw [hblast] at hstep
          exact hstep

theorem walk_parity (g : Grid) (hgeo : LinksGeo g) :
    ∀ (l : List Coord) (a : Coord), a ∈ g.each_cell → List.Chain (linkStep g) a l →
      ((((a :: l).getLast (by simp)).1 + ((a :: l).getLast (by simp)).2 + l.length) % 2 =
        (a.1 + a.2) % 2) ∧ ((a :: l).getLast (by simp)) ∈ g.each_cell := by
  intro l
  induction l with
  | nil =>
    intro a ha _
    exact ⟨by simp, by simpa using ha⟩
  | cons x xs ih =>
    intro a ha hchain
    rw [List.chain_cons] at hchain
    obtain ⟨hax, hxs⟩ := hchain
    have hga := hgeo a ha x ((linkedNbrs_iff g a x).mpr hax)
    have hx_mem : x ∈ g.each_cell := (mem_each_cell g x).mpr ⟨hga.2.2.1, hga.2.2.2.1⟩
    obtain ⟨hflip, hmem⟩ := ih x hx_mem hxs
    have hlast_eq : ((a :: x :: xs).getLast (by simp)) = ((x :: xs).getLast (by simp)) :=
      List.getLast_cons (by simp)
    rw [hlast_eq]
    refine ⟨?_, hmem⟩
    obtain ⟨-, -, -, -, hdir⟩ := hga
    rcases hdir with ⟨h1, h2⟩ | ⟨h1, h2⟩ | ⟨h1, h2⟩ | ⟨h1, h2⟩ <;>
      (simp only [List.length_cons] at hflip ⊢; omega)

theorem reachF_stab (g : Grid) (root : Coord) (n : Nat)
    (h : reachF g root (n + 1) = reachF g root n) :
    ∀ m, n ≤ m → reachF g root m = reachF g root n := by
  intro m hm
  induction m with
  | zero => rw [Nat.le_zero.mp hm]
  | succ m ih =>
    rcases Nat.eq_or_lt_of_le hm with heq | hlt
    · rw [← heq]
    · have ihm := ih (by omega)
      show expandLinks g (reachF g root m) = reachF g root n
      rw [ihm]
      exact h

theorem reachF_growth (g : Grid) (root : Coord) (n : Nat)
    (h : ∀ m, m < n → reachF g root (m + 1) ≠ reachF g root m) :
    n + 1 ≤ (reachF g root n).card := by
  induction n with
  | zero => simp [reachF]
  | succ n ih =>
    have hsub : reachF g root n ⊆ reachF g root (n + 1) := reachF_step_mono g root n
    have hne : reachF g root (n + 1) ≠ reachF g root n := h n (by omega)
    have hstrict : reachF g root n ⊂ reachF g root (n + 1) :=
      ⟨hsub, fun hb => hne (Finset.Subset.antisymm hb hsub)⟩
    have hlt := Finset.card_lt_card hstrict
    have ihn := ih (fun m hm => h m (by omega))
    omega

theorem reachF_subset_cells (g : Grid) (root : Coord) (hroot : root ∈ g.each_cell)
    (hgeo : LinksGeo g) (n : Nat) :
    reachF g root n ⊆ g.each_cell.toFinset := by
  induction n with
  | zero =>
    intro p hp
    rw [show reachF g root 0 = {root} from rfl, Finset.mem_singleton] at hp
    rw [hp]
    simpa using hroot
  | succ n ih =>
    intro p hp
    rcases (mem_reachF_succ g root p n).mp hp with h | ⟨q, hq, hlink⟩
    · exact ih h
    · have hqc : q ∈ g.each_cell := by simpa using ih hq
      have hga := hgeo q hqc p ((linkedNbrs_iff g q p).mpr hlink)
      simp only [List.mem_toFinset]
      exact (mem_each_cell g p).mpr ⟨hga.2.2.1, hga.2.2.2.1⟩

theorem reach_in_size (g : Grid) (root p : Coord) (hroot : root ∈ g.each_cell)
    (hgeo : LinksGeo g) (hn : ∃ n, p ∈ reachF g root n) :
    ∃ n, n < g.size ∧ p ∈ reachF g root n := by
  have hsize : 1 ≤ g.size := by
    obtain ⟨h1, h2⟩ := (mem_each_cell g root).mp hroot
    have := Nat.mul_pos (by omega : 0 < g.num_rows) (by omega : 0 < g.num_columns)
    unfold Grid.size
    omega
  by_cases hstab : ∃ n₀, n₀ < g.size ∧ reachF g root (n₀ + 1) = reachF g root n₀
  · obtain ⟨n₀, hn₀, hstabeq⟩ := hstab
    obtain ⟨n, hp⟩ := hn
    rcases Nat.lt_or_ge n g.size with h | h
    · exact ⟨n, h, hp⟩
    · refine ⟨n₀, hn₀, ?_⟩
      have hstm := reachF_stab g root n₀ hstabeq n (by omega)
      rw [hstm] at hp
      exact hp
  · push_neg at hstab
    have hgrow := reachF_growth g root g.size (fun m hm => hstab m hm)
    have hsub := reachF_subset_cells g root hroot hgeo g.size
    have hcard : (g.each_cell.toFinset).card = g.size := by
      rw [List.toFinset_card_of_nodup (each_cell_nodup g)]
      exact each_cell_length g
    have := Finset.card_le_card hsub
    omega

theorem djDist_some_spec (g : Grid) (root p : Coord) (n : Nat)
    (h : djDist g root p = some n) :
    p ∈ reachF g root n ∧ ∀ m, m < n → p ∉ reachF g root m := by
  obtain ⟨h1, -, -, h4⟩ := firstReach_some g root p (g.size + 1) 0 n h
  exact ⟨h1, fun m hm => h4 m (by omega) hm⟩

theorem djDist_of_mem (g : Grid) (root p : Coord) (m : Nat)
    (hm : m ≤ g.size) (hp : p ∈ reachF g root m) :
    ∃ n, n ≤ m ∧ djDist g root p = some n := by
  cases hd : djDist g root p with
  | none =>
    have := firstReach_none g root p (g.size + 1) 0 hd m (by omega) (by omega)
    exact absurd hp this
  | some n =>
    obtain ⟨-, hmin⟩ := djDist_some_spec g root p n hd
    refine ⟨n, ?_, rfl⟩
    by_contra hcon
    exact hmin m (by omega) hp

theorem mem_reachF_iff_walkTo (g : Grid) (root p : Coord) (n : Nat) :
    p ∈ reachF g root n ↔ ∃ l, walkTo g root p l ∧ l.length ≤ n := by
  rw [mem_reachF_iff_walk]
  constructor
  · rintro ⟨l, hc, hlen, hlast⟩
    exact ⟨l, ⟨hc, hlast⟩, hlen⟩
  · rintro ⟨l, ⟨hc, hlast⟩, hlen⟩
    exact ⟨l, hc, hlen, hlast⟩

theorem djDist_root (g : Grid) (root : Coord) : djDist g root root = some 0 := by
  show firstReach g root root 0 (g.size + 1) = some 0
  unfold firstReach
  rw [if_pos]
  show root ∈ reachF g root 0
  simp [reachF]

theorem djDist_parity (g : Grid) (root p : Coord) (dp : Nat)
    (hroot : root ∈ g.each_cell) (hgeo : LinksGeo g)
    (hd : djDist g root p = some dp) :
    (p.1 + p.2 + dp) % 2 = (root.1 + root.2) % 2 := by
  obtain ⟨hmem, hmin⟩ := djDist_some_spec g root p dp hd
  obtain ⟨l, hc, hlen, hlast⟩ := (mem_reachF_iff_walk g root dp p).mp hmem
  have hmem' : p ∈ reachF g root l.length :=
    (mem_reachF_iff_walk g root l.length p).mpr ⟨l, hc, le_refl _, hlast⟩
  have hleq : l.length = dp := by
    have : ¬ l.length < dp := fun h => hmin l.length h hmem'
    omega
  have hwp := (walk_parity g hgeo l root hroot hc).1
  rw [hlast, hleq] at hwp
  exact hwp

theorem walk_end_mem (g : Grid) (root p : Coord) (l : List Coord)
    (hroot : root ∈ g.each_cell) (hgeo : LinksGeo g) (hw : walkTo g root p l) :
    p ∈ g.each_cell := by
  have := (walk_parity g hgeo l root hroot hw.1).2
  rw [hw.2] at this
  exact this

theorem djDist_lt_size (g : Grid) (root p : Coord) (dp : Nat)
    (hroot : root ∈ g.each_cell) (hgeo : LinksGeo g)
    (hd : djDist g root p = some dp) : dp < g.size := by
  obtain ⟨hmem, hmin⟩ := djDist_some_spec g root p dp hd
  obtain ⟨n, hn, hpn⟩ := reach_in_size g root p hroot hgeo ⟨dp, hmem⟩
  by_contra h
  exact hmin n (by omega) hpn

theorem djDist_neighbor_le (g : Grid) (root p q : Coord) (dp : Nat)
    (hroot : root ∈ g.each_cell) (hgeo : LinksGeo g)
    (hd : djDist g root p = some dp) (hlink : is_linked g p q = true) :
    ∃ dq, dq ≤ dp + 1 ∧ djDist g root q = some dq := by
  have hlt := djDist_lt_size g root p dp hroot hgeo hd
  have hmem := (djDist_some_spec g root p dp hd).1
  have hq : q ∈ reachF g root (dp + 1) :=
    (mem_reachF_succ g root q dp).mpr (.inr ⟨p, hmem, hlink⟩)
  exact djDist_of_mem g root q (dp + 1) (by omega) hq

theorem marksGet_filterMap_none {β : Type} (f : Coord → Option β) :
    ∀ (l : List Coord) (k : Coord), k ∉ l →
      marksGet (l.filterMap (fun p => (f p).map (fun v => (p, v)))) k = none := by
  intro l
  induction l with
  | nil => intro k _; rfl
  | cons p rest ih =>
    intro k hk
    simp only [List.mem_cons, not_or] at hk
    rw [List.filterMap_cons]
    cases hfp : (f p).map (fun v => (p, v)) with
    | none => exact ih k hk.2
    | some v =>
      obtain ⟨n, hn, hv⟩ := Option.map_eq_some'.mp hfp
      subst hv
      have hpk : ¬ p = k := fun h => hk.1 h.symm
      show marksGet ((p, n) :: _) k = none
      simp only [marksGet, if_neg hpk]
      exact ih k hk.2

theorem marksGet_filterMap {β : Type} (f : Coord → Option β) :
    ∀ (l : List Coord) (k : Coord), l.Nodup → k ∈ l →
      marksGet (l.filterMap (fun p => (f p).map (fun v => (p, v)))) k = f k := by
  intro l
  induction l with
  | nil => intro k _ hk; cases hk
  | cons p rest ih =>
    intro k hnd hk
    rw [List.nodup_cons] at hnd
    rw [List.filterMap_cons]
    by_cases hpk : p = k
    · subst hpk
      cases hfp : (f p).map (fun v => (p, v)) with
      | none =>
        rw [marksGet_filterMap_none f rest p hnd.1]
        exact (Option.map_eq_none'.mp hfp).symm
      | some v =>
        obtain ⟨n, hn, hv⟩ := Option.map_eq_some'.mp hfp
        subst hv
        show marksGet ((p, n) :: _) p = _
        simp [marksGet, hn]
    · have hkrest : k ∈ rest := by
        rcases List.mem_cons.mp hk with h | h
        · exact absurd h.symm hpk
        · exact h
      cases hfp : (f p).map (fun v => (p, v)) with
      | none => exact ih k hnd.2 hkrest
      | some v =>
        obtain ⟨n, hn, hv⟩ := Option.map_eq_some'.mp hfp
        subst hv
        show marksGet ((p, n) :: _) k = _
        simp only [marksGet, if_neg hpk]
        exact ih k hnd.2 hkrest

theorem dijkstra_get (g : Grid) (root k : Coord) (hk : k ∈ g.each_cell) :
    (DijkstraMarkup.init g root).getitem k =
      ((djDist g root k).map (fun n => (n : Int))).getD 0 := by
  show (marksGet (g.each_cell.filterMap
      (fun p => ((djDist g root p).map (fun n => (n : Int))).map (fun v => (p, v)))) k).getD 0 = _
  rw [marksGet_filterMap (fun p => (djDist g root p).map (fun n => (n : Int)))
    g.each_cell k (each_cell_nodup g) hk]

/-- C2 (corrected; the distance engine is modelled from the spec because its
body is an unimplemented stub).  On a grid whose links are symmetric and join
geographically adjacent cells (the data-model invariant), the Dijkstra markup
rooted at a cell `root` of the grid assigns `root` the value 0, assigns every
cell reachable by a walk along links the exact minimum number of link-hops
from the root, and leaves unreachable cells at the default 0; the claimed
|distance(a) − distance(b)| = 1 for a linked pair holds whenever the pair is
reachable from the root, but not in general: a linked pair in a component not
containing the root keeps the default 0 on both sides (difference 0). -/
theorem C2_dijkstra_amended (g : Grid) (root : Coord)
    (hroot : root ∈ g.each_cell) (hgeo : LinksGeo g) (hsym : SymLinks g) :
    ((DijkstraMarkup.init g root).getitem root = 0) ∧
    (∀ p, ∀ l0, walkTo g root p l0 →
      ∃ d : Nat, (DijkstraMarkup.init g root).getitem p = (d : Int) ∧
        (∃ l, walkTo g root p l ∧ l.length = d) ∧
        (∀ l, walkTo g root p l → d ≤ l.length)) ∧
    (∀ p ∈ g.each_cell, (∀ l, ¬ walkTo g root p l) →
      (DijkstraMarkup.init g root).getitem p = 0) ∧
    (∀ p, ∀ q ∈ linkedNbrs g p, ∀ l0, walkTo g root p l0 →
      ((DijkstraMarkup.init g root).getitem p -
        (DijkstraMarkup.init g root).getitem q).natAbs = 1) := by
  refine ⟨?_, ?_, ?_, ?_⟩
  · rw [dijkstra_get g root root hroot, djDist_root]
    rfl
  · intro p l0 hw
    have hp_mem := walk_end_mem g root p l0 hroot hgeo hw
    have hreach : p ∈ reachF g root l0.length :=
      (mem_reachF_iff_walkTo g root p l0.length).mpr ⟨l0, hw, le_refl _⟩
    obtain ⟨n, hn, hpn⟩ := reach_in_size g root p hroot hgeo ⟨l0.length, hreach⟩
    obtain ⟨d, hdn, hd⟩ := djDist_of_mem g root p n (by omega) hpn
    obtain ⟨hmem, hmin⟩ := djDist_some_spec g root p d hd
    refine ⟨d, ?_, ?_, ?_⟩
    · rw [dijkstra_get g root p hp_mem, hd]
      rfl
    · obtain ⟨l, hwl, hlen⟩ := (mem_reachF_iff_walkTo g root p d).mp hmem
      have hml : p ∈ reachF g root l.length :=
        (mem_reachF_iff_walkTo g root p l.length).mpr ⟨l, hwl, le_refl _⟩
      have : ¬ l.length < d := fun hlt => hmin l.length hlt hml
      exact ⟨l, hwl, by omega⟩
    · intro l hwl
      have hml : p ∈ reachF g root l.length :=
        (mem_reachF_iff_walkTo g root p l.length).mpr ⟨l, hwl, le_refl _⟩
      by_contra hlt
      exact hmin l.length (by omega) hml
  · intro p hp hno
    cases hd : djDist g root p with
    | none =>
      rw [dijkstra_get g root p hp, hd]
      rfl
    | some d =>
      obtain ⟨hmem, -⟩ := djDist_some_spec g root p d hd
      obtain ⟨l, hwl, -⟩ := (mem_reachF_iff_walkTo g root p d).mp hmem
      exact absurd hwl (hno l)
  · intro p q hq l0 hw
    have hp_mem := walk_end_mem g root p l0 hroot hgeo hw
    have hlinkpq : is_linked g p q = true := (linkedNbrs_iff g p q).mp hq
    have hgeo_pq := hgeo p hp_mem q hq
    have hq_mem : q ∈ g.each_cell :=
      (mem_each_cell g q).mpr ⟨hgeo_pq.2.2.1, hgeo_pq.2.2.2.1⟩
    have hlinkqp : is_linked g q p = true := by
      rw [hsym q hq_mem p hp_mem]
      exact hlinkpq
    have hreach : p ∈ reachF g root l0.length :=
      (mem_reachF_iff_walkTo g root p l0.length).mpr ⟨l0, hw, le_refl _⟩
    obtain ⟨n, hn, hpn⟩ := reach_in_size g root p hroot hgeo ⟨l0.length, hreach⟩
    obtain ⟨dp, -, hdp⟩ := djDist_of_mem g root p n (by omega) hpn
    obtain ⟨dq, hdq_le, hdq⟩ := djDist_neighbor_le g root p q dp hroot hgeo hdp hlinkpq
    obtain ⟨dp2, hdp2_le, hdp2⟩ := djDist_neighbor_le g root q p dq hroot hgeo hdq hlinkqp
    have hdpeq : dp = dp2 := Option.some.inj (hdp.symm.trans hdp2)
    have hpar_p := djDist_parity g root p dp hroot hgeo hdp
    have hpar_q := djDist_parity g root q dq hroot hgeo hdq
    rw [dijkstra_get g root p hp_mem, hdp, dijkstra_get g root q hq_mem, hdq]
    show (((dp : Int)) - ((dq : Int))).natAbs = 1
    obtain ⟨-, -, -, -, hdir⟩ := hgeo_pq
    rcases hdir with ⟨h1, h2⟩ | ⟨h1, h2⟩ | ⟨h1, h2⟩ | ⟨h1, h2⟩ <;> omega

/-- Witness for C2 on the 1×2 grid whose two cells are linked, rooted at its
first cell. -/
theorem C2_dijkstra_amended_witness :
    ((0, 0) ∈ wGrid.each_cell ∧ LinksGeo wGrid ∧ SymLinks wGrid) ∧
    (((DijkstraMarkup.init wGrid (0, 0)).getitem (0, 0) = 0) ∧
      (∀ p, ∀ l0, walkTo wGrid (0, 0) p l0 →
        ∃ d : Nat, (DijkstraMarkup.init wGrid (0, 0)).getitem p = (d : Int) ∧
          (∃ l, walkTo wGrid (0, 0) p l ∧ l.length = d) ∧
          (∀ l, walkTo wGrid (0, 0) p l → d ≤ l.length)) ∧
      (∀ p ∈ wGrid.each_cell, (∀ l, ¬ walkTo wGrid (0, 0) p l) →
        (DijkstraMarkup.init wGrid (0, 0)).getitem p = 0) ∧
      (∀ p, ∀ q ∈ linkedNbrs wGrid p, ∀ l0, walkTo wGrid (0, 0) p l0 →
        ((DijkstraMarkup.init wGrid (0, 0)).getitem p -
          (DijkstraMarkup.init wGrid (0, 0)).getitem q).natAbs = 1)) :=
  ⟨⟨by decide, by decide, by decide⟩,
    C2_dijkstra_amended wGrid (0, 0) (by decide) (by decide) (by decide)⟩

/-! ### C1: infrastructure — coordinates, standard shape, edge sets -/

theorem mem_allCoordsF (R C : Nat) (p : Coord) :
    p ∈ allCoordsF R C ↔ p.1 < R ∧ p.2 < C := by
  unfold allCoordsF
  rw [Finset.mem_product]
  simp [Finset.mem_range]

theorem allCoordsF_card (R C : Nat) : (allCoordsF R C).card = R * C := by
  unfold allCoordsF
  rw [Finset.card_product]
  simp

theorem each_cell_toFinset (g : Grid) :
    g.each_cell.toFinset = allCoordsF g.num_rows g.num_columns := by
  apply Finset.ext
  intro p
  rw [List.mem_toFinset, mem_each_cell, mem_allCoordsF]

theorem cellAtOpt_isSome_std (g : Grid) (h : g.Std) (p : Coord) :
    (cellAtOpt g p).isSome ↔ p.1 < g.num_rows ∧ p.2 < g.num_columns := by
  constructor
  · intro hs
    obtain ⟨c, hc⟩ := Option.isSome_iff_exists.mp hs
    unfold cellAtOpt at hc
    cases hrow : g.grid.get? p.1 with
    | none => rw [hrow] at hc; cases hc
    | some row =>
      rw [hrow] at hc
      simp only [Option.some_bind] at hc
      have h1 : p.1 < g.grid.length := by
        by_contra hcon
        rw [List.get?_eq_getElem?, List.getElem?_eq_none (by omega)] at hrow
        cases hrow
      have h2 : p.2 < row.length := by
        by_contra hcon
        rw [List.get?_eq_getElem?, List.getElem?_eq_none (by omega)] at hc
        cases hc
      have hrmem : row ∈ g.grid := List.get?_mem hrow
      rw [h.1] at h1
      rw [h.2.1 row hrmem] at h2
      exact ⟨h1, h2⟩
  · intro hp
    obtain ⟨cell, hc, -⟩ := std_cell_fields g h p.1 p.2 hp.1 hp.2
    exact Option.isSome_iff_exists.mpr ⟨cell, hc⟩

theorem mem_edgeFinset (g : Grid) (h : g.Std) (x y : Coord) :
    s(x, y) ∈ edgeFinsetOf g ↔ gridAdj g x y := by
  unfold edgeFinsetOf
  rw [List.mem_toFinset]
  simp only [List.mem_map]
  constructor
  · rintro ⟨⟨u, v⟩, hmem, heq⟩
    unfold linkPairs at hmem
    simp only [List.mem_flatMap, List.mem_map] at hmem
    obtain ⟨p, hp, q, hq, hpq⟩ := hmem
    obtain ⟨rfl, rfl⟩ := Prod.mk.injEq .. ▸ hpq.symm
    have hlink : is_linked g u v = true := (linkedNbrs_iff g u v).mp hq
    rcases Sym2.eq_iff.mp heq with ⟨rfl, rfl⟩ | ⟨rfl, rfl⟩
    · exact Or.inl hlink
    · exact Or.inr hlink
  · intro hadj
    rcases hadj with hlink | hlink
    · obtain ⟨c, hc, -⟩ := is_linked_true_iff g x y |>.mp hlink
      have hx : x ∈ g.each_cell := by
        rw [mem_each_cell]
        exact (cellAtOpt_isSome_std g h x).mp (Option.isSome_iff_exists.mpr ⟨c, hc⟩)
      refine ⟨(x, y), ?_, rfl⟩
      unfold linkPairs
      simp only [List.mem_flatMap, List.mem_map]
      exact ⟨x, hx, y, (linkedNbrs_iff g x y).mpr hlink, rfl⟩
    · obtain ⟨c, hc, -⟩ := is_linked_true_iff g y x |>.mp hlink
      have hy : y ∈ g.each_cell := by
        rw [mem_each_cell]
        exact (cellAtOpt_isSome_std g h y).mp (Option.isSome_iff_exists.mpr ⟨c, hc⟩)
      refine ⟨(y, x), ?_, Sym2.eq_swap⟩
      unfold linkPairs
      simp only [List.mem_flatMap, List.mem_map]
      exact ⟨y, hy, x, (linkedNbrs_iff g y x).mpr hlink, rfl⟩

theorem edgeFinset_link (g : Grid) (h : g.Std) (a b : Coord)
    (ha : a.1 < g.num_rows ∧ a.2 < g.num_columns)
    (hb : b.1 < g.num_rows ∧ b.2 < g.num_columns) :
    edgeFinsetOf (g.link a b) = insert s(a, b) (edgeFinsetOf g) := by
  have hsa : (cellAtOpt g a).isSome := (cellAtOpt_isSome_std g h a).mpr ha
  have hsb : (cellAtOpt g b).isSome := (cellAtOpt_isSome_std g h b).mpr hb
  have hstd2 := std_link g a b h
  apply Finset.ext
  intro e
  induction e using Sym2.ind with
  | _ x y =>
    rw [mem_edgeFinset (g.link a b) hstd2, Finset.mem_insert,
      mem_edgeFinset g h]
    unfold gridAdj
    rw [is_linked_link_iff g a b x y hsa hsb, is_linked_link_iff g a b y x hsa hsb,
      Sym2.eq_iff]
    tauto

theorem is_linked_init (R C : Nat) (x y : Coord) :
    is_linked (Grid.init R C) x y = false := by
  unfold is_linked
  obtain ⟨x1, x2⟩ := x
  rw [cellAtOpt_init]
  by_cases hbnd : x1 < R ∧ x2 < C
  · rw [if_pos hbnd]
    simp [connect_one, mkCell]
  · rw [if_neg hbnd]

theorem edgeFinset_init (R C : Nat) : edgeFinsetOf (Grid.init R C) = ∅ := by
  rw [Finset.eq_empty_iff_forall_not_mem]
  intro e
  induction e using Sym2.ind with
  | _ x y =>
    rw [mem_edgeFinset (Grid.init R C) (std_init R C)]
    unfold gridAdj
    simp [is_linked_init]

theorem mem_neighborsOf_std (g : Grid) (h : g.Std) (i j : Nat)
    (hi : i < g.num_rows) (hj : j < g.num_columns) (q : Coord) :
    q ∈ neighborsOf g (i, j) ↔
      (1 ≤ i ∧ q = (i - 1, j)) ∨ (i + 1 < g.num_rows ∧ q = (i + 1, j)) ∨
      (1 ≤ j ∧ q = (i, j - 1)) ∨ (j + 1 < g.num_columns ∧ q = (i, j + 1)) := by
  obtain ⟨cell, hc, -, -, hn, hs, hw, he⟩ := std_cell_fields g h i j hi hj
  unfold neighborsOf
  rw [hc]
  show q ∈ cell.north.toList ++ cell.south.toList ++ cell.west.toList ++ cell.east.toList ↔ _
  rw [hn, hs, hw, he]
  by_cases h1 : 1 ≤ i <;> by_cases h2 : i + 1 < g.num_rows <;>
    by_cases h3 : 1 ≤ j <;> by_cases h4 : j + 1 < g.num_columns <;>
    simp [h1, h2, h3, h4, Option.toList]

theorem neighborsOf_bounds (g : Grid) (h : g.Std) (p q : Coord)
    (hp : p.1 < g.num_rows ∧ p.2 < g.num_columns) (hq : q ∈ neighborsOf g p) :
    q.1 < g.num_rows ∧ q.2 < g.num_columns := by
  obtain ⟨i, j⟩ := p
  rw [mem_neighborsOf_std g h i j hp.1 hp.2] at hq
  rcases hq with ⟨h1, rfl⟩ | ⟨h1, rfl⟩ | ⟨h1, rfl⟩ | ⟨h1, rfl⟩ <;>
    exact ⟨by simp; omega, by simp; omega⟩

theorem neighborsOf_link (g : Grid) (a b p : Coord) :
    neighborsOf (g.link a b) p = neighborsOf g p := by
  have ht := topoFields_link g a b p
  unfold topoFields at ht
  unfold neighborsOf
  cases h1 : cellAtOpt (g.link a b) p with
  | none =>
    rw [h1] at ht
    cases h2 : cellAtOpt g p with
    | none => rfl
    | some c => rw [h2] at ht; cases ht
  | some c =>
    rw [h1] at ht
    cases h2 : cellAtOpt g p with
    | none => rw [h2] at ht; cases ht
    | some c2 =>
      rw [h2] at ht
      simp only [Option.map_some', Option.some.injEq, Prod.mk.injEq] at ht
      obtain ⟨e1, e2, e3, e4⟩ := ht
      show c.north.toList ++ c.south.toList ++ c.west.toList ++ c.east.toList =
        c2.north.toList ++ c2.south.toList ++ c2.west.toList ++ c2.east.toList
      rw [e1, e2, e3, e4]

/-! ### C1: tree-growth machinery -/

theorem Grows.subset {T T' : Finset Coord} {ps : List (Coord × Coord)}
    (h : Grows T ps T') : T ⊆ T' := by
  induction h with
  | nil => exact Finset.Subset.refl _
  | consF ha hb hrec ih => exact fun x hx => ih (Finset.mem_insert_of_mem hx)
  | consR hb ha hrec ih => exact fun x hx => ih (Finset.mem_insert_of_mem hx)

theorem Grows.endpoints {T T' : Finset Coord} {ps : List (Coord × Coord)}
    (h : Grows T ps T') : ∀ pr ∈ ps, pr.1 ∈ T' ∧ pr.2 ∈ T' ∧ pr.1 ≠ pr.2 := by
  induction h with
  | nil => intro pr hpr; cases hpr
  | @consF T T' a b ps ha hb hrec ih =>
    intro pr hpr
    rcases List.mem_cons.mp hpr with rfl | hmem
    · refine ⟨hrec.subset (Finset.mem_insert_of_mem ha),
        hrec.subset (Finset.mem_insert_self _ _), ?_⟩
      intro heq
      have heq2 : a = b := heq
      rw [heq2] at ha
      exact hb ha
    · exact ih pr hmem
  | @consR T T' a b ps hb ha hrec ih =>
    intro pr hpr
    rcases List.mem_cons.mp hpr with rfl | hmem
    · refine ⟨hrec.subset (Finset.mem_insert_self _ _),
        hrec.subset (Finset.mem_insert_of_mem hb), ?_⟩
      intro heq
      have heq2 : a = b := heq
      rw [← heq2] at hb
      exact ha hb
    · exact ih pr hmem

theorem Grows.card_eq {T T' : Finset Coord} {ps : List (Coord × Coord)}
    (h : Grows T ps T') : T'.card = T.card + ps.length := by
  induction h with
  | nil => simp
  | @consF T T' a b ps hb ha hrec ih =>
    rw [ih, Finset.card_insert_of_not_mem ha]
    simp only [List.length_cons]
    omega
  | @consR T T' a b ps hb ha hrec ih =>
    rw [ih, Finset.card_insert_of_not_mem ha]
    simp only [List.length_cons]
    omega

theorem Grows.append {T T' T'' : Finset Coord} {ps qs : List (Coord × Coord)}
    (h : Grows T ps T') (h2 : Grows T' qs T'') : Grows T (ps ++ qs) T'' := by
  induction h with
  | nil => exact h2
  | consF ha hb hrec ih => exact Grows.consF ha hb (ih h2)
  | consR hb ha hrec ih => exact Grows.consR hb ha (ih h2)

theorem Grows.snocF {T T' : Finset Coord} {ps : List (Coord × Coord)} {a b : Coord}
    (h : Grows T ps T') (ha : a ∈ T') (hb : b ∉ T') :
    Grows T (ps ++ [(a, b)]) (insert b T') :=
  h.append (Grows.consF ha hb Grows.nil)

theorem Grows.snocR {T T' : Finset Coord} {ps : List (Coord × Coord)} {a b : Coord}
    (h : Grows T ps T') (hb : b ∈ T') (ha : a ∉ T') :
    Grows T (ps ++ [(a, b)]) (insert a T') :=
  h.append (Grows.consR hb ha Grows.nil)

theorem Grows.fresh_split {T T' : Finset Coord} {ps : List (Coord × Coord)}
    (h : Grows T ps T') :
    ∀ qs pr rs, ps = qs ++ pr :: rs →
      ∃ f, (f = pr.1 ∨ f = pr.2) ∧ f ∉ T ∧ ∀ q ∈ qs, f ≠ q.1 ∧ f ≠ q.2 := by
  induction h with
  | nil =>
    intro qs pr rs heq
    exact absurd heq.symm (List.append_ne_nil_of_right_ne_nil _ (by simp))
  | @consF T T' a b ps ha hb hrec ih =>
    intro qs pr rs heq
    cases qs with
    | nil =>
      obtain ⟨h1, -⟩ := List.cons.injEq .. ▸ heq
      refine ⟨b, ?_, hb, fun q hq => absurd hq (List.not_mem_nil _)⟩
      rw [← h1]
      exact Or.inr rfl
    | cons q0 qs2 =>
      rw [List.cons_append] at heq
      obtain ⟨h1, h2⟩ := List.cons.injEq .. ▸ heq
      obtain ⟨f, hf12, hfT, hall⟩ := ih qs2 pr rs h2
      have hfT2 : f ∉ T := fun hin => hfT (Finset.mem_insert_of_mem hin)
      have hfb : f ≠ b := fun hfb => hfT (hfb ▸ Finset.mem_insert_self _ _)
      have hfa : f ≠ a := fun hfa => hfT2 (hfa ▸ ha)
      refine ⟨f, hf12, hfT2, ?_⟩
      intro q hq
      rcases List.mem_cons.mp hq with rfl | hmem
      · rw [← h1]
        exact ⟨hfa, hfb⟩
      · exact hall q hmem
  | @consR T T' a b ps hb ha hrec ih =>
    intro qs pr rs heq
    cases qs with
    | nil =>
      obtain ⟨h1, -⟩ := List.cons.injEq .. ▸ heq
      refine ⟨a, ?_, ha, fun q hq => absurd hq (List.not_mem_nil _)⟩
      rw [← h1]
      exact Or.inl rfl
    | cons q0 qs2 =>
      rw [List.cons_append] at heq
      obtain ⟨h1, h2⟩ := List.cons.injEq .. ▸ heq
      obtain ⟨f, hf12, hfT, hall⟩ := ih qs2 pr rs h2
      have hfT2 : f ∉ T := fun hin => hfT (Finset.mem_insert_of_mem hin)
      have hfa : f ≠ a := fun hfa => hfT (hfa ▸ Finset.mem_insert_self _ _)
      have hfb : f ≠ b := fun hfb => hfT2 (hfb ▸ hb)
      refine ⟨f, hf12, hfT2, ?_⟩
      intro q hq
      rcases List.mem_cons.mp hq with rfl | hmem
      · rw [← h1]
        exact ⟨hfa, hfb⟩
      · exact hall q hmem

theorem Grows.sym2_nodup {T T' : Finset Coord} {ps : List (Coord × Coord)}
    (h : Grows T ps T') : (ps.map (fun pr => s(pr.1, pr.2))).Nodup := by
  induction h with
  | nil => exact List.nodup_nil
  | @consF T T' a b ps ha hb hrec ih =>
    rw [List.map_cons, List.nodup_cons]
    refine ⟨?_, ih⟩
    intro hmem
    simp only [List.mem_map] at hmem
    obtain ⟨pr, hpr, heq⟩ := hmem
    obtain ⟨qs, rs, hsplit⟩ := List.append_of_mem hpr
    obtain ⟨f, hf12, hfT, -⟩ := hrec.fresh_split qs pr rs hsplit
    rcases Sym2.eq_iff.mp heq with ⟨h1, h2⟩ | ⟨h1, h2⟩ <;>
      rcases hf12 with rfl | rfl
    · exact hfT (h1 ▸ Finset.mem_insert_of_mem ha)
    · exact hfT (h2 ▸ Finset.mem_insert_self _ _)
    · exact hfT (h1 ▸ Finset.mem_insert_self _ _)
    · exact hfT (h2 ▸ Finset.mem_insert_of_mem ha)
  | @consR T T' a b ps hb ha hrec ih =>
    rw [List.map_cons, List.nodup_cons]
    refine ⟨?_, ih⟩
    intro hmem
    simp only [List.mem_map] at hmem
    obtain ⟨pr, hpr, heq⟩ := hmem
    obtain ⟨qs, rs, hsplit⟩ := List.append_of_mem hpr
    obtain ⟨f, hf12, hfT, -⟩ := hrec.fresh_split qs pr rs hsplit
    rcases Sym2.eq_iff.mp heq with ⟨h1, h2⟩ | ⟨h1, h2⟩ <;>
      rcases hf12 with rfl | rfl
    · exact hfT (h1 ▸ Finset.mem_insert_self _ _)
    · exact hfT (h2 ▸ Finset.mem_insert_of_mem hb)
    · exact hfT (h1 ▸ Finset.mem_insert_of_mem hb)
    · exact hfT (h2 ▸ Finset.mem_insert_self _ _)

theorem adjE_mono {ps qs : List (Coord × Coord)} (hsub : ∀ pr ∈ ps, pr ∈ qs)
    (x y : Coord) (h : adjE ps x y) : adjE qs x y := by
  rcases h with h | h
  · exact Or.inl (hsub _ h)
  · exact Or.inr (hsub _ h)

theorem Grows.connects {T T' : Finset Coord} {ps : List (Coord × Coord)}
    (h : Grows T ps T') :
    ∀ v ∈ T', ∃ u ∈ T, Relation.ReflTransGen (adjE ps) u v := by
  induction h with
  | nil => intro v hv; exact ⟨v, hv, Relation.ReflTransGen.refl⟩
  | @consF T T' a b ps ha hb hrec ih =>
    intro v hv
    obtain ⟨u, hu, hpath⟩ := ih v hv
    have hpath2 : Relation.ReflTransGen (adjE ((a, b) :: ps)) u v :=
      Relation.ReflTransGen.mono
        (fun x y hxy => adjE_mono (fun pr hpr => List.mem_cons_of_mem _ hpr) x y hxy) hpath
    rcases Finset.mem_insert.mp hu with rfl | huT
    · exact ⟨a, ha,
        Relation.ReflTransGen.head (Or.inl (List.mem_cons_self _ _)) hpath2⟩
    · exact ⟨u, huT, hpath2⟩
  | @consR T T' a b ps hb ha hrec ih =>
    intro v hv
    obtain ⟨u, hu, hpath⟩ := ih v hv
    have hpath2 : Relation.ReflTransGen (adjE ((a, b) :: ps)) u v :=
      Relation.ReflTransGen.mono
        (fun x y hxy => adjE_mono (fun pr hpr => List.mem_cons_of_mem _ hpr) x y hxy) hpath
    rcases Finset.mem_insert.mp hu with rfl | huT
    · exact ⟨b, hb,
        Relation.ReflTransGen.head (Or.inr (List.mem_cons_self _ _)) hpath2⟩
    · exact ⟨u, huT, hpath2⟩

theorem Grows.snoc_inv {T : Finset Coord} {ps : List (Coord × Coord)} :
    ∀ {T' : Finset Coord} {pr : Coord × Coord}, Grows T (ps ++ [pr]) T' →
      ∃ T2, Grows T ps T2 ∧
        ((pr.1 ∈ T2 ∧ pr.2 ∉ T2 ∧ T' = insert pr.2 T2) ∨
         (pr.2 ∈ T2 ∧ pr.1 ∉ T2 ∧ T' = insert pr.1 T2)) := by
  induction ps generalizing T with
  | nil =>
    intro T' pr h
    rw [List.nil_append] at h
    obtain ⟨p1, p2⟩ := pr
    cases h with
    | consF ha hb hrec => cases hrec; exact ⟨T, Grows.nil, Or.inl ⟨ha, hb, rfl⟩⟩
    | consR hb ha hrec => cases hrec; exact ⟨T, Grows.nil, Or.inr ⟨hb, ha, rfl⟩⟩
  | cons q qs ih =>
    intro T' pr h
    rw [List.cons_append] at h
    obtain ⟨q1, q2⟩ := q
    cases h with
    | consF ha hb hrec =>
      obtain ⟨T2, hg, hcase⟩ := ih hrec
      exact ⟨T2, Grows.consF ha hb hg, hcase⟩
    | consR hb ha hrec =>
      obtain ⟨T2, hg, hcase⟩ := ih hrec
      exact ⟨T2, Grows.consR hb ha hg, hcase⟩

theorem chain_imp_mem {R S : Coord → Coord → Prop} (P : Coord → Prop)
    (himp : ∀ x y, P x → P y → R x y → S x y) :
    ∀ (l : List Coord) (a : Coord), P a → (∀ x ∈ l, P x) →
      List.Chain R a l → List.Chain S a l := by
  intro l
  induction l with
  | nil => intro a _ _ _; exact List.Chain.nil
  | cons x xs ih =>
    intro a hPa hPl hch
    rw [List.chain_cons] at hch ⊢
    exact ⟨himp a x hPa (hPl x (List.mem_cons_self _ _)) hch.1,
      ih x (hPl x (List.mem_cons_self _ _))
        (fun y hy => hPl y (List.mem_cons_of_mem _ hy)) hch.2⟩

theorem adjE_symm (E : List (Coord × Coord)) (x y : Coord) (h : adjE E x y) :
    adjE E y x := by
  rcases h with h | h
  · exact Or.inr h
  · exact Or.inl h

/-- Adding one tree-growing edge to an acyclic edge list keeps it acyclic:
the fresh endpoint `fr` of the new edge has no other incident edge, and a
simple cycle cannot pass through a vertex of degree one. -/
theorem no_cycle_step (qs : List (Coord × Coord)) (a0 b0 fr anchor : Coord)
    (T2 : Finset Coord)
    (hend : ∀ pr ∈ qs, pr.1 ∈ T2 ∧ pr.2 ∈ T2)
    (hfr : fr ∉ T2) (hanchor : anchor ∈ T2)
    (hfa : (a0 = anchor ∧ b0 = fr) ∨ (a0 = fr ∧ b0 = anchor))
    (hnc : ¬ HasCycle (adjE qs)) :
    ¬ HasCycle (adjE (qs ++ [(a0, b0)])) := by
  rintro ⟨v0, l, hlen, hnd, hch⟩
  have hfrne : fr ≠ anchor := fun h => hfr (h ▸ hanchor)
  have touch1 : ∀ x y, adjE (qs ++ [(a0, b0)]) x y → x = fr → y = anchor := by
    intro x y hxy hx
    subst hx
    rcases hxy with hmem | hmem <;> rw [List.mem_append] at hmem
    · rcases hmem with hq | hlast
      · exact absurd (hend _ hq).1 hfr
      · rw [List.mem_singleton] at hlast
        obtain ⟨hx0, hy0⟩ := Prod.mk.injEq .. ▸ hlast
        rcases hfa with ⟨ha1, hb1⟩ | ⟨ha1, hb1⟩
        · exact absurd (hx0.trans ha1) hfrne
        · exact hy0.trans hb1
    · rcases hmem with hq | hlast
      · exact absurd (hend _ hq).2 hfr
      · rw [List.mem_singleton] at hlast
        obtain ⟨hy0, hx0⟩ := Prod.mk.injEq .. ▸ hlast
        rcases hfa with ⟨ha1, hb1⟩ | ⟨ha1, hb1⟩
        · exact hy0.trans ha1
        · exact absurd (hx0.trans hb1) hfrne
  have qstep : ∀ x y, x ≠ fr → y ≠ fr → adjE (qs ++ [(a0, b0)]) x y → adjE qs x y := by
    intro x y hx hy hxy
    rcases hxy with hmem | hmem <;> rw [List.mem_append] at hmem
    · rcases hmem with hq | hlast
      · exact Or.inl hq
      · rw [List.mem_singleton] at hlast
        obtain ⟨hx0, hy0⟩ := Prod.mk.injEq .. ▸ hlast
        rcases hfa with ⟨ha1, hb1⟩ | ⟨ha1, hb1⟩
        · exact absurd (hy0.trans hb1) hy
        · exact absurd (hx0.trans ha1) hx
    · rcases hmem with hq | hlast
      · exact Or.inr hq
      · rw [List.mem_singleton] at hlast
        obtain ⟨hy0, hx0⟩ := Prod.mk.injEq .. ▸ hlast
        rcases hfa with ⟨ha1, hb1⟩ | ⟨ha1, hb1⟩
        · exact absurd (hx0.trans hb1) hx
        · exact absurd (hy0.trans ha1) hy
  by_cases hfrin : fr ∈ v0 :: l
  · rcases List.mem_cons.mp hfrin with heq | hfl
    · subst heq
      cases l with
      | nil => simp at hlen
      | cons x l2 =>
        have hl2ne : l2 ≠ [] := by
          intro h
          rw [h] at hlen
          simp at hlen
        have hch2 := hch
        rw [List.cons_append, List.chain_cons] at hch2
        obtain ⟨hstep1, -⟩ := hch2
        have hch3 := hch
        rw [chain_snoc_iff] at hch3
        obtain ⟨-, hlaststep⟩ := hch3
        have hx_anchor : x = anchor := touch1 fr x hstep1 rfl
        have hy_anchor : (fr :: x :: l2).getLast (by simp) = anchor :=
          touch1 fr _ (adjE_symm _ _ _ hlaststep) rfl
        have hmem : (fr :: x :: l2).getLast (by simp) ∈ l2 := by
          rw [List.getLast_cons (by simp), List.getLast_cons hl2ne]
          exact List.getLast_mem _
        rw [hy_anchor, ← hx_anchor] at hmem
        have hxnot : x ∉ l2 := by
          have := (List.nodup_cons.mp (List.nodup_cons.mp hnd).2).1
          exact this
        exact hxnot hmem
    · obtain ⟨l1, l2, rfl⟩ := List.append_of_mem hfl
      have hch2 := hch
      rw [List.append_assoc, List.cons_append, List.chain_split] at hch2
      obtain ⟨hfirst, hsecond⟩ := hch2
      rw [chain_snoc_iff] at hfirst
      obtain ⟨-, hprevstep⟩ := hfirst
      have hprev_anchor : (v0 :: l1).getLast (by simp) = anchor :=
        touch1 fr _ (adjE_symm _ _ _ hprevstep) rfl
      cases l2 with
      | nil =>
        rw [List.nil_append, List.chain_cons] at hsecond
        obtain ⟨hstep, -⟩ := hsecond
        have hv0_anchor : v0 = anchor := touch1 fr v0 hstep rfl
        cases l1 with
        | nil => simp at hlen
        | cons w l1b =>
          have hmem : (v0 :: w :: l1b).getLast (by simp) ∈ w :: l1b := by
            rw [List.getLast_cons (by simp)]
            exact List.getLast_mem _
          rw [hprev_anchor, ← hv0_anchor] at hmem
          have hv0not : v0 ∉ (w :: l1b) ++ fr :: [] := (List.nodup_cons.mp hnd).1
          exact hv0not (List.mem_append.mpr (Or.inl hmem))
      | cons n0 l2b =>
        rw [List.cons_append, List.chain_cons] at hsecond
        obtain ⟨hstep, -⟩ := hsecond
        have hn0_anchor : n0 = anchor := touch1 fr n0 hstep rfl
        have hprevmem : (v0 :: l1).getLast (by simp) ∈ v0 :: l1 := List.getLast_mem _
        rw [hprev_anchor, ← hn0_anchor] at hprevmem
        rcases List.mem_cons.mp hprevmem with hn0v | hn0l1
        · have hv0not : v0 ∉ l1 ++ fr :: n0 :: l2b := (List.nodup_cons.mp hnd).1
          apply hv0not
          rw [hn0v]
          exact List.mem_append.mpr (Or.inr (by simp))
        · have hlnd : (l1 ++ fr :: n0 :: l2b).Nodup := (List.nodup_cons.mp hnd).2
          have hdisj := List.disjoint_of_nodup_append hlnd
          exact hdisj hn0l1 (by simp)
  · apply hnc
    refine ⟨v0, l, hlen, hnd, ?_⟩
    have hmem_all : ∀ x ∈ l ++ [v0], x ∈ v0 :: l := by
      intro x hx
      rcases List.mem_append.mp hx with hx | hx
      · exact List.mem_cons_of_mem _ hx
      · rw [List.mem_singleton] at hx
        exact hx ▸ List.mem_cons_self _ _
    refine chain_imp_mem (fun x => x ∈ v0 :: l) ?_ (l ++ [v0]) v0
      (List.mem_cons_self _ _) hmem_all hch
    intro x y hx hy hxy
    refine qstep x y ?_ ?_ hxy
    · intro h
      exact hfrin (h ▸ hx)
    · intro h
      exact hfrin (h ▸ hy)

theorem grows_acyclic (ps : List (Coord × Coord)) :
    ∀ (T T' : Finset Coord), Grows T ps T' → ¬ HasCycle (adjE ps) := by
  induction ps using List.reverseRecOn with
  | nil =>
    rintro T T' h ⟨v0, l, hlen, hnd, hch⟩
    cases l with
    | nil => simp at hlen
    | cons x l2 =>
      rw [List.cons_append, List.chain_cons] at hch
      rcases hch.1 with h1 | h1 <;> exact absurd h1 (List.not_mem_nil _)
  | append_singleton qs pr ih =>
    intro T T' h
    obtain ⟨T2, hg, hcase⟩ := h.snoc_inv
    have hend : ∀ q ∈ qs, q.1 ∈ T2 ∧ q.2 ∈ T2 :=
      fun q hq => ⟨(hg.endpoints q hq).1, (hg.endpoints q hq).2.1⟩
    obtain ⟨p1, p2⟩ := pr
    rcases hcase with ⟨h1, h2, -⟩ | ⟨h1, h2, -⟩
    · exact no_cycle_step qs p1 p2 p2 p1 T2 hend h2 h1 (Or.inl ⟨rfl, rfl⟩) (ih T T2 hg)
    · exact no_cycle_step qs p1 p2 p1 p2 T2 hend h2 h1 (Or.inr ⟨rfl, rfl⟩) (ih T T2 hg)

theorem gridAdj_symm (g : Grid) (x y : Coord) (h : gridAdj g x y) : gridAdj g y x := by
  rcases h with h | h
  · exact Or.inr h
  · exact Or.inl h

/-- Master lemma: a grid whose edge set is exactly the Sym2 image of a
tree-growing list rooted inside the grid satisfies the spanning-tree spec. -/
theorem tree_final (g : Grid) (root : Coord) (ps : List (Coord × Coord))
    (hstd : g.Std)
    (hgrow : Grows {root} ps (allCoordsF g.num_rows g.num_columns))
    (hedge : edgeFinsetOf g = (ps.map (fun pr => s(pr.1, pr.2))).toFinset) :
    mazeOk g g.num_rows g.num_columns := by
  have hadj : ∀ x y, gridAdj g x y ↔ adjE ps x y := by
    intro x y
    rw [← mem_edgeFinset g hstd, hedge, List.mem_toFinset]
    simp only [List.mem_map]
    constructor
    · rintro ⟨pr, hpr, heq⟩
      rcases Sym2.eq_iff.mp heq with ⟨h1, h2⟩ | ⟨h1, h2⟩
      · left
        have hxy : (x, y) = pr := by rw [← h1, ← h2]
        exact hxy ▸ hpr
      · right
        have hxy : (y, x) = pr := by rw [← h1, ← h2]
        exact hxy ▸ hpr
    · rintro (h | h)
      · exact ⟨(x, y), h, rfl⟩
      · exact ⟨(y, x), h, Sym2.eq_swap⟩
  refine ⟨?_, ?_, ?_⟩
  · unfold undirectedLinkCount
    rw [hedge, List.toFinset_card_of_nodup hgrow.sym2_nodup, List.length_map]
    have hcard := hgrow.card_eq
    rw [allCoordsF_card, Finset.card_singleton] at hcard
    omega
  · have hco : ∀ v ∈ allCoordsF g.num_rows g.num_columns,
        Relation.ReflTransGen (gridAdj g) root v := by
      intro v hv
      obtain ⟨u, hu, hpath⟩ := hgrow.connects v hv
      rw [Finset.mem_singleton] at hu
      subst hu
      exact Relation.ReflTransGen.mono (fun x y hxy => (hadj x y).mpr hxy) hpath
    intro p hp q hq
    have hp2 : p ∈ allCoordsF g.num_rows g.num_columns := by
      rw [mem_allCoordsF]
      exact (mem_each_cell g p).mp hp
    have hq2 : q ∈ allCoordsF g.num_rows g.num_columns := by
      rw [mem_allCoordsF]
      exact (mem_each_cell g q).mp hq
    have hsym : Symmetric (Relation.ReflTransGen (gridAdj g)) :=
      Relation.ReflTransGen.symmetric (fun x y hxy => gridAdj_symm g x y hxy)
    exact Relation.ReflTransGen.trans (hsym (hco p hp2)) (hco q hq2)
  · intro hcy
    apply grows_acyclic ps {root} _ hgrow
    obtain ⟨v0, l, hlen, hnd2, hch⟩ := hcy
    exact ⟨v0, l, hlen, hnd2, List.Chain.imp (fun x y hxy => (hadj x y).mp hxy) hch⟩

theorem treeOut_mazeOk (g : Grid) (R C : Nat) (h : TreeOut g R C) : mazeOk g R C := by
  obtain ⟨hstd, hR, hC, root, ps, hgrow, hedge⟩ := h
  have hres := tree_final g root ps hstd (by rw [hR, hC]; exact hgrow) hedge
  rw [hR, hC] at hres
  exact hres

/-! ### C1: the five algorithms produce spanning trees -/

theorem pyChoice_ok {α : Type} (l : List α) (r : Rng) (t : Nat) (x : α) (t2 : Nat)
    (h : pyChoice l r t = .ok (x, t2)) : x ∈ l := by
  unfold pyChoice at h
  split at h
  · have hinj := Except.ok.inj h
    obtain ⟨h1, -⟩ := Prod.mk.injEq .. ▸ hinj
    rw [← h1]
    exact List.get_mem _ _ _
  · cases h

theorem std_mem_grid (g : Grid) (h : g.Std) (row : List Cell) (hrow : row ∈ g.grid)
    (c : Cell) (hc : c ∈ row) :
    c.row < g.num_rows ∧ c.column < g.num_columns := by
  rw [std_grid_decomp g h] at hrow
  simp only [List.mem_map, List.mem_range] at hrow
  obtain ⟨i, hi, rfl⟩ := hrow
  simp only [List.mem_map, List.mem_range] at hc
  obtain ⟨j, hj, rfl⟩ := hc
  obtain ⟨cell, hcell, hrw, hcl, -⟩ := std_cell_fields g h i j hi hj
  rw [hcell]
  simp only [Option.getD_some]
  rw [hrw, hcl]
  exact ⟨hi, hj⟩

theorem random_cell_coord (g : Grid) (r : Rng) (t : Nat) (c : Cell) (t2 : Nat)
    (h : g.Std) (hok : Grid.random_cell g r t = .ok (c, t2)) :
    c.row < g.num_rows ∧ c.column < g.num_columns := by
  unfold Grid.random_cell at hok
  cases h1 : pyChoice g.grid r t with
  | error e => rw [h1] at hok; cases hok
  | ok rowt =>
    obtain ⟨row, t1⟩ := rowt
    rw [h1] at hok
    have hok2 : pyChoice row r t1 = .ok (c, t2) := hok
    have hrowmem := pyChoice_ok g.grid r t row t1 h1
    have hcmem := pyChoice_ok row r t1 c t2 hok2
    exact std_mem_grid g h row hrowmem c hcmem

theorem abLoop_spec (r : Rng) (R C : Nat) (root : Coord) :
    ∀ (fuel : Nat) (g : Grid) (cur : Coord) (nv : List Coord) (t : Nat)
      (ps : List (Coord × Coord)) (V : Finset Coord) (g2 : Grid),
      TreeInv g R C root ps V → cur ∈ V →
      nv.Nodup → (∀ p, p ∈ nv ↔ p ∈ allCoordsF R C ∧ p ∉ V) →
      abLoop r fuel g cur nv t = .done g2 → TreeOut g2 R C := by
  intro fuel
  induction fuel with
  | zero =>
    intro g cur nv t ps V g2 _ _ _ _ hrun
    cases hrun
  | succ fuel ih =>
    intro g cur nv t ps V g2 hinv hcur hnd hchar hrun
    obtain ⟨hstd, hR, hC, hgrow, hsub, hedge⟩ := hinv
    simp only [abLoop] at hrun
    split at hrun
    · rename_i hnv
      have hg2 : g2 = g := (RunOut.done.inj hrun).symm
      subst hg2
      have hVall : V = allCoordsF R C := by
        apply Finset.Subset.antisymm hsub
        intro p hp
        by_contra hpV
        have hmem := (hchar p).mpr ⟨hp, hpV⟩
        rw [hnv] at hmem
        cases hmem
      exact ⟨hstd, hR, hC, root, ps, hVall ▸ hgrow, hedge⟩
    · rename_i hnv
      split at hrun
      · cases hrun
      · rename_i next t1 hch
        have hnextmem := pyChoice_ok _ r t next t1 hch
        have hcurbg : cur.1 < g.num_rows ∧ cur.2 < g.num_columns := by
          have hm := hsub hcur
          rw [mem_allCoordsF] at hm
          rw [hR, hC]
          exact hm
        have hnextbg := neighborsOf_bounds g hstd cur next hcurbg hnextmem
        split at hrun
        · rename_i hnin
          have hnextV : next ∉ V := ((hchar next).mp hnin).2
          refine ih (g.link cur next) next (nv.erase next) t1
            (ps ++ [(cur, next)]) (insert next V) g2 ?_
            (Finset.mem_insert_self _ _) (hnd.erase _) ?_ hrun
          · refine ⟨std_link g cur next hstd, hR, hC, hgrow.snocF hcur hnextV, ?_, ?_⟩
            · intro p hp
              rcases Finset.mem_insert.mp hp with rfl | hp
              · rw [mem_allCoordsF, ← hR, ← hC]
                exact hnextbg
              · exact hsub hp
            · rw [edgeFinset_link g hstd cur next hcurbg hnextbg, hedge,
                List.map_append, List.toFinset_append]
              simp [Finset.insert_eq, Finset.union_comm]
          · intro p
            rw [List.Nodup.mem_erase_iff hnd, hchar p, Finset.mem_insert]
            constructor
            · rintro ⟨hne, hall, hpv⟩
              exact ⟨hall, fun hc => hc.elim hne hpv⟩
            · rintro ⟨hall, hnot⟩
              exact ⟨fun hc => hnot (Or.inl hc), hall, fun hc => hnot (Or.inr hc)⟩
        · rename_i hnin
          have hnextV : next ∈ V := by
            by_contra hcon
            refine hnin ((hchar next).mpr ⟨?_, hcon⟩)
            rw [mem_allCoordsF, ← hR, ← hC]
            exact hnextbg
          exact ih g next nv t1 ps V g2 ⟨hstd, hR, hC, hgrow, hsub, hedge⟩
            hnextV hnd hchar hrun

theorem aldous_broder_tree (R C : Nat) (r : Rng) (fuel : Nat) (g2 : Grid)
    (h : aldous_broder (Grid.init R C) r fuel = .done g2) : TreeOut g2 R C := by
  unfold aldous_broder at h
  cases hrc : Grid.random_cell (Grid.init R C) r 0 with
  | error e => rw [hrc] at h; cases h
  | ok ct =>
    obtain ⟨startCell, t⟩ := ct
    rw [hrc] at h
    have h2 : abLoop r fuel (Grid.init R C) (startCell.row, startCell.column)
        ((Grid.init R C).each_cell.erase (startCell.row, startCell.column)) t
        = .done g2 := h
    obtain ⟨hr1, hc1⟩ := random_cell_coord _ r 0 startCell t (std_init R C) hrc
    refine abLoop_spec r R C (startCell.row, startCell.column) fuel _ _ _ t
      [] {(startCell.row, startCell.column)} g2 ?_
      (Finset.mem_singleton_self _) ((each_cell_nodup _).erase _) ?_ h2
    · refine ⟨std_init R C, rfl, rfl, Grows.nil, ?_, ?_⟩
      · intro p hp
        rw [Finset.mem_singleton] at hp
        subst hp
        rw [mem_allCoordsF]
        exact ⟨hr1, hc1⟩
      · rw [edgeFinset_init]
        simp
    · intro p
      rw [List.Nodup.mem_erase_iff (each_cell_nodup _), mem_each_cell,
        mem_allCoordsF, Finset.mem_singleton]
      constructor
      · rintro ⟨hne, hb⟩
        exact ⟨hb, hne⟩
      · rintro ⟨hb, hne⟩
        exact ⟨hne, hb⟩

theorem geo_closed_all (g : Grid) (h : g.Std) (V : Finset Coord) (start : Coord)
    (hstart : start ∈ V) (hsb : start.1 < g.num_rows ∧ start.2 < g.num_columns)
    (hclosed : ∀ p ∈ V, p.1 < g.num_rows → p.2 < g.num_columns →
      ∀ q ∈ neighborsOf g p, q ∈ V) :
    ∀ p : Coord, p.1 < g.num_rows → p.2 < g.num_columns → p ∈ V := by
  obtain ⟨s1, s2⟩ := start
  have hcol : ∀ i, i < g.num_rows → (i, s2) ∈ V := by
    have hup : ∀ d, s1 + d < g.num_rows → (s1 + d, s2) ∈ V := by
      intro d
      induction d with
      | zero => intro _; simpa using hstart
      | succ d ihd =>
        intro hd
        have hprev : (s1 + d, s2) ∈ V := ihd (by omega)
        have hnext : (s1 + d + 1, s2) ∈ neighborsOf g (s1 + d, s2) := by
          rw [mem_neighborsOf_std g h (s1 + d) s2 (by omega) hsb.2]
          exact Or.inr (Or.inl ⟨by omega, rfl⟩)
        exact hclosed _ hprev (by omega) hsb.2 _ hnext
    have hdown : ∀ d, d ≤ s1 → (s1 - d, s2) ∈ V := by
      intro d
      induction d with
      | zero => intro _; simpa using hstart
      | succ d ihd =>
        intro hd
        have hprev : (s1 - d, s2) ∈ V := ihd (by omega)
        have hnext : (s1 - d - 1, s2) ∈ neighborsOf g (s1 - d, s2) := by
          rw [mem_neighborsOf_std g h (s1 - d) s2 (by omega) hsb.2]
          exact Or.inl ⟨by omega, rfl⟩
        have hres := hclosed _ hprev (by omega) hsb.2 _ hnext
        rw [show s1 - (d + 1) = s1 - d - 1 from by omega]
        exact hres
    intro i hi
    rcases Nat.lt_or_ge i s1 with hlt | hge
    · have hres := hdown (s1 - i) (by omega)
      rw [show s1 - (s1 - i) = i from by omega] at hres
      exact hres
    · have hres := hup (i - s1) (by omega)
      rw [show s1 + (i - s1) = i from by omega] at hres
      exact hres
  intro p hp1 hp2
  obtain ⟨i, j⟩ := p
  have hbase : (i, s2) ∈ V := hcol i hp1
  have hright : ∀ d, s2 + d < g.num_columns → (i, s2 + d) ∈ V := by
    intro d
    induction d with
    | zero => intro _; simpa using hbase
    | succ d ihd =>
      intro hd
      have hprev : (i, s2 + d) ∈ V := ihd (by omega)
      have hnext : (i, s2 + d + 1) ∈ neighborsOf g (i, s2 + d) := by
        rw [mem_neighborsOf_std g h i (s2 + d) hp1 (by omega)]
        exact Or.inr (Or.inr (Or.inr ⟨by omega, rfl⟩))
      exact hclosed _ hprev hp1 (by omega) _ hnext
  have hleft : ∀ d, d ≤ s2 → (i, s2 - d) ∈ V := by
    intro d
    induction d with
    | zero => intro _; simpa using hbase
    | succ d ihd =>
      intro hd
      have hprev : (i, s2 - d) ∈ V := ihd (by omega)
      have hnext : (i, s2 - d - 1) ∈ neighborsOf g (i, s2 - d) := by
        rw [mem_neighborsOf_std g h i (s2 - d) hp1 (by omega)]
        exact Or.inr (Or.inr (Or.inl ⟨by omega, rfl⟩))
      have hres := hclosed _ hprev hp1 (by omega) _ hnext
      rw [show s2 - (d + 1) = s2 - d - 1 from by omega]
      exact hres
  rcases Nat.lt_or_ge j s2 with hlt | hge
  · have hres := hleft (s2 - j) (by omega)
    rw [show s2 - (s2 - j) = j from by omega] at hres
    exact hres
  · have hres := hright (j - s2) (by omega)
    rw [show s2 + (j - s2) = j from by omega] at hres
    exact hres

theorem rbLoop_spec (r : Rng) (R C : Nat) (root : Coord) :
    ∀ (fuel : Nat) (g : Grid) (stack visited : List Coord) (t : Nat)
      (ps : List (Coord × Coord)) (V : Finset Coord) (g2 : Grid),
      TreeInv g R C root ps V →
      (∀ p ∈ stack, p ∈ V) →
      (∀ p, p ∈ visited ↔ p ∈ V) →
      (∀ p ∈ V, p ∉ stack → ∀ q ∈ neighborsOf g p, q ∈ V) →
      rbLoop r fuel g stack visited t = .done g2 → TreeOut g2 R C := by
  intro fuel
  induction fuel with
  | zero =>
    intro g stack visited t ps V g2 _ _ _ _ hrun
    cases hrun
  | succ fuel ih =>
    intro g stack visited t ps V g2 hinv hstk hvis hdfs hrun
    obtain ⟨hstd, hR, hC, hgrow, hsub, hedge⟩ := hinv
    cases stack with
    | nil =>
      have hg2 : g2 = g := (RunOut.done.inj (show RunOut.done g = .done g2 from hrun)).symm
      subst hg2
      have hrootV : root ∈ V := hgrow.subset (Finset.mem_singleton_self _)
      have hrb : root.1 < g2.num_rows ∧ root.2 < g2.num_columns := by
        have hm := hsub hrootV
        rw [mem_allCoordsF] at hm
        rw [hR, hC]
        exact hm
      have hall := geo_closed_all g2 hstd V root hrootV hrb
        (fun p hp h1 h2 q hq => hdfs p hp (List.not_mem_nil _) q hq)
      have hVall : V = allCoordsF R C := by
        apply Finset.Subset.antisymm hsub
        intro p hp
        rw [mem_allCoordsF] at hp
        exact hall p (by rw [hR]; exact hp.1) (by rw [hC]; exact hp.2)
      exact ⟨hstd, hR, hC, root, ps, hVall ▸ hgrow, hedge⟩
    | cons top rest =>
      have hrun2 : (if ((neighborsOf g top).filter (fun q => q ∉ visited)) = [] then
          rbLoop r fuel g rest visited t
        else match pyChoice ((neighborsOf g top).filter (fun q => q ∉ visited)) r t with
          | .error e => .err e
          | .ok (q, t1) =>
            rbLoop r fuel (Grid.link g top q) (q :: top :: rest) (q :: visited) t1)
          = .done g2 := hrun
      split at hrun2
      · rename_i hunvis
        refine ih g rest visited t ps V g2 ⟨hstd, hR, hC, hgrow, hsub, hedge⟩
          (fun p hp => hstk p (List.mem_cons_of_mem _ hp)) hvis ?_ hrun2
        intro p hp hprest q hq
        by_cases hptop : p = top
        · subst hptop
          by_cases hqv : q ∈ visited
          · exact (hvis q).mp hqv
          · exfalso
            have hmem : q ∈ (neighborsOf g p).filter (fun q => q ∉ visited) :=
              List.mem_filter.mpr ⟨hq, by simpa using hqv⟩
            rw [hunvis] at hmem
            cases hmem
        · refine hdfs p hp ?_ q hq
          intro hc
          rcases List.mem_cons.mp hc with hc | hc
          · exact hptop hc
          · exact hprest hc
      · rename_i hunvis
        split at hrun2
        · cases hrun2
        · rename_i q t1 hch
          have hqmem := pyChoice_ok _ r t q t1 hch
          rw [List.mem_filter] at hqmem
          obtain ⟨hqnb, hqnv⟩ := hqmem
          have hqnotvis : q ∉ visited := by simpa using hqnv
          have htopV : top ∈ V := hstk top (List.mem_cons_self _ _)
          have htopb : top.1 < g.num_rows ∧ top.2 < g.num_columns := by
            have hm := hsub htopV
            rw [mem_allCoordsF] at hm
            rw [hR, hC]
            exact hm
          have hqb := neighborsOf_bounds g hstd top q htopb hqnb
          have hqV : q ∉ V := fun hc => hqnotvis ((hvis q).mpr hc)
          refine ih (g.link top q) (q :: top :: rest) (q :: visited) t1
            (ps ++ [(top, q)]) (insert q V) g2 ?_ ?_ ?_ ?_ hrun2
          · refine ⟨std_link g top q hstd, hR, hC, hgrow.snocF htopV hqV, ?_, ?_⟩
            · intro p hp
              rcases Finset.mem_insert.mp hp with rfl | hp
              · rw [mem_allCoordsF, ← hR, ← hC]
                exact hqb
              · exact hsub hp
            · rw [edgeFinset_link g hstd top q htopb hqb, hedge,
                List.map_append, List.toFinset_append]
              simp [Finset.insert_eq, Finset.union_comm]
          · intro p hp
            rcases List.mem_cons.mp hp with rfl | hp
            · exact Finset.mem_insert_self _ _
            · exact Finset.mem_insert_of_mem (hstk p hp)
          · intro p
            rw [List.mem_cons, hvis p, Finset.mem_insert]
          · intro p hp hpstack q2 hq2
            rw [neighborsOf_link] at hq2
            rcases Finset.mem_insert.mp hp with rfl | hpV
            · exact absurd (List.mem_cons_self _ _) hpstack
            · have hpnotstack : p ∉ top :: rest := fun hc =>
                hpstack (List.mem_cons_of_mem _ hc)
              exact Finset.mem_insert_of_mem (hdfs p hpV hpnotstack q2 hq2)

theorem recursive_backtracker_tree (R C : Nat) (start : Coord) (r : Rng)
    (fuel : Nat) (g2 : Grid) (hs : start.1 < R ∧ start.2 < C)
    (h : recursive_backtracker (Grid.init R C) start r fuel = .done g2) :
    TreeOut g2 R C := by
  unfold recursive_backtracker at h
  refine rbLoop_spec r R C start fuel _ [start] [start] 0 [] {start} g2 ?_ ?_ ?_ ?_ h
  · refine ⟨std_init R C, rfl, rfl, Grows.nil, ?_, ?_⟩
    · intro p hp
      rw [Finset.mem_singleton] at hp
      subst hp
      rw [mem_allCoordsF]
      exact hs
    · rw [edgeFinset_init]
      simp
  · intro p hp
    rw [List.mem_singleton] at hp
    subst hp
    exact Finset.mem_singleton_self _
  · intro p
    rw [List.mem_singleton, Finset.mem_singleton]
  · intro p hp hpstack
    rw [Finset.mem_singleton] at hp
    exact absurd (hp ▸ List.mem_singleton_self _) hpstack

theorem getD_last (l : List Coord) (h : l ≠ []) (d : Coord) :
    l.getD (l.length - 1) d = l.getLast h := by
  have hlen : 0 < l.length := List.length_pos.mpr h
  rw [List.getD_eq_getElem l d (by omega), List.getLast_eq_getElem]

theorem walkEdges_singleton (x : Coord) : walkEdges [x] = ∅ := by
  simp [walkEdges]

theorem walkEdges_snoc (l : List Coord) (x : Coord) (h : l ≠ []) :
    walkEdges (l ++ [x]) = insert s(l.getLast h, x) (walkEdges l) := by
  have hlen : 0 < l.length := List.length_pos.mpr h
  have e1 : (l ++ [x]).getD (l.length - 1) (0, 0) = l.getLast h := by
    rw [List.getD_append _ _ _ _ (by omega)]
    exact getD_last l h _
  have e2 : (l ++ [x]).getD (l.length - 1 + 1) (0, 0) = x := by
    rw [show l.length - 1 + 1 = l.length from by omega]
    rw [List.getD_append_right _ _ _ _ (le_refl _)]
    simp
  unfold walkEdges
  apply Finset.ext
  intro e
  simp only [Finset.mem_insert, Finset.mem_image, Finset.mem_range, List.length_append,
    List.length_cons, List.length_nil]
  constructor
  · rintro ⟨i, hi, rfl⟩
    by_cases hil : i + 1 < l.length
    · right
      refine ⟨i, by omega, ?_⟩
      rw [List.getD_append _ _ _ _ (by omega), List.getD_append _ _ _ _ (by omega)]
    · left
      have hieq : i = l.length - 1 := by omega
      subst hieq
      rw [e1, e2]
  · rintro (rfl | ⟨i, hi, rfl⟩)
    · refine ⟨l.length - 1, by omega, ?_⟩
      rw [e1, e2]
    · refine ⟨i, by omega, ?_⟩
      rw [List.getD_append _ _ _ _ (by omega), List.getD_append _ _ _ _ (by omega)]

theorem pathGrows (path : List Coord) :
    ∀ (x : Coord) (V : Finset Coord), x ∈ V → path.Nodup → (∀ p ∈ path, p ∉ V) →
      ∃ qs, Grows V qs (V ∪ path.toFinset) ∧
        (qs.map (fun pr => s(pr.1, pr.2))).toFinset = walkEdges (path ++ [x]) := by
  induction path using List.reverseRecOn with
  | nil =>
    intro x V hx _ _
    refine ⟨[], ?_, by rw [List.nil_append, walkEdges_singleton]; rfl⟩
    have hset : V ∪ ([] : List Coord).toFinset = V := by simp
    rw [hset]
    exact Grows.nil
  | append_singleton ys y ih =>
    intro x V hx hnd hnotin
    have hysnd : ys.Nodup := (List.nodup_append.mp hnd).1
    have hyny : y ∉ ys := by
      intro hc
      exact (List.nodup_append.mp hnd).2.2 hc (List.mem_singleton_self _)
    have hynotV : y ∉ V := hnotin y (List.mem_append.mpr (Or.inr (List.mem_singleton_self _)))
    obtain ⟨qs, hg, hedges⟩ := ih y (insert y V) (Finset.mem_insert_self _ _) hysnd
      (fun p hp hc => (Finset.mem_insert.mp hc).elim (fun heq => hyny (heq ▸ hp))
        (fun hm => hnotin p (List.mem_append.mpr (Or.inl hp)) hm))
    refine ⟨(y, x) :: qs, ?_, ?_⟩
    · have hgoal : Grows V ((y, x) :: qs) (insert y V ∪ ys.toFinset) :=
        Grows.consR hx hynotV hg
      have hseteq : insert y V ∪ ys.toFinset = V ∪ (ys ++ [y]).toFinset := by
        apply Finset.ext
        intro p
        simp [List.toFinset_append]
        tauto
      exact hseteq ▸ hgoal
    · rw [List.map_cons, List.toFinset_cons, hedges,
        walkEdges_snoc (ys ++ [y]) x (by simp), List.getLast_concat]

theorem foldl_erase_spec (path : List Coord) :
    ∀ (u : List Coord), u.Nodup →
      (path.foldl (fun acc p => acc.erase p) u).Nodup ∧
      ∀ q, q ∈ path.foldl (fun acc p => acc.erase p) u ↔ q ∈ u ∧ q ∉ path := by
  induction path with
  | nil =>
    intro u hnd
    exact ⟨hnd, fun q => by simp⟩
  | cons p pstail ih =>
    intro u hnd
    rw [List.foldl_cons]
    obtain ⟨hnd2, hchar⟩ := ih (u.erase p) (hnd.erase p)
    refine ⟨hnd2, ?_⟩
    intro q
    rw [hchar q, List.Nodup.mem_erase_iff hnd, List.mem_cons]
    constructor
    · rintro ⟨⟨hne, hq⟩, hnp⟩
      exact ⟨hq, fun hc => hc.elim hne hnp⟩
    · rintro ⟨hq, hnp⟩
      exact ⟨⟨fun hc => hnp (Or.inl hc), hq⟩, fun hc => hnp (Or.inr hc)⟩

theorem popUntil_props (path : List Coord) (x : Coord) (hx : x ∈ path) :
    popUntil path x ≠ [] ∧ (∀ p ∈ popUntil path x, p ∈ path) ∧
      (path.Nodup → (popUntil path x).Nodup) := by
  unfold popUntil
  have hsub : ((path.reverse.dropWhile (fun q => q ≠ x)).reverse).Sublist path := by
    have h1 := List.dropWhile_sublist (l := path.reverse) (fun q => (q ≠ x : Bool))
    have h2 := h1.reverse
    rw [List.reverse_reverse] at h2
    exact h2
  refine ⟨?_, fun p hp => hsub.subset hp, fun hnd => hnd.sublist hsub⟩
  intro hc
  rw [List.reverse_eq_nil_iff, List.dropWhile_eq_nil_iff] at hc
  have hcx := hc x (by rw [List.mem_reverse]; exact hx)
  simp at hcx

theorem wilsonLinkPath_spec (g : Grid) (path : List Coord) (hstd : g.Std)
    (hnd : path.Nodup) (hne : path ≠ [])
    (hbnd : ∀ p ∈ path, p.1 < g.num_rows ∧ p.2 < g.num_columns) :
    (wilsonLinkPath g path).Std ∧
    (wilsonLinkPath g path).num_rows = g.num_rows ∧
    (wilsonLinkPath g path).num_columns = g.num_columns ∧
    edgeFinsetOf (wilsonLinkPath g path) = edgeFinsetOf g ∪ walkEdges path := by
  have hlen : 0 < path.length := List.length_pos.mpr hne
  have hstep_link : ∀ acc n, n < path.length - 1 → wlpStep path acc n =
      Grid.link acc (path.getD n (0, 0)) (path.getD (n + 1) (0, 0)) := by
    intro acc n hn
    have hprf : path.getD n (0, 0) ≠ path.getLastD (0, 0) := by
      rw [List.getD_eq_getElem path _ (by omega), List.getLastD_eq_getLast?,
        List.getLast?_eq_getLast path hne, Option.getD_some, List.getLast_eq_getElem]
      intro hc
      rw [List.Nodup.getElem_inj_iff hnd] at hc
      omega
    unfold wlpStep
    rw [if_pos hprf]
  have hstep_skip : ∀ acc, wlpStep path acc (path.length - 1) = acc := by
    intro acc
    have hprf : path.getD (path.length - 1) (0, 0) = path.getLastD (0, 0) := by
      rw [List.getD_eq_getElem path _ (by omega), List.getLastD_eq_getLast?,
        List.getLast?_eq_getLast path hne, Option.getD_some, List.getLast_eq_getElem]
    unfold wlpStep
    rw [if_neg (fun hne2 => hne2 hprf)]
  have main : ∀ n, n ≤ path.length →
      (((List.range n).foldl (wlpStep path) g)).Std ∧
      ((List.range n).foldl (wlpStep path) g).num_rows = g.num_rows ∧
      ((List.range n).foldl (wlpStep path) g).num_columns = g.num_columns ∧
      edgeFinsetOf ((List.range n).foldl (wlpStep path) g) = edgeFinsetOf g ∪
        (Finset.range (min n (path.length - 1))).image
          (fun i => s(path.getD i (0, 0), path.getD (i + 1) (0, 0))) := by
    intro n
    induction n with
    | zero =>
      intro _
      exact ⟨hstd, rfl, rfl, by simp⟩
    | succ n ihn =>
      intro hn
      obtain ⟨hstd2, hr2, hc2, hedge2⟩ := ihn (by omega)
      rw [List.range_succ, List.foldl_append, List.foldl_cons, List.foldl_nil]
      rcases Nat.lt_or_ge n (path.length - 1) with hlt | hge
      · rw [hstep_link _ n hlt]
        have hmem1 : path.getD n (0, 0) ∈ path := by
          rw [List.getD_eq_getElem path _ (by omega)]
          exact path.getElem_mem _
        have hmem2 : path.getD (n + 1) (0, 0) ∈ path := by
          rw [List.getD_eq_getElem path _ (by omega)]
          exact path.getElem_mem _
        have hb1 := hbnd _ hmem1
        have hb2 := hbnd _ hmem2
        refine ⟨std_link _ _ _ hstd2, ?_, ?_, ?_⟩
        · rw [num_rows_link]
          exact hr2
        · rw [num_columns_link]
          exact hc2
        · rw [edgeFinset_link _ hstd2 _ _ (by rw [hr2, hc2]; exact hb1)
            (by rw [hr2, hc2]; exact hb2), hedge2]
          rw [show min (n + 1) (path.length - 1) = n + 1 from by omega,
            show min n (path.length - 1) = n from by omega]
          rw [Finset.range_succ, Finset.image_insert, Finset.union_insert]
      · have hneq : n = path.length - 1 := by omega
        subst hneq
        rw [hstep_skip]
        refine ⟨hstd2, hr2, hc2, ?_⟩
        rw [hedge2]
        rw [show min (path.length - 1 + 1) (path.length - 1) = path.length - 1 from by omega,
          show min (path.length - 1) (path.length - 1) = path.length - 1 from by omega]
  obtain ⟨h1, h2, h3, h4⟩ := main path.length (le_refl _)
  rw [show wilsonLinkPath g path = (List.range path.length).foldl (wlpStep path) g from rfl]
  refine ⟨h1, h2, h3, ?_⟩
  rw [h4, show min path.length (path.length - 1) = path.length - 1 from by omega]
  rfl

theorem wilsonLoop_spec (r : Rng) (R C : Nat) (root : Coord) :
    ∀ (fuel : Nat) (g : Grid) (path unused : List Coord) (t : Nat)
      (ps : List (Coord × Coord)) (V : Finset Coord) (g2 : Grid),
      TreeInv g R C root ps V →
      unused.Nodup → (∀ p, p ∈ unused ↔ p ∈ allCoordsF R C ∧ p ∉ V) →
      path ≠ [] → path.Nodup → (∀ p ∈ path, p ∈ unused) →
      wilsonLoop r fuel g path unused t = .done g2 → TreeOut g2 R C := by
  intro fuel
  induction fuel with
  | zero =>
    intro g path unused t ps V g2 _ _ _ _ _ _ hrun
    cases hrun
  | succ fuel ih =>
    intro g path unused t ps V g2 hinv hund hchar hpne hpnd hpsub hrun
    obtain ⟨hstd, hR, hC, hgrow, hsub, hedge⟩ := hinv
    simp only [wilsonLoop] at hrun
    split at hrun
    · cases hrun
    · rename_i next t1 hch
      have hnextmem := pyChoice_ok _ r t next t1 hch
      have hlastmem : path.getLastD (0, 0) ∈ path := by
        rw [List.getLastD_eq_getLast?, List.getLast?_eq_getLast path hpne, Option.getD_some]
        exact List.getLast_mem _
      have hlastb : (path.getLastD (0, 0)).1 < g.num_rows ∧
          (path.getLastD (0, 0)).2 < g.num_columns := by
        have hm := ((hchar _).mp (hpsub _ hlastmem)).1
        rw [mem_allCoordsF] at hm
        rw [hR, hC]
        exact hm
      have hnextb := neighborsOf_bounds g hstd _ next hlastb hnextmem
      split at hrun
      · rename_i hnu
        have hrun2 : (if (path.foldl (fun acc p => acc.erase p) unused) = [] then
            RunOut.done (Grid.link (wilsonLinkPath g path) (path.getLastD (0, 0)) next)
          else match pyChoice (path.foldl (fun acc p => acc.erase p) unused) r t1 with
            | .error e => (RunOut.err e : RunOut Grid)
            | .ok (f1, t2) => wilsonLoop r fuel
                (Grid.link (wilsonLinkPath g path) (path.getLastD (0, 0)) next) [f1]
                (path.foldl (fun acc p => acc.erase p) unused) t2) = .done g2 := hrun
        have hnextV : next ∈ V := by
          by_contra hc
          refine hnu ((hchar next).mpr ⟨?_, hc⟩)
          rw [mem_allCoordsF, ← hR, ← hC]
          exact hnextb
        have hpathnotV : ∀ p ∈ path, p ∉ V := fun p hp => ((hchar p).mp (hpsub p hp)).2
        have hpathb : ∀ p ∈ path, p.1 < g.num_rows ∧ p.2 < g.num_columns := by
          intro p hp
          have hm := ((hchar p).mp (hpsub p hp)).1
          rw [mem_allCoordsF] at hm
          rw [hR, hC]
          exact hm
        obtain ⟨hwstd, hwr, hwc, hwedge⟩ := wilsonLinkPath_spec g path hstd hpnd hpne hpathb
        have hlasteq : path.getLastD (0, 0) = path.getLast hpne := by
          rw [List.getLastD_eq_getLast?, List.getLast?_eq_getLast path hpne, Option.getD_some]
        obtain ⟨qs, hqg, hqedges⟩ := pathGrows path next V hnextV hpnd hpathnotV
        have hgrow2 : Grows {root} (ps ++ qs) (V ∪ path.toFinset) := hgrow.append hqg
        have hedge3 : edgeFinsetOf (Grid.link (wilsonLinkPath g path)
            (path.getLastD (0, 0)) next) =
            ((ps ++ qs).map (fun pr => s(pr.1, pr.2))).toFinset := by
          rw [edgeFinset_link _ hwstd _ _ (by rw [hwr, hwc]; exact hlastb)
            (by rw [hwr, hwc]; exact hnextb), hwedge, hedge,
            List.map_append, List.toFinset_append, hqedges,
            walkEdges_snoc path next hpne, Finset.union_insert, hlasteq]
        have hVsub2 : V ∪ path.toFinset ⊆ allCoordsF R C := by
          intro p hp
          rcases Finset.mem_union.mp hp with hp | hp
          · exact hsub hp
          · rw [List.mem_toFinset] at hp
            exact ((hchar p).mp (hpsub p hp)).1
        obtain ⟨hu1nd, hu1char⟩ := foldl_erase_spec path unused hund
        split at hrun2
        · rename_i hu1nil
          have hg2 : g2 = Grid.link (wilsonLinkPath g path) (path.getLastD (0, 0)) next :=
            (RunOut.done.inj hrun2).symm
          subst hg2
          have hVall : V ∪ path.toFinset = allCoordsF R C := by
            apply Finset.Subset.antisymm hVsub2
            intro p hp
            by_contra hc
            rw [Finset.mem_union, List.mem_toFinset] at hc
            push_neg at hc
            have hpu : p ∈ unused := (hchar p).mpr ⟨hp, hc.1⟩
            have hmem := (hu1char p).mpr ⟨hpu, hc.2⟩
            rw [hu1nil] at hmem
            cases hmem
          refine ⟨std_link _ _ _ hwstd, ?_, ?_, root, ps ++ qs, hVall ▸ hgrow2, hedge3⟩
          · rw [num_rows_link, hwr]
            exact hR
          · rw [num_columns_link, hwc]
            exact hC
        · rename_i hu1nil
          split at hrun2
          · cases hrun2
          · rename_i f1 t2 hchf
            have hf1mem := pyChoice_ok _ r t1 f1 t2 hchf
            refine ih (Grid.link (wilsonLinkPath g path) (path.getLastD (0, 0)) next)
              [f1] (path.foldl (fun acc p => acc.erase p) unused) t2 (ps ++ qs)
              (V ∪ path.toFinset) g2 ?_ hu1nd ?_ (by simp) (by simp) ?_ hrun2
            · refine ⟨std_link _ _ _ hwstd, ?_, ?_, hgrow2, hVsub2, hedge3⟩
              · rw [num_rows_link, hwr]
                exact hR
              · rw [num_columns_link, hwc]
                exact hC
            · intro p
              rw [hu1char p, hchar p, Finset.mem_union, List.mem_toFinset]
              constructor
              · rintro ⟨⟨hall, hnv⟩, hnp⟩
                exact ⟨hall, fun hc => hc.elim hnv hnp⟩
              · rintro ⟨hall, hn⟩
                exact ⟨⟨hall, fun hc => hn (Or.inl hc)⟩, fun hc => hn (Or.inr hc)⟩
            · intro p hp
              rw [List.mem_singleton] at hp
              subst hp
              exact hf1mem
      · rename_i hnu
        rw [not_not] at hnu
        split at hrun
        · rename_i hnp
          obtain ⟨hpop_ne, hpop_sub, hpop_nd⟩ := popUntil_props path next hnp
          exact ih g (popUntil path next) unused t1 ps V g2
            ⟨hstd, hR, hC, hgrow, hsub, hedge⟩ hund hchar hpop_ne (hpop_nd hpnd)
            (fun p hp => hpsub p (hpop_sub p hp)) hrun
        · rename_i hnp
          refine ih g (path ++ [next]) unused t1 ps V g2
            ⟨hstd, hR, hC, hgrow, hsub, hedge⟩ hund hchar (by simp) ?_ ?_ hrun
          · rw [List.nodup_append]
            exact ⟨hpnd, List.nodup_singleton _,
              fun p hp hq => hnp ((List.mem_singleton.mp hq) ▸ hp)⟩
          · intro p hp
            rcases List.mem_append.mp hp with hp | hp
            · exact hpsub p hp
            · rw [List.mem_singleton] at hp
              subst hp
              exact hnu

theorem wilson_tree (R C : Nat) (r : Rng) (fuel : Nat) (g2 : Grid)
    (h : wilson (Grid.init R C) r fuel = .done g2) : TreeOut g2 R C := by
  unfold wilson at h
  cases hrc : Grid.random_cell (Grid.init R C) r 0 with
  | error e => rw [hrc] at h; cases h
  | ok ct =>
    obtain ⟨chosen, t⟩ := ct
    rw [hrc] at h
    have h2 : (match pyChoice ((Grid.init R C).each_cell.erase
          (chosen.row, chosen.column)) r t with
        | .error e => (RunOut.err e : RunOut Grid)
        | .ok (f1, t1) => wilsonLoop r fuel (Grid.init R C) [f1]
            ((Grid.init R C).each_cell.erase (chosen.row, chosen.column)) t1)
        = .done g2 := h
    cases hcf : pyChoice ((Grid.init R C).each_cell.erase (chosen.row, chosen.column)) r t with
    | error e =>
      rw [hcf] at h2
      have h3 : (RunOut.err e : RunOut Grid) = .done g2 := h2
      cases h3
    | ok ft =>
      obtain ⟨f1, t1⟩ := ft
      rw [hcf] at h2
      have h3 : wilsonLoop r fuel (Grid.init R C) [f1]
          ((Grid.init R C).each_cell.erase (chosen.row, chosen.column)) t1
          = .done g2 := h2
      obtain ⟨hr1, hc1⟩ := random_cell_coord _ r 0 chosen t (std_init R C) hrc
      have hf1 := pyChoice_ok _ r t f1 t1 hcf
      refine wilsonLoop_spec r R C (chosen.row, chosen.column) fuel _ [f1] _ t1
        [] {(chosen.row, chosen.column)} g2 ?_ ((each_cell_nodup _).erase _) ?_
        (by simp) (by simp) ?_ h3
      · refine ⟨std_init R C, rfl, rfl, Grows.nil, ?_, by rw [edgeFinset_init]; simp⟩
        intro p hp
        rw [Finset.mem_singleton] at hp
        subst hp
        rw [mem_allCoordsF]
        exact ⟨hr1, hc1⟩
      · intro p
        rw [List.Nodup.mem_erase_iff (each_cell_nodup _), mem_each_cell,
          mem_allCoordsF, Finset.mem_singleton]
        constructor
        · rintro ⟨hne, hb⟩
          exact ⟨hb, hne⟩
        · rintro ⟨hb, hne⟩
          exact ⟨hne, hb⟩
      · intro p hp
        rw [List.mem_singleton] at hp
        subst hp
        exact hf1

theorem linkToField_east (g : Grid) (h : g.Std) (i j : Nat)
    (hi : i < g.num_rows) (hj : j + 1 < g.num_columns) :
    linkToField g (i, j) Cell.east = g.link (i, j) (i, j + 1) := by
  obtain ⟨cell, hc, -, -, -, -, -, he⟩ := std_cell_fields g h i j hi (by omega)
  unfold linkToField
  rw [hc]
  show (match cell.east with | some q => g.link (i, j) q | none => g) = _
  rw [he, if_pos hj]

theorem linkToField_north (g : Grid) (h : g.Std) (i j : Nat)
    (hi : i < g.num_rows) (h1 : 1 ≤ i) (hj : j < g.num_columns) :
    linkToField g (i, j) Cell.north = g.link (i, j) (i - 1, j) := by
  obtain ⟨cell, hc, -, -, hn, -, -, -⟩ := std_cell_fields g h i j hi hj
  unfold linkToField
  rw [hc]
  show (match cell.north with | some q => g.link (i, j) q | none => g) = _
  rw [hn, if_pos h1]

theorem toFinset_map_range {β : Type} [DecidableEq β] (n : Nat) (f : Nat → β) :
    ((List.range n).map f).toFinset = (Finset.range n).image f := by
  apply Finset.ext
  intro b
  simp [List.mem_toFinset, List.mem_map, List.mem_range, Finset.mem_image, Finset.mem_range]

theorem image_range_flip {β : Type} [DecidableEq β] (n : Nat) (f : Nat → β) :
    (Finset.range n).image (fun d => f (n - 1 - d)) = (Finset.range n).image f := by
  apply Finset.ext
  intro b
  simp only [Finset.mem_image, Finset.mem_range]
  constructor
  · rintro ⟨d, hd, rfl⟩
    exact ⟨n - 1 - d, by omega, rfl⟩
  · rintro ⟨j, hj, rfl⟩
    exact ⟨n - 1 - j, by omega, by rw [show n - 1 - (n - 1 - j) = j from by omega]⟩

theorem eastChainGrows (i s : Nat) (T : Finset Coord) (hs : (i, s) ∈ T)
    (hfresh : ∀ c, s < c → (i, c) ∉ T) :
    ∀ n, Grows T ((List.range n).map (fun d => ((i, s + d), (i, s + d + 1))))
      (T ∪ (Finset.range n).image (fun d => (i, s + d + 1))) := by
  intro n
  induction n with
  | zero =>
    rw [show T ∪ (Finset.range 0).image (fun d => (i, s + d + 1)) = T from by simp]
    exact Grows.nil
  | succ n ihn =>
    rw [List.range_succ, List.map_append, List.map_cons, List.map_nil]
    have hlastmem : (i, s + n) ∈ T ∪ (Finset.range n).image (fun d => (i, s + d + 1)) := by
      cases n with
      | zero => exact Finset.mem_union_left _ hs
      | succ m =>
        refine Finset.mem_union_right _ ?_
        rw [Finset.mem_image]
        exact ⟨m, by rw [Finset.mem_range]; omega, by rw [show s + m + 1 = s + (m + 1) from by omega]⟩
    have hfreshn : (i, s + n + 1) ∉ T ∪ (Finset.range n).image (fun d => (i, s + d + 1)) := by
      rw [Finset.mem_union, Finset.mem_image]
      rintro (hc | ⟨d, hd, hc⟩)
      · exact hfresh (s + n + 1) (by omega) hc
      · rw [Finset.mem_range] at hd
        obtain ⟨-, h2⟩ := Prod.mk.injEq .. ▸ hc
        omega
    have hsnoc := Grows.snocF ihn hlastmem hfreshn
    rw [show insert (i, s + n + 1) (T ∪ (Finset.range n).image (fun d => (i, s + d + 1)))
        = T ∪ (Finset.range (n + 1)).image (fun d => (i, s + d + 1)) from by
      rw [Finset.range_succ, Finset.image_insert, Finset.union_insert]] at hsnoc
    exact hsnoc

theorem southChainGrows (c0 : Nat) (T : Finset Coord) (h0 : ((0 : Nat), c0) ∈ T)
    (hfresh : ∀ k, 1 ≤ k → ((k : Nat), c0) ∉ T) :
    ∀ n, Grows T ((List.range n).map (fun k => ((k + 1, c0), (k, c0))))
      (T ∪ (Finset.range n).image (fun k => ((k + 1 : Nat), c0))) := by
  intro n
  induction n with
  | zero =>
    rw [show T ∪ (Finset.range 0).image (fun k => ((k + 1 : Nat), c0)) = T from by simp]
    exact Grows.nil
  | succ n ihn =>
    rw [List.range_succ, List.map_append, List.map_cons, List.map_nil]
    have hlastmem : ((n : Nat), c0) ∈ T ∪ (Finset.range n).image (fun k => ((k + 1 : Nat), c0)) := by
      cases n with
      | zero => exact Finset.mem_union_left _ h0
      | succ m =>
        refine Finset.mem_union_right _ ?_
        rw [Finset.mem_image]
        exact ⟨m, by rw [Finset.mem_range]; omega, rfl⟩
    have hfreshn : ((n + 1 : Nat), c0) ∉ T ∪ (Finset.range n).image (fun k => ((k + 1 : Nat), c0)) := by
      rw [Finset.mem_union, Finset.mem_image]
      rintro (hc | ⟨d, hd, hc⟩)
      · exact hfresh (n + 1) (by omega) hc
      · rw [Finset.mem_range] at hd
        obtain ⟨h1, -⟩ := Prod.mk.injEq .. ▸ hc
        omega
    have hsnoc := Grows.snocR ihn hlastmem hfreshn
    rw [show insert ((n + 1 : Nat), c0) (T ∪ (Finset.range n).image (fun k => ((k + 1 : Nat), c0)))
        = T ∪ (Finset.range (n + 1)).image (fun k => ((k + 1 : Nat), c0)) from by
      rw [Finset.range_succ, Finset.image_insert, Finset.union_insert]] at hsnoc
    exact hsnoc

theorem topRow_spec (C : Nat) (g : Grid) (hstd : g.Std) (hR : 0 < g.num_rows)
    (hCg : g.num_columns = C) :
    ∀ n, n ≤ C →
      ((List.range n).foldl (fun acc j =>
        if j ≠ C - 1 then linkToField acc (0, j) Cell.east else acc) g).Std ∧
      ((List.range n).foldl (fun acc j =>
        if j ≠ C - 1 then linkToField acc (0, j) Cell.east else acc) g).num_rows = g.num_rows ∧
      ((List.range n).foldl (fun acc j =>
        if j ≠ C - 1 then linkToField acc (0, j) Cell.east else acc) g).num_columns = C ∧
      edgeFinsetOf ((List.range n).foldl (fun acc j =>
        if j ≠ C - 1 then linkToField acc (0, j) Cell.east else acc) g) =
        edgeFinsetOf g ∪ (Finset.range (min n (C - 1))).image
          (fun j => s(((0 : Nat), j), ((0 : Nat), j + 1))) := by
  intro n
  induction n with
  | zero => exact fun _ => ⟨hstd, rfl, hCg, by simp⟩
  | succ n ihn =>
    intro hn
    obtain ⟨hstd2, hr2, hc2, hedge2⟩ := ihn (by omega)
    rw [List.range_succ, List.foldl_append, List.foldl_cons, List.foldl_nil]
    by_cases hcond : n ≠ C - 1
    · rw [if_pos hcond]
      have hn2 : n < C - 1 := by omega
      rw [linkToField_east _ hstd2 0 n (by rw [hr2]; exact hR) (by rw [hc2]; omega)]
      refine ⟨std_link _ _ _ hstd2, ?_, ?_, ?_⟩
      · rw [num_rows_link]
        exact hr2
      · rw [num_columns_link]
        exact hc2
      · rw [edgeFinset_link _ hstd2 (0, n) (0, n + 1)
          ⟨by rw [hr2]; exact hR, by rw [hc2]; omega⟩
          ⟨by rw [hr2]; exact hR, by rw [hc2]; omega⟩, hedge2]
        rw [show min (n + 1) (C - 1) = n + 1 from by omega,
          show min n (C - 1) = n from by omega,
          Finset.range_succ, Finset.image_insert, Finset.union_insert]
    · rw [if_neg hcond]
      refine ⟨hstd2, hr2, hc2, ?_⟩
      rw [hedge2, show min (n + 1) (C - 1) = min n (C - 1) from by omega]

theorem eastCol_spec (R C : Nat) (g : Grid) (hstd : g.Std) (hRg : g.num_rows = R)
    (hCg : g.num_columns = C) (hC1 : 1 ≤ C) :
    ∀ n, n ≤ R - 1 →
      ((List.range n).foldl (fun acc k => linkToField acc (k + 1, C - 1) Cell.north) g).Std ∧
      ((List.range n).foldl (fun acc k =>
        linkToField acc (k + 1, C - 1) Cell.north) g).num_rows = R ∧
      ((List.range n).foldl (fun acc k =>
        linkToField acc (k + 1, C - 1) Cell.north) g).num_columns = C ∧
      edgeFinsetOf ((List.range n).foldl (fun acc k =>
        linkToField acc (k + 1, C - 1) Cell.north) g) =
        edgeFinsetOf g ∪ (Finset.range n).image
          (fun k => s(((k + 1 : Nat), C - 1), ((k : Nat), C - 1))) := by
  intro n
  induction n with
  | zero => exact fun _ => ⟨hstd, hRg, hCg, by simp⟩
  | succ n ihn =>
    intro hn
    obtain ⟨hstd2, hr2, hc2, hedge2⟩ := ihn (by omega)
    rw [List.range_succ, List.foldl_append, List.foldl_cons, List.foldl_nil]
    rw [linkToField_north _ hstd2 (n + 1) (C - 1) (by rw [hr2]; omega) (by omega)
      (by rw [hc2]; omega)]
    refine ⟨std_link _ _ _ hstd2, ?_, ?_, ?_⟩
    · rw [num_rows_link]
      exact hr2
    · rw [num_columns_link]
      exact hc2
    · rw [edgeFinset_link _ hstd2 (n + 1, C - 1) (n + 1 - 1, C - 1)
        ⟨by rw [hr2]; omega, by rw [hc2]; omega⟩
        ⟨by rw [hr2]; omega, by rw [hc2]; omega⟩, hedge2]
      rw [Finset.range_succ, Finset.image_insert, Finset.union_insert]
      simp only [Nat.add_sub_cancel]

theorem btStep_eq (r : Rng) (k : Nat) (gn : Grid) (tn : Nat) (n : Nat)
    (hstd : gn.Std) (hk : k + 1 < gn.num_rows) (hn : n + 1 < gn.num_columns) :
    btStep r k (gn, tn) n =
      (Grid.link gn (k + 1, n) (if r tn % 2 = 0 then ((k : Nat), n) else (k + 1, n + 1)),
        tn + 1) := by
  obtain ⟨c, hcc, -, -, hcn, -, -, hce⟩ := std_cell_fields gn hstd (k + 1) n hk (by omega)
  unfold btStep
  rw [hcc]
  show ((match (if r tn % 2 = 0 then c.north else c.east) with
    | some q => Grid.link gn (k + 1, n) q
    | none => gn), tn + 1) = _
  by_cases hcoin : r tn % 2 = 0
  · rw [if_pos hcoin, hcn, if_pos (by omega), if_pos hcoin]
    show (gn.link (k + 1, n) (k + 1 - 1, n), tn + 1) = (gn.link (k + 1, n) (k, n), tn + 1)
    simp only [Nat.add_sub_cancel]
  · rw [if_neg hcoin, hce, if_pos (by omega), if_neg hcoin]

theorem btRow_spec (R C : Nat) (r : Rng) (k : Nat) (g : Grid) (t0 : Nat)
    (hstd : g.Std) (hRg : g.num_rows = R) (hCg : g.num_columns = C)
    (hk : k + 1 < R) (ht0 : t0 = k * (C - 1)) :
    ∀ n, n ≤ C - 1 →
      ((List.range n).foldl (btStep r k) (g, t0)).2 = t0 + n ∧
      ((List.range n).foldl (btStep r k) (g, t0)).1.Std ∧
      ((List.range n).foldl (btStep r k) (g, t0)).1.num_rows = R ∧
      ((List.range n).foldl (btStep r k) (g, t0)).1.num_columns = C ∧
      edgeFinsetOf ((List.range n).foldl (btStep r k) (g, t0)).1 = edgeFinsetOf g ∪
        (Finset.range n).image (fun j => s((btPair r C k j).1, (btPair r C k j).2)) := by
  intro n
  induction n with
  | zero => exact fun _ => ⟨rfl, hstd, hRg, hCg, by simp⟩
  | succ n ihn =>
    intro hn
    obtain ⟨ht2, hstd2, hr2, hc2, hedge2⟩ := ihn (by omega)
    rw [List.range_succ, List.foldl_append, List.foldl_cons, List.foldl_nil]
    rcases hstn : (List.range n).foldl (btStep r k) (g, t0) with ⟨gn, tn⟩
    rw [hstn] at ht2 hstd2 hr2 hc2 hedge2
    have htn : tn = t0 + n := ht2
    have hstd3 : gn.Std := hstd2
    have hr3 : gn.num_rows = R := hr2
    have hc3 : gn.num_columns = C := hc2
    have hedge3 : edgeFinsetOf gn = edgeFinsetOf g ∪
        (Finset.range n).image (fun j => s((btPair r C k j).1, (btPair r C k j).2)) := hedge2
    rw [btStep_eq r k gn tn n hstd3 (by omega) (by omega)]
    have hidx : k * (C - 1) + n = tn := by omega
    by_cases hcoin : r tn % 2 = 0
    · rw [if_pos hcoin]
      have hbp : btPair r C k n = ((k + 1, n), ((k : Nat), n)) := by
        unfold btPair
        rw [if_pos (by rw [hidx]; exact hcoin)]
      refine ⟨?_, std_link _ _ _ hstd3, ?_, ?_, ?_⟩
      · show tn + 1 = t0 + (n + 1)
        omega
      · show (Grid.link gn (k + 1, n) ((k : Nat), n)).num_rows = R
        rw [num_rows_link]
        exact hr3
      · show (Grid.link gn (k + 1, n) ((k : Nat), n)).num_columns = C
        rw [num_columns_link]
        exact hc3
      · show edgeFinsetOf (Grid.link gn (k + 1, n) ((k : Nat), n)) = _
        rw [edgeFinset_link gn hstd3 (k + 1, n) ((k : Nat), n)
          ⟨by rw [hr3]; omega, by rw [hc3]; omega⟩
          ⟨by rw [hr3]; omega, by rw [hc3]; omega⟩, hedge3]
        rw [Finset.range_succ, Finset.image_insert, Finset.union_insert, hbp]
    · rw [if_neg hcoin]
      have hbp : btPair r C k n = ((k + 1, n), (k + 1, n + 1)) := by
        unfold btPair
        rw [if_neg (by rw [hidx]; exact hcoin)]
      refine ⟨?_, std_link _ _ _ hstd3, ?_, ?_, ?_⟩
      · show tn + 1 = t0 + (n + 1)
        omega
      · show (Grid.link gn (k + 1, n) (k + 1, n + 1)).num_rows = R
        rw [num_rows_link]
        exact hr3
      · show (Grid.link gn (k + 1, n) (k + 1, n + 1)).num_columns = C
        rw [num_columns_link]
        exact hc3
      · show edgeFinsetOf (Grid.link gn (k + 1, n) (k + 1, n + 1)) = _
        rw [edgeFinset_link gn hstd3 (k + 1, n) (k + 1, n + 1)
          ⟨by rw [hr3]; omega, by rw [hc3]; omega⟩
          ⟨by rw [hr3]; omega, by rw [hc3]; omega⟩, hedge3]
        rw [Finset.range_succ, Finset.image_insert, Finset.union_insert, hbp]

theorem btRows_spec (R C : Nat) (r : Rng) (g : Grid) (hstd : g.Std) (hRg : g.num_rows = R)
    (hCg : g.num_columns = C) :
    ∀ m, m ≤ R - 1 →
      ((List.range m).foldl (fun st k => (List.range (C - 1)).foldl (btStep r k) st)
        (g, 0)).2 = m * (C - 1) ∧
      ((List.range m).foldl (fun st k => (List.range (C - 1)).foldl (btStep r k) st)
        (g, 0)).1.Std ∧
      ((List.range m).foldl (fun st k => (List.range (C - 1)).foldl (btStep r k) st)
        (g, 0)).1.num_rows = R ∧
      ((List.range m).foldl (fun st k => (List.range (C - 1)).foldl (btStep r k) st)
        (g, 0)).1.num_columns = C ∧
      edgeFinsetOf ((List.range m).foldl (fun st k =>
        (List.range (C - 1)).foldl (btStep r k) st) (g, 0)).1 = edgeFinsetOf g ∪
        (Finset.range m).biUnion (fun k => (Finset.range (C - 1)).image
          (fun j => s((btPair r C k j).1, (btPair r C k j).2))) := by
  intro m
  induction m with
  | zero => exact fun _ => ⟨by simp, hstd, hRg, hCg, by simp⟩
  | succ m ihm =>
    intro hm
    obtain ⟨ht2, hstd2, hr2, hc2, hedge2⟩ := ihm (by omega)
    rw [List.range_succ, List.foldl_append, List.foldl_cons, List.foldl_nil]
    rcases hstm : (List.range m).foldl (fun st k =>
      (List.range (C - 1)).foldl (btStep r k) st) (g, 0) with ⟨gm, tm⟩
    rw [hstm] at ht2 hstd2 hr2 hc2 hedge2
    have htm : tm = m * (C - 1) := ht2
    have hstd3 : gm.Std := hstd2
    have hr3 : gm.num_rows = R := hr2
    have hc3 : gm.num_columns = C := hc2
    have hedge3 : edgeFinsetOf gm = edgeFinsetOf g ∪
        (Finset.range m).biUnion (fun k => (Finset.range (C - 1)).image
          (fun j => s((btPair r C k j).1, (btPair r C k j).2))) := hedge2
    obtain ⟨it2, istd, ir, ic, iedge⟩ :=
      btRow_spec R C r m gm tm hstd3 hr3 hc3 (by omega) htm (C - 1) (le_refl _)
    refine ⟨?_, istd, ir, ic, ?_⟩
    · rw [it2, htm]
      ring
    · rw [iedge, hedge3]
      rw [Finset.range_succ, Finset.biUnion_insert]
      rw [Finset.union_assoc]
      congr 1
      rw [Finset.union_comm]

theorem btRowGrows (r : Rng) (C k : Nat) (T : Finset Coord)
    (hnorth : ∀ j, j < C - 1 → ((k : Nat), j) ∈ T)
    (heast : (k + 1, C - 1) ∈ T)
    (hfresh : ∀ j, j < C - 1 → (k + 1, j) ∉ T) :
    ∀ n, n ≤ C - 1 →
      Grows T ((List.range n).map (fun d => btPair r C k (C - 2 - d)))
        (T ∪ (Finset.range n).image (fun d => ((k + 1 : Nat), C - 2 - d))) := by
  intro n
  induction n with
  | zero =>
    intro _
    rw [show T ∪ (Finset.range 0).image (fun d => ((k + 1 : Nat), C - 2 - d)) = T from by simp]
    exact Grows.nil
  | succ n ihn =>
    intro hn
    rw [List.range_succ, List.map_append, List.map_cons, List.map_nil]
    have hrec := ihn (by omega)
    have hafresh : ((k + 1 : Nat), C - 2 - n) ∉
        T ∪ (Finset.range n).image (fun d => ((k + 1 : Nat), C - 2 - d)) := by
      rw [Finset.mem_union, Finset.mem_image]
      rintro (hc | ⟨d, hd, hc⟩)
      · exact hfresh (C - 2 - n) (by omega) hc
      · rw [Finset.mem_range] at hd
        simp only [Prod.mk.injEq, true_and, and_true] at hc
        omega
    have hsetstep : insert ((k + 1 : Nat), C - 2 - n)
        (T ∪ (Finset.range n).image (fun d => ((k + 1 : Nat), C - 2 - d)))
        = T ∪ (Finset.range (n + 1)).image (fun d => ((k + 1 : Nat), C - 2 - d)) := by
      rw [Finset.range_succ, Finset.image_insert, Finset.union_insert]
    by_cases hcoin : r (k * (C - 1) + (C - 2 - n)) % 2 = 0
    · have hbp : btPair r C k (C - 2 - n) = ((k + 1, C - 2 - n), ((k : Nat), C - 2 - n)) := by
        unfold btPair
        rw [if_pos hcoin]
      rw [hbp]
      have hb : ((k : Nat), C - 2 - n) ∈
          T ∪ (Finset.range n).image (fun d => ((k + 1 : Nat), C - 2 - d)) :=
        Finset.mem_union_left _ (hnorth _ (by omega))
      have hsnoc := Grows.snocR hrec hb hafresh
      rw [hsetstep] at hsnoc
      exact hsnoc
    · have hbp : btPair r C k (C - 2 - n) = ((k + 1, C - 2 - n), (k + 1, C - 2 - n + 1)) := by
        unfold btPair
        rw [if_neg hcoin]
      rw [hbp]
      have hb : ((k + 1 : Nat), C - 2 - n + 1) ∈
          T ∪ (Finset.range n).image (fun d => ((k + 1 : Nat), C - 2 - d)) := by
        cases n with
        | zero =>
          refine Finset.mem_union_left _ ?_
          rw [show C - 2 - 0 + 1 = C - 1 from by omega]
          exact heast
        | succ m =>
          refine Finset.mem_union_right _ ?_
          rw [Finset.mem_image]
          refine ⟨m, by rw [Finset.mem_range]; omega, ?_⟩
          simp only [Prod.mk.injEq, true_and, and_true]
          omega
      have hsnoc := Grows.snocR hrec hb hafresh
      rw [hsetstep] at hsnoc
      exact hsnoc

theorem row_list_toFinset (r : Rng) (C m : Nat) :
    (((List.range (C - 1)).map (fun d => btPair r C m (C - 2 - d))).map
      (fun pr => s(pr.1, pr.2))).toFinset =
    (Finset.range (C - 1)).image (fun j => s((btPair r C m j).1, (btPair r C m j).2)) := by
  apply Finset.ext
  intro e
  rw [List.mem_toFinset, Finset.mem_image]
  simp only [List.mem_map, List.mem_range]
  constructor
  · rintro ⟨pr, ⟨d, hd, rfl⟩, rfl⟩
    exact ⟨C - 2 - d, by rw [Finset.mem_range]; omega, rfl⟩
  · rintro ⟨j, hj, rfl⟩
    rw [Finset.mem_range] at hj
    refine ⟨btPair r C m (C - 2 - (C - 2 - j)), ⟨C - 2 - j, by omega, rfl⟩, ?_⟩
    rw [show C - 2 - (C - 2 - j) = j from by omega]

theorem topRow_list_toFinset (C : Nat) :
    (((List.range (C - 1)).map (fun d => (((0 : Nat), 0 + d), ((0 : Nat), 0 + d + 1)))).map
      (fun pr => s(pr.1, pr.2))).toFinset =
    (Finset.range (C - 1)).image (fun j => s(((0 : Nat), j), ((0 : Nat), j + 1))) := by
  apply Finset.ext
  intro e
  rw [List.mem_toFinset, Finset.mem_image]
  simp only [List.mem_map, List.mem_range]
  constructor
  · rintro ⟨pr, ⟨d, hd, rfl⟩, rfl⟩
    refine ⟨d, by rw [Finset.mem_range]; omega, ?_⟩
    simp
  · rintro ⟨j, hj, rfl⟩
    rw [Finset.mem_range] at hj
    refine ⟨(((0 : Nat), 0 + j), ((0 : Nat), 0 + j + 1)), ⟨j, hj, rfl⟩, ?_⟩
    simp

theorem eastCol_list_toFinset (R C : Nat) :
    (((List.range (R - 1)).map (fun k => (((k + 1 : Nat), C - 1), ((k : Nat), C - 1)))).map
      (fun pr => s(pr.1, pr.2))).toFinset =
    (Finset.range (R - 1)).image (fun k => s(((k + 1 : Nat), C - 1), ((k : Nat), C - 1))) := by
  apply Finset.ext
  intro e
  rw [List.mem_toFinset, Finset.mem_image]
  simp only [List.mem_map, List.mem_range]
  constructor
  · rintro ⟨pr, ⟨k, hk, rfl⟩, rfl⟩
    exact ⟨k, by rw [Finset.mem_range]; omega, rfl⟩
  · rintro ⟨k, hk, rfl⟩
    rw [Finset.mem_range] at hk
    exact ⟨(((k + 1 : Nat), C - 1), ((k : Nat), C - 1)), ⟨k, hk, rfl⟩, rfl⟩

theorem btGrows (r : Rng) (R C : Nat) (hR : 1 ≤ R) (hC : 1 ≤ C) :
    ∃ ps : List (Coord × Coord),
      Grows {((0 : Nat), (0 : Nat))} ps (allCoordsF R C) ∧
      (ps.map (fun pr => s(pr.1, pr.2))).toFinset =
        (Finset.range (C - 1)).image (fun j => s(((0 : Nat), j), ((0 : Nat), j + 1))) ∪
        (Finset.range (R - 1)).image (fun k => s(((k + 1 : Nat), C - 1), ((k : Nat), C - 1))) ∪
        (Finset.range (R - 1)).biUnion (fun k => (Finset.range (C - 1)).image
          (fun j => s((btPair r C k j).1, (btPair r C k j).2))) := by
  have hfreshA : ∀ c, 0 < c → ((0 : Nat), c) ∉ ({((0 : Nat), (0 : Nat))} : Finset Coord) := by
    intro c hc hmem
    rw [Finset.mem_singleton] at hmem
    simp only [Prod.mk.injEq, true_and, and_true] at hmem
    omega
  have hgrowA := eastChainGrows 0 0 {((0 : Nat), (0 : Nat))} (Finset.mem_singleton_self _)
    (fun c hc => hfreshA c hc) (C - 1)
  have hTA : ∀ p1 p2 : Nat, ((p1, p2) : Coord) ∈ ({((0 : Nat), (0 : Nat))} : Finset Coord) ∪
      (Finset.range (C - 1)).image (fun d => ((0 : Nat), 0 + d + 1)) ↔ p1 = 0 ∧ p2 < C := by
    intro p1 p2
    rw [Finset.mem_union, Finset.mem_singleton, Finset.mem_image]
    constructor
    · rintro (heq | ⟨d, hd, heq⟩)
      · simp only [Prod.mk.injEq, true_and, and_true] at heq
        omega
      · rw [Finset.mem_range] at hd
        simp only [Prod.mk.injEq, true_and, and_true] at heq
        omega
    · rintro ⟨h1, h2⟩
      rcases Nat.eq_zero_or_pos p2 with h0 | hpos
      · left
        simp only [Prod.mk.injEq, true_and, and_true]
        omega
      · right
        refine ⟨p2 - 1, by rw [Finset.mem_range]; omega, ?_⟩
        simp only [Prod.mk.injEq, true_and, and_true]
        omega
  have h0B : ((0 : Nat), C - 1) ∈ ({((0 : Nat), (0 : Nat))} : Finset Coord) ∪
      (Finset.range (C - 1)).image (fun d => ((0 : Nat), 0 + d + 1)) :=
    (hTA 0 (C - 1)).mpr ⟨rfl, by omega⟩
  have hfreshB : ∀ k, 1 ≤ k → ((k : Nat), C - 1) ∉ ({((0 : Nat), (0 : Nat))} : Finset Coord) ∪
      (Finset.range (C - 1)).image (fun d => ((0 : Nat), 0 + d + 1)) := by
    intro k hk hmem
    have hm := (hTA k (C - 1)).mp hmem
    omega
  have hgrowB := southChainGrows (C - 1) _ h0B hfreshB (R - 1)
  have hTB : ∀ p1 p2 : Nat, ((p1, p2) : Coord) ∈ (({((0 : Nat), (0 : Nat))} : Finset Coord) ∪
      (Finset.range (C - 1)).image (fun d => ((0 : Nat), 0 + d + 1))) ∪
      (Finset.range (R - 1)).image (fun k => ((k + 1 : Nat), C - 1)) ↔
      (p1 = 0 ∧ p2 < C) ∨ (p1 < R ∧ p2 = C - 1) := by
    intro p1 p2
    rw [Finset.mem_union, Finset.mem_image]
    constructor
    · rintro (hmem | ⟨d, hd, heq⟩)
      · exact Or.inl ((hTA p1 p2).mp hmem)
      · rw [Finset.mem_range] at hd
        simp only [Prod.mk.injEq, true_and, and_true] at heq
        right
        omega
    · rintro (⟨h1, h2⟩ | ⟨h1, h2⟩)
      · exact Or.inl ((hTA p1 p2).mpr ⟨h1, h2⟩)
      · rcases Nat.eq_zero_or_pos p1 with h0 | hpos
        · exact Or.inl ((hTA p1 p2).mpr ⟨h0, by omega⟩)
        · right
          refine ⟨p1 - 1, by rw [Finset.mem_range]; omega, ?_⟩
          simp only [Prod.mk.injEq, true_and, and_true]
          omega
  have hrows : ∀ m, m ≤ R - 1 → ∃ psR : List (Coord × Coord),
      Grows ((({((0 : Nat), (0 : Nat))} : Finset Coord) ∪
          (Finset.range (C - 1)).image (fun d => ((0 : Nat), 0 + d + 1))) ∪
          (Finset.range (R - 1)).image (fun k => ((k + 1 : Nat), C - 1))) psR
        (((({((0 : Nat), (0 : Nat))} : Finset Coord) ∪
          (Finset.range (C - 1)).image (fun d => ((0 : Nat), 0 + d + 1))) ∪
          (Finset.range (R - 1)).image (fun k => ((k + 1 : Nat), C - 1))) ∪
          ((Finset.range m) ×ˢ (Finset.range (C - 1))).image
            (fun pr => ((pr.1 + 1 : Nat), pr.2))) ∧
      (psR.map (fun pr => s(pr.1, pr.2))).toFinset =
        (Finset.range m).biUnion (fun k => (Finset.range (C - 1)).image
          (fun j => s((btPair r C k j).1, (btPair r C k j).2))) := by
    intro m
    induction m with
    | zero =>
      intro _
      refine ⟨[], ?_, by simp⟩
      rw [show ∀ (S : Finset Coord), S ∪ ((Finset.range 0) ×ˢ (Finset.range (C - 1))).image
        (fun pr => ((pr.1 + 1 : Nat), pr.2)) = S from fun S => by simp]
      exact Grows.nil
    | succ m ihm =>
      intro hm
      obtain ⟨psR, hgrowR, hedgeR⟩ := ihm (by omega)
      have hTm : ∀ mm, ∀ p1 p2 : Nat, ((p1, p2) : Coord) ∈
          ((({((0 : Nat), (0 : Nat))} : Finset Coord) ∪
          (Finset.range (C - 1)).image (fun d => ((0 : Nat), 0 + d + 1))) ∪
          (Finset.range (R - 1)).image (fun k => ((k + 1 : Nat), C - 1))) ∪
          ((Finset.range mm) ×ˢ (Finset.range (C - 1))).image
            (fun pr => ((pr.1 + 1 : Nat), pr.2)) ↔
          ((p1 = 0 ∧ p2 < C) ∨ (p1 < R ∧ p2 = C - 1) ∨
            (1 ≤ p1 ∧ p1 ≤ mm ∧ p2 < C - 1)) := by
        intro mm p1 p2
        rw [Finset.mem_union, Finset.mem_image]
        constructor
        · rintro (hmem | ⟨⟨a, b⟩, hab, heq⟩)
          · rcases (hTB p1 p2).mp hmem with h | h
            · exact Or.inl h
            · exact Or.inr (Or.inl h)
          · rw [Finset.mem_product, Finset.mem_range, Finset.mem_range] at hab
            simp only [Prod.mk.injEq, true_and, and_true] at heq
            right
            right
            omega
        · rintro (h | h | ⟨h1, h2, h3⟩)
          · exact Or.inl ((hTB p1 p2).mpr (Or.inl h))
          · exact Or.inl ((hTB p1 p2).mpr (Or.inr h))
          · right
            refine ⟨(p1 - 1, p2), ?_, ?_⟩
            · rw [Finset.mem_product, Finset.mem_range, Finset.mem_range]
              exact ⟨by omega, by omega⟩
            · simp only [Prod.mk.injEq, true_and, and_true]
              omega
      have hnorth : ∀ j, j < C - 1 → ((m : Nat), j) ∈
          ((({((0 : Nat), (0 : Nat))} : Finset Coord) ∪
          (Finset.range (C - 1)).image (fun d => ((0 : Nat), 0 + d + 1))) ∪
          (Finset.range (R - 1)).image (fun k => ((k + 1 : Nat), C - 1))) ∪
          ((Finset.range m) ×ˢ (Finset.range (C - 1))).image
            (fun pr => ((pr.1 + 1 : Nat), pr.2)) := by
        intro j hj
        rcases Nat.eq_zero_or_pos m with h0 | hpos
        · exact (hTm m m j).mpr (Or.inl ⟨h0, by omega⟩)
        · exact (hTm m m j).mpr (Or.inr (Or.inr ⟨hpos, le_refl m, hj⟩))
      have heastm : ((m + 1 : Nat), C - 1) ∈
          ((({((0 : Nat), (0 : Nat))} : Finset Coord) ∪
          (Finset.range (C - 1)).image (fun d => ((0 : Nat), 0 + d + 1))) ∪
          (Finset.range (R - 1)).image (fun k => ((k + 1 : Nat), C - 1))) ∪
          ((Finset.range m) ×ˢ (Finset.range (C - 1))).image
            (fun pr => ((pr.1 + 1 : Nat), pr.2)) :=
        (hTm m (m + 1) (C - 1)).mpr (Or.inr (Or.inl ⟨by omega, rfl⟩))
      have hfreshRow : ∀ j, j < C - 1 → ((m + 1 : Nat), j) ∉
          ((({((0 : Nat), (0 : Nat))} : Finset Coord) ∪
          (Finset.range (C - 1)).image (fun d => ((0 : Nat), 0 + d + 1))) ∪
          (Finset.range (R - 1)).image (fun k => ((k + 1 : Nat), C - 1))) ∪
          ((Finset.range m) ×ˢ (Finset.range (C - 1))).image
            (fun pr => ((pr.1 + 1 : Nat), pr.2)) := by
        intro j hj hmem
        have hcond := (hTm m (m + 1) j).mp hmem
        omega
      have hrowG := btRowGrows r C m _ hnorth heastm hfreshRow (C - 1) (le_refl _)
      have hcomb := hgrowR.append hrowG
      have hset : (((({((0 : Nat), (0 : Nat))} : Finset Coord) ∪
          (Finset.range (C - 1)).image (fun d => ((0 : Nat), 0 + d + 1))) ∪
          (Finset.range (R - 1)).image (fun k => ((k + 1 : Nat), C - 1))) ∪
          ((Finset.range m) ×ˢ (Finset.range (C - 1))).image
            (fun pr => ((pr.1 + 1 : Nat), pr.2))) ∪
          (Finset.range (C - 1)).image (fun d => ((m + 1 : Nat), C - 2 - d)) =
          ((({((0 : Nat), (0 : Nat))} : Finset Coord) ∪
          (Finset.range (C - 1)).image (fun d => ((0 : Nat), 0 + d + 1))) ∪
          (Finset.range (R - 1)).image (fun k => ((k + 1 : Nat), C - 1))) ∪
          ((Finset.range (m + 1)) ×ˢ (Finset.range (C - 1))).image
            (fun pr => ((pr.1 + 1 : Nat), pr.2)) := by
        apply Finset.ext
        rintro ⟨p1, p2⟩
        rw [Finset.mem_union, Finset.mem_image, hTm m p1 p2, hTm (m + 1) p1 p2]
        constructor
        · rintro (h | ⟨d, hd, heq⟩)
          · rcases h with h | h | h
            · exact Or.inl h
            · exact Or.inr (Or.inl h)
            · exact Or.inr (Or.inr ⟨h.1, by omega, h.2.2⟩)
          · rw [Finset.mem_range] at hd
            simp only [Prod.mk.injEq, true_and, and_true] at heq
            exact Or.inr (Or.inr ⟨by omega, by omega, by omega⟩)
        · rintro (h | h | ⟨h1, h2, h3⟩)
          · exact Or.inl (Or.inl h)
          · exact Or.inl (Or.inr (Or.inl h))
          · rcases Nat.lt_or_ge p1 (m + 1) with hlt | hge
            · exact Or.inl (Or.inr (Or.inr ⟨h1, by omega, h3⟩))
            · right
              refine ⟨C - 2 - p2, by rw [Finset.mem_range]; omega, ?_⟩
              simp only [Prod.mk.injEq, true_and, and_true]
              omega
      refine ⟨psR ++ (List.range (C - 1)).map (fun d => btPair r C m (C - 2 - d)), ?_, ?_⟩
      · rw [← hset]
        exact hcomb
      · rw [List.map_append, List.toFinset_append, hedgeR, row_list_toFinset r C m]
        rw [Finset.range_succ, Finset.biUnion_insert, Finset.union_comm]
  obtain ⟨psR, hgrowR, hedgeR⟩ := hrows (R - 1) (le_refl _)
  have hfinal : ((({((0 : Nat), (0 : Nat))} : Finset Coord) ∪
      (Finset.range (C - 1)).image (fun d => ((0 : Nat), 0 + d + 1))) ∪
      (Finset.range (R - 1)).image (fun k => ((k + 1 : Nat), C - 1))) ∪
      ((Finset.range (R - 1)) ×ˢ (Finset.range (C - 1))).image
        (fun pr => ((pr.1 + 1 : Nat), pr.2)) = allCoordsF R C := by
    apply Finset.ext
    rintro ⟨p1, p2⟩
    rw [Finset.mem_union, Finset.mem_image, hTB p1 p2, mem_allCoordsF]
    constructor
    · rintro (h | ⟨⟨a, b⟩, hab, heq⟩)
      · rcases h with h | h
        · exact ⟨by omega, by omega⟩
        · exact ⟨by omega, by omega⟩
      · rw [Finset.mem_product, Finset.mem_range, Finset.mem_range] at hab
        simp only [Prod.mk.injEq, true_and, and_true] at heq
        exact ⟨by omega, by omega⟩
    · rintro ⟨h1, h2⟩
      rcases Nat.eq_zero_or_pos p1 with h0 | hpos
      · exact Or.inl (Or.inl ⟨h0, h2⟩)
      · rcases Nat.lt_or_ge p2 (C - 1) with hlt | hge
        · right
          refine ⟨(p1 - 1, p2), ?_, ?_⟩
          · rw [Finset.mem_product, Finset.mem_range, Finset.mem_range]
            exact ⟨by omega, by omega⟩
          · simp only [Prod.mk.injEq, true_and, and_true]
            omega
        · exact Or.inl (Or.inr ⟨h1, by omega⟩)
  have hgrowAB := hgrowA.append hgrowB
  have hgrowAll := hgrowAB.append hgrowR
  rw [hfinal] at hgrowAll
  refine ⟨((List.range (C - 1)).map (fun d => (((0 : Nat), 0 + d), ((0 : Nat), 0 + d + 1)))
      ++ (List.range (R - 1)).map (fun k => ((k + 1, C - 1), ((k : Nat), C - 1)))) ++ psR,
    hgrowAll, ?_⟩
  rw [List.map_append, List.toFinset_append, List.map_append, List.toFinset_append,
    hedgeR, topRow_list_toFinset C, eastCol_list_toFinset R C]

theorem binary_tree_tree (R C : Nat) (hR : 1 ≤ R) (hC : 1 ≤ C) (r : Rng) :
    TreeOut (binary_tree (Grid.init R C) r) R C := by
  have hbt : binary_tree (Grid.init R C) r =
      ((List.range (R - 1)).foldl (fun st k => (List.range (C - 1)).foldl (btStep r k) st)
        ((List.range (R - 1)).foldl (fun acc k => linkToField acc (k + 1, C - 1) Cell.north)
          ((List.range C).foldl (fun acc j =>
            if j ≠ C - 1 then linkToField acc (0, j) Cell.east else acc)
            (Grid.init R C)), 0)).1 := rfl
  obtain ⟨hstdA, hrA, hcA, hedgeA⟩ :=
    topRow_spec C (Grid.init R C) (std_init R C) (by show 0 < R; omega) rfl C (le_refl C)
  have hrA2 : ((List.range C).foldl (fun acc j =>
      if j ≠ C - 1 then linkToField acc (0, j) Cell.east else acc)
      (Grid.init R C)).num_rows = R := hrA
  obtain ⟨hstdB, hrB, hcB, hedgeB⟩ :=
    eastCol_spec R C _ hstdA hrA2 hcA hC (R - 1) (le_refl _)
  obtain ⟨-, hstdC, hrC, hcC, hedgeC⟩ :=
    btRows_spec R C r _ hstdB hrB hcB (R - 1) (le_refl _)
  obtain ⟨ps, hgrow, hsym⟩ := btGrows r R C hR hC
  rw [hbt]
  refine ⟨hstdC, hrC, hcC, ((0 : Nat), (0 : Nat)), ps, hgrow, ?_⟩
  rw [hedgeC, hedgeB, hedgeA, edgeFinset_init, Finset.empty_union,
    show min C (C - 1) = C - 1 from by omega, hsym]

theorem swStep_continue (C i : Nat) (coin : Nat → Nat → Bool) (pick : Nat → Nat → Nat)
    (gn : Grid) (tmpn : List Coord) (logn : List (List Coord)) (j : Nat)
    (hcond : coin i j = true ∧ j ≠ C - 1) :
    swStep C i coin pick (gn, tmpn, logn) j =
      (Grid.link gn (i, j) (i, j + 1), tmpn ++ [(i, j), (i, j + 1)], logn) := by
  unfold swStep
  rw [if_pos hcond]

theorem swStep_close (C i : Nat) (coin : Nat → Nat → Bool) (pick : Nat → Nat → Nat)
    (gn : Grid) (tmpn : List Coord) (logn : List (List Coord)) (j : Nat)
    (hcond : ¬(coin i j = true ∧ j ≠ C - 1)) :
    swStep C i coin pick (gn, tmpn, logn) j =
      (linkToField gn ((tmpn ++ [(i, j)]).getD (pick i j % (tmpn ++ [(i, j)]).length) (i, j))
        Cell.north, [], logn ++ [tmpn ++ [(i, j)]]) := by
  unfold swStep
  rw [if_neg hcond]

theorem runShape_mem (i s e : Nat) (hse : s ≤ e) (p : Coord) (hp : p ∈ runShape i s e) :
    ∃ c, p = ((i : Nat), c) ∧ s ≤ c ∧ c ≤ e := by
  unfold runShape at hp
  rcases List.mem_cons.mp hp with rfl | hp
  · exact ⟨s, rfl, le_refl _, hse⟩
  · rw [List.mem_flatMap] at hp
    obtain ⟨k, hk, hmem⟩ := hp
    rw [List.mem_range] at hk
    rcases List.mem_cons.mp hmem with rfl | hmem2
    · exact ⟨s + k + 1, rfl, by omega, by omega⟩
    · rcases List.mem_cons.mp hmem2 with rfl | hmem3
      · exact ⟨s + k + 1, rfl, by omega, by omega⟩
      · cases hmem3

theorem westChainGrows (i m s0 : Nat) (T : Finset Coord) (hm : ((i : Nat), m) ∈ T)
    (hfresh : ∀ c, s0 ≤ c → c < m → ((i : Nat), c) ∉ T) :
    ∀ n, n ≤ m - s0 → Grows T ((List.range n).map (fun t => ((i, m - 1 - t), (i, m - t))))
      (T ∪ (Finset.range n).image (fun t => ((i : Nat), m - 1 - t))) := by
  intro n
  induction n with
  | zero =>
    intro _
    rw [show T ∪ (Finset.range 0).image (fun t => ((i : Nat), m - 1 - t)) = T from by simp]
    exact Grows.nil
  | succ n ihn =>
    intro hn
    rw [List.range_succ, List.map_append, List.map_cons, List.map_nil]
    have hrec := ihn (by omega)
    have hbmem : ((i : Nat), m - n) ∈ T ∪ (Finset.range n).image
        (fun t => ((i : Nat), m - 1 - t)) := by
      cases n with
      | zero => exact Finset.mem_union_left _ (by rw [show m - 0 = m from by omega]; exact hm)
      | succ q =>
        refine Finset.mem_union_right _ ?_
        rw [Finset.mem_image]
        refine ⟨q, by rw [Finset.mem_range]; omega, ?_⟩
        simp only [Prod.mk.injEq, true_and, and_true]
        omega
    have hafresh : ((i : Nat), m - 1 - n) ∉ T ∪ (Finset.range n).image
        (fun t => ((i : Nat), m - 1 - t)) := by
      rw [Finset.mem_union, Finset.mem_image]
      rintro (hc | ⟨t, ht, hc⟩)
      · exact hfresh (m - 1 - n) (by omega) (by omega) hc
      · rw [Finset.mem_range] at ht
        simp only [Prod.mk.injEq, true_and, and_true] at hc
        omega
    have hsnoc := Grows.snocR hrec hbmem hafresh
    rw [show insert ((i : Nat), m - 1 - n) (T ∪ (Finset.range n).image
        (fun t => ((i : Nat), m - 1 - t)))
        = T ∪ (Finset.range (n + 1)).image (fun t => ((i : Nat), m - 1 - t)) from by
      rw [Finset.range_succ, Finset.image_insert, Finset.union_insert]] at hsnoc
    exact hsnoc

theorem west_list_toFinset (i m s0 : Nat) (hs : s0 ≤ m) :
    (((List.range (m - s0)).map (fun t => (((i : Nat), m - 1 - t), ((i : Nat), m - t)))).map
      (fun pr => s(pr.1, pr.2))).toFinset =
    (Finset.range (m - s0)).image
      (fun t => s(((i : Nat), s0 + t), ((i : Nat), s0 + t + 1))) := by
  apply Finset.ext
  intro e
  rw [List.mem_toFinset, Finset.mem_image]
  simp only [List.mem_map, List.mem_range]
  constructor
  · rintro ⟨pr, ⟨t, ht, rfl⟩, rfl⟩
    refine ⟨m - 1 - t - s0, by rw [Finset.mem_range]; omega, ?_⟩
    show s(((i : Nat), s0 + (m - 1 - t - s0)), ((i : Nat), s0 + (m - 1 - t - s0) + 1)) =
      s(((i : Nat), m - 1 - t), ((i : Nat), m - t))
    rw [show s0 + (m - 1 - t - s0) = m - 1 - t from by omega,
      show m - 1 - t + 1 = m - t from by omega]
  · rintro ⟨t, ht, rfl⟩
    rw [Finset.mem_range] at ht
    refine ⟨(((i : Nat), m - 1 - (m - 1 - s0 - t)), ((i : Nat), m - (m - 1 - s0 - t))),
      ⟨m - 1 - s0 - t, by omega, rfl⟩, ?_⟩
    show s(((i : Nat), m - 1 - (m - 1 - s0 - t)), ((i : Nat), m - (m - 1 - s0 - t))) =
      s(((i : Nat), s0 + t), ((i : Nat), s0 + t + 1))
    rw [show m - 1 - (m - 1 - s0 - t) = s0 + t from by omega,
      show m - (m - 1 - s0 - t) = s0 + t + 1 from by omega]

theorem east_list_toFinset (i m j : Nat) :
    (((List.range (j - m)).map (fun d => (((i : Nat), m + d), ((i : Nat), m + d + 1)))).map
      (fun pr => s(pr.1, pr.2))).toFinset =
    (Finset.range (j - m)).image
      (fun d => s(((i : Nat), m + d), ((i : Nat), m + d + 1))) := by
  apply Finset.ext
  intro e
  rw [List.mem_toFinset, Finset.mem_image]
  simp only [List.mem_map, List.mem_range]
  constructor
  · rintro ⟨pr, ⟨d, hd, rfl⟩, rfl⟩
    exact ⟨d, by rw [Finset.mem_range]; omega, rfl⟩
  · rintro ⟨d, hd, rfl⟩
    rw [Finset.mem_range] at hd
    exact ⟨(((i : Nat), m + d), ((i : Nat), m + d + 1)), ⟨d, hd, rfl⟩, rfl⟩

theorem east_edge_split (i s j m : Nat) (hs : s ≤ m) (hm : m ≤ j) :
    (Finset.range (j - s)).image (fun t => s(((i : Nat), s + t), ((i : Nat), s + t + 1))) =
    (Finset.range (m - s)).image (fun t => s(((i : Nat), s + t), ((i : Nat), s + t + 1))) ∪
    (Finset.range (j - m)).image (fun d => s(((i : Nat), m + d), ((i : Nat), m + d + 1))) := by
  apply Finset.ext
  intro e
  rw [Finset.mem_union, Finset.mem_image, Finset.mem_image, Finset.mem_image]
  constructor
  · rintro ⟨t, ht, rfl⟩
    rw [Finset.mem_range] at ht
    rcases Nat.lt_or_ge (s + t) m with hlt | hge
    · exact Or.inl ⟨t, by rw [Finset.mem_range]; omega, rfl⟩
    · right
      refine ⟨s + t - m, by rw [Finset.mem_range]; omega, ?_⟩
      show s(((i : Nat), m + (s + t - m)), ((i : Nat), m + (s + t - m) + 1)) =
        s(((i : Nat), s + t), ((i : Nat), s + t + 1))
      rw [show m + (s + t - m) = s + t from by omega]
  · rintro (⟨t, ht, rfl⟩ | ⟨d, hd, rfl⟩)
    · rw [Finset.mem_range] at ht
      exact ⟨t, by rw [Finset.mem_range]; omega, rfl⟩
    · rw [Finset.mem_range] at hd
      refine ⟨m + d - s, by rw [Finset.mem_range]; omega, ?_⟩
      show s(((i : Nat), s + (m + d - s)), ((i : Nat), s + (m + d - s) + 1)) =
        s(((i : Nat), m + d), ((i : Nat), m + d + 1))
      rw [show s + (m + d - s) = m + d from by omega]

theorem segGrows (i s j m : Nat) (hs : s ≤ m) (hm : m ≤ j) (V : Finset Coord)
    (hb : ((i - 1 : Nat), m) ∈ V)
    (hfresh : ∀ c, s ≤ c → ((i : Nat), c) ∉ V) :
    ∃ qs : List (Coord × Coord),
      Grows V qs (V ∪ (Finset.range (j + 1 - s)).image (fun t => ((i : Nat), s + t))) ∧
      (qs.map (fun pr => s(pr.1, pr.2))).toFinset =
        insert (s(((i : Nat), m), ((i - 1 : Nat), m)))
          ((Finset.range (j - s)).image
            (fun t => s(((i : Nat), s + t), ((i : Nat), s + t + 1)))) := by
  have h1 : Grows V [(((i : Nat), m), ((i - 1 : Nat), m))] (insert ((i : Nat), m) V) :=
    Grows.consR hb (hfresh m hs) Grows.nil
  have h2 := westChainGrows i m s (insert ((i : Nat), m) V) (Finset.mem_insert_self _ _)
    (fun c hc1 hc2 hmem => by
      rcases Finset.mem_insert.mp hmem with heq | hmem2
      · simp only [Prod.mk.injEq, true_and, and_true] at heq
        omega
      · exact hfresh c hc1 hmem2) (m - s) (le_refl _)
  have h3 := eastChainGrows i m
    (insert ((i : Nat), m) V ∪ (Finset.range (m - s)).image (fun t => ((i : Nat), m - 1 - t)))
    (Finset.mem_union_left _ (Finset.mem_insert_self _ _))
    (fun c hc hmem => by
      rcases Finset.mem_union.mp hmem with hmem | hmem
      · rcases Finset.mem_insert.mp hmem with heq | hmem2
        · simp only [Prod.mk.injEq, true_and, and_true] at heq
          omega
        · exact hfresh c (by omega) hmem2
      · rw [Finset.mem_image] at hmem
        obtain ⟨t, ht, heq⟩ := hmem
        rw [Finset.mem_range] at ht
        simp only [Prod.mk.injEq, true_and, and_true] at heq
        omega) (j - m)
  have hcomb := (h1.append h2).append h3
  refine ⟨([(((i : Nat), m), ((i - 1 : Nat), m))] ++
    (List.range (m - s)).map (fun t => ((i, m - 1 - t), (i, m - t)))) ++
    (List.range (j - m)).map (fun d => ((i, m + d), (i, m + d + 1))), ?_, ?_⟩
  · have hset : ((insert ((i : Nat), m) V ∪ (Finset.range (m - s)).image
        (fun t => ((i : Nat), m - 1 - t))) ∪
        (Finset.range (j - m)).image (fun d => ((i : Nat), m + d + 1))) =
        V ∪ (Finset.range (j + 1 - s)).image (fun t => ((i : Nat), s + t)) := by
      apply Finset.ext
      rintro ⟨p1, p2⟩
      rw [Finset.mem_union, Finset.mem_union, Finset.mem_insert, Finset.mem_image,
        Finset.mem_image, Finset.mem_union, Finset.mem_image]
      constructor
      · rintro (((heq | hmem) | ⟨t, ht, heq⟩) | ⟨d, hd, heq⟩)
        · simp only [Prod.mk.injEq] at heq
          right
          refine ⟨m - s, by rw [Finset.mem_range]; omega, ?_⟩
          simp only [Prod.mk.injEq]
          omega
        · exact Or.inl hmem
        · rw [Finset.mem_range] at ht
          simp only [Prod.mk.injEq] at heq
          right
          refine ⟨m - 1 - t - s, by rw [Finset.mem_range]; omega, ?_⟩
          simp only [Prod.mk.injEq]
          omega
        · rw [Finset.mem_range] at hd
          simp only [Prod.mk.injEq] at heq
          right
          refine ⟨m + d + 1 - s, by rw [Finset.mem_range]; omega, ?_⟩
          simp only [Prod.mk.injEq]
          omega
      · rintro (hmem | ⟨t, ht, heq⟩)
        · exact Or.inl (Or.inl (Or.inr hmem))
        · rw [Finset.mem_range] at ht
          simp only [Prod.mk.injEq] at heq
          obtain ⟨he1, he2⟩ := heq
          rcases Nat.lt_trichotomy (s + t) m with hlt | heqm | hgt
          · left
            right
            refine ⟨m - 1 - (s + t), by rw [Finset.mem_range]; omega, ?_⟩
            simp only [Prod.mk.injEq]
            omega
          · left
            left
            left
            simp only [Prod.mk.injEq]
            omega
          · right
            refine ⟨s + t - m - 1, by rw [Finset.mem_range]; omega, ?_⟩
            simp only [Prod.mk.injEq]
            omega
    rw [hset] at hcomb
    exact hcomb
  · rw [List.map_append, List.toFinset_append, List.map_append, List.toFinset_append,
      west_list_toFinset i m s hs, east_list_toFinset i m j,
      east_edge_split i s j m hs hm,
      show (([(((i : Nat), m), ((i - 1 : Nat), m))]).map
        (fun pr => s(pr.1, pr.2))).toFinset
        = {s(((i : Nat), m), ((i - 1 : Nat), m))} from by simp,
      Finset.union_assoc, Finset.insert_eq]

theorem topGrows (C : Nat) (hC : 1 ≤ C) :
    ∃ psA : List (Coord × Coord),
      Grows {((0 : Nat), (0 : Nat))} psA
        (({((0 : Nat), (0 : Nat))} : Finset Coord) ∪
          (Finset.range (C - 1)).image (fun d => ((0 : Nat), 0 + d + 1))) ∧
      (∀ p1 p2 : Nat, ((p1, p2) : Coord) ∈ ({((0 : Nat), (0 : Nat))} : Finset Coord) ∪
        (Finset.range (C - 1)).image (fun d => ((0 : Nat), 0 + d + 1)) ↔ p1 = 0 ∧ p2 < C) ∧
      (psA.map (fun pr => s(pr.1, pr.2))).toFinset =
        (Finset.range (C - 1)).image (fun j => s(((0 : Nat), j), ((0 : Nat), j + 1))) := by
  have hfreshA : ∀ c, 0 < c → ((0 : Nat), c) ∉ ({((0 : Nat), (0 : Nat))} : Finset Coord) := by
    intro c hc hmem
    rw [Finset.mem_singleton] at hmem
    simp only [Prod.mk.injEq, true_and, and_true] at hmem
    omega
  refine ⟨(List.range (C - 1)).map (fun d => (((0 : Nat), 0 + d), ((0 : Nat), 0 + d + 1))),
    eastChainGrows 0 0 {((0 : Nat), (0 : Nat))} (Finset.mem_singleton_self _)
      (fun c hc => hfreshA c hc) (C - 1), ?_, topRow_list_toFinset C⟩
  intro p1 p2
  rw [Finset.mem_union, Finset.mem_singleton, Finset.mem_image]
  constructor
  · rintro (heq | ⟨d, hd, heq⟩)
    · simp only [Prod.mk.injEq, true_and, and_true] at heq
      omega
    · rw [Finset.mem_range] at hd
      simp only [Prod.mk.injEq, true_and, and_true] at heq
      omega
  · rintro ⟨h1, h2⟩
    rcases Nat.eq_zero_or_pos p2 with h0 | hpos
    · left
      simp only [Prod.mk.injEq, true_and, and_true]
      omega
    · right
      refine ⟨p2 - 1, by rw [Finset.mem_range]; omega, ?_⟩
      simp only [Prod.mk.injEq, true_and, and_true]
      omega

/-- Row-level invariant of `sidewinder`: scanning row `i` over the first
`n` columns keeps the grid standard, grows the tree over the rows above
plus the already-closed prefix of row `i` (columns `< s`), leaves the open
run's east links as the only edges beyond the tree, and keeps the run list
in `midShape` form while a run is open. -/
theorem swRow_spec (R C i : Nat) (coin : Nat → Nat → Bool) (pick : Nat → Nat → Nat)
    (hi1 : 1 ≤ i) (hiR : i < R) (g0 : Grid) (log0 : List (List Coord))
    (hstd : g0.Std) (hr : g0.num_rows = R) (hc : g0.num_columns = C)
    (V0 : Finset Coord)
    (hT0 : ∀ p1 p2 : Nat, ((p1, p2) : Coord) ∈ V0 ↔ p1 < i ∧ p2 < C) :
    ∀ n, n ≤ C →
      ∃ s : Nat, ∃ qs : List (Coord × Coord), s ≤ n ∧
        ((List.range n).foldl (swStep C i coin pick) (g0, [], log0)).1.Std ∧
        ((List.range n).foldl (swStep C i coin pick) (g0, [], log0)).1.num_rows = R ∧
        ((List.range n).foldl (swStep C i coin pick) (g0, [], log0)).1.num_columns = C ∧
        Grows V0 qs (V0 ∪ (Finset.range s).image (fun t => ((i : Nat), t))) ∧
        edgeFinsetOf ((List.range n).foldl (swStep C i coin pick) (g0, [], log0)).1 =
          (edgeFinsetOf g0 ∪ (qs.map (fun pr => s(pr.1, pr.2))).toFinset) ∪
          (Finset.range (n - s)).image
            (fun t => s(((i : Nat), s + t), ((i : Nat), s + t + 1))) ∧
        ((((List.range n).foldl (swStep C i coin pick) (g0, [], log0)).2.1 = [] ∧ s = n) ∨
          ((((List.range n).foldl (swStep C i coin pick) (g0, [], log0)).2.1 =
            midShape i s n) ∧ s < n ∧ n < C)) := by
  intro n
  induction n with
  | zero =>
    intro _
    refine ⟨0, [], le_refl 0, hstd, hr, hc, ?_, ?_, Or.inl ⟨rfl, rfl⟩⟩
    · rw [show V0 ∪ (Finset.range 0).image (fun t => ((i : Nat), t)) = V0 from by simp]
      exact Grows.nil
    · simp
  | succ n ihn =>
    intro hn
    obtain ⟨s, qs, hs, hstd2, hr2, hc2, hgrow2, hedge2, htmp2⟩ := ihn (by omega)
    rw [List.range_succ, List.foldl_append, List.foldl_cons, List.foldl_nil]
    rcases hstn : (List.range n).foldl (swStep C i coin pick) (g0, [], log0) with
      ⟨gn, tmpn, logn⟩
    rw [hstn] at hstd2 hr2 hc2 hedge2 htmp2
    have hstd3 : gn.Std := hstd2
    have hr3 : gn.num_rows = R := hr2
    have hc3 : gn.num_columns = C := hc2
    have hedge3 : edgeFinsetOf gn =
        (edgeFinsetOf g0 ∪ (qs.map (fun pr => s(pr.1, pr.2))).toFinset) ∪
        (Finset.range (n - s)).image
          (fun t => s(((i : Nat), s + t), ((i : Nat), s + t + 1))) := hedge2
    have htmp3 : (tmpn = [] ∧ s = n) ∨ (tmpn = midShape i s n ∧ s < n ∧ n < C) := htmp2
    by_cases hcond : coin i n = true ∧ n ≠ C - 1
    · rw [swStep_continue C i coin pick gn tmpn logn n hcond]
      have hn1C : n + 1 < C := by
        rcases hcond with ⟨-, hne⟩
        omega
      refine ⟨s, qs, by omega, std_link _ _ _ hstd3, ?_, ?_, hgrow2, ?_, ?_⟩
      · show (Grid.link gn (i, n) (i, n + 1)).num_rows = R
        rw [num_rows_link]
        exact hr3
      · show (Grid.link gn (i, n) (i, n + 1)).num_columns = C
        rw [num_columns_link]
        exact hc3
      · show edgeFinsetOf (Grid.link gn (i, n) (i, n + 1)) = _
        rw [edgeFinset_link gn hstd3 (i, n) (i, n + 1)
          ⟨by rw [hr3]; exact hiR, by rw [hc3]; omega⟩
          ⟨by rw [hr3]; exact hiR, by rw [hc3]; omega⟩, hedge3,
          show n + 1 - s = (n - s) + 1 from by omega,
          Finset.range_succ, Finset.image_insert, Finset.union_insert,
          show s + (n - s) = n from by omega]
      · rcases htmp3 with ⟨hte, hseq⟩ | ⟨htm, hsltn, -⟩
        · right
          refine ⟨?_, by omega, hn1C⟩
          show tmpn ++ [(i, n), (i, n + 1)] = midShape i s (n + 1)
          rw [hte, List.nil_append, hseq]
          exact midShape_start i n
        · right
          refine ⟨?_, by omega, hn1C⟩
          show tmpn ++ [(i, n), (i, n + 1)] = midShape i s (n + 1)
          rw [htm]
          exact midShape_extend i s n hsltn
    · rw [swStep_close C i coin pick gn tmpn logn n hcond]
      have htmp' : tmpn ++ [((i : Nat), n)] = runShape i s n := by
        rcases htmp3 with ⟨hte, hseq⟩ | ⟨htm, hsltn, -⟩
        · rw [hte, List.nil_append, hseq]
          exact runShape_single i n
        · rw [htm]
          exact midShape_close i s n hsltn
      have hlen : 0 < (tmpn ++ [((i : Nat), n)]).length := by
        rw [List.length_append, List.length_cons, List.length_nil]
        omega
      have hidx : pick i n % (tmpn ++ [((i : Nat), n)]).length <
          (tmpn ++ [((i : Nat), n)]).length := Nat.mod_lt _ hlen
      have hmem : (tmpn ++ [((i : Nat), n)]).getD
          (pick i n % (tmpn ++ [((i : Nat), n)]).length) ((i : Nat), n) ∈
          runShape i s n := by
        rw [← htmp', List.getD_eq_getElem _ _ hidx]
        exact List.getElem_mem hidx
      obtain ⟨m, hcm, hsm, hmn⟩ := runShape_mem i s n hs _ hmem
      rw [hcm, linkToField_north gn hstd3 i m (by rw [hr3]; exact hiR) hi1
        (by rw [hc3]; omega)]
      have hb : ((i - 1 : Nat), m) ∈ V0 ∪ (Finset.range s).image (fun t => ((i : Nat), t)) :=
        Finset.mem_union_left _ ((hT0 (i - 1) m).mpr ⟨by omega, by omega⟩)
      have hfresh : ∀ c, s ≤ c →
          ((i : Nat), c) ∉ V0 ∪ (Finset.range s).image (fun t => ((i : Nat), t)) := by
        intro c hcs hmemV
        rcases Finset.mem_union.mp hmemV with hv | hv
        · have := (hT0 i c).mp hv
          omega
        · rw [Finset.mem_image] at hv
          obtain ⟨t, ht, heq⟩ := hv
          rw [Finset.mem_range] at ht
          simp only [Prod.mk.injEq, true_and, and_true] at heq
          omega
      obtain ⟨seg, hsegGrow, hsegSym⟩ := segGrows i s n m hsm hmn _ hb hfresh
      have hcomb := hgrow2.append hsegGrow
      have hVset : (V0 ∪ (Finset.range s).image (fun t => ((i : Nat), t))) ∪
          (Finset.range (n + 1 - s)).image (fun t => ((i : Nat), s + t)) =
          V0 ∪ (Finset.range (n + 1)).image (fun t => ((i : Nat), t)) := by
        apply Finset.ext
        rintro ⟨p1, p2⟩
        rw [Finset.mem_union, Finset.mem_union, Finset.mem_union, Finset.mem_image,
          Finset.mem_image, Finset.mem_image]
        constructor
        · rintro ((hv | ⟨t, ht, heq⟩) | ⟨t, ht, heq⟩)
          · exact Or.inl hv
          · rw [Finset.mem_range] at ht
            simp only [Prod.mk.injEq] at heq
            right
            refine ⟨p2, ?_, ?_⟩
            · rw [Finset.mem_range]
              omega
            · simp only [Prod.mk.injEq, true_and, and_true]
              omega
          · rw [Finset.mem_range] at ht
            simp only [Prod.mk.injEq] at heq
            right
            refine ⟨p2, ?_, ?_⟩
            · rw [Finset.mem_range]
              omega
            · simp only [Prod.mk.injEq, true_and, and_true]
              omega
        · rintro (hv | ⟨t, ht, heq⟩)
          · exact Or.inl (Or.inl hv)
          · rw [Finset.mem_range] at ht
            simp only [Prod.mk.injEq] at heq
            rcases Nat.lt_or_ge t s with hts | hts
            · left
              right
              refine ⟨t, ?_, ?_⟩
              · rw [Finset.mem_range]
                omega
              · simp only [Prod.mk.injEq, true_and, and_true]
                omega
            · right
              refine ⟨t - s, ?_, ?_⟩
              · rw [Finset.mem_range]
                omega
              · simp only [Prod.mk.injEq, true_and, and_true]
                omega
      rw [hVset] at hcomb
      refine ⟨n + 1, qs ++ seg, le_refl _, std_link _ _ _ hstd3, ?_, ?_, hcomb, ?_,
        Or.inl ⟨rfl, rfl⟩⟩
      · show (Grid.link gn (i, m) (i - 1, m)).num_rows = R
        rw [num_rows_link]
        exact hr3
      · show (Grid.link gn (i, m) (i - 1, m)).num_columns = C
        rw [num_columns_link]
        exact hc3
      · show edgeFinsetOf (Grid.link gn (i, m) (i - 1, m)) = _
        rw [edgeFinset_link gn hstd3 (i, m) ((i - 1 : Nat), m)
          ⟨by rw [hr3]; exact hiR, by rw [hc3]; omega⟩
          ⟨by rw [hr3]; omega, by rw [hc3]; omega⟩,
          hedge3, ← Finset.union_insert, ← hsegSym,
          Finset.union_assoc, ← List.toFinset_append, ← List.map_append,
          Nat.sub_self, Finset.range_zero, Finset.image_empty, Finset.union_empty]

/-- Whole-maze invariant of `sidewinder`: after the top row and the first
`m` later rows, the grid is standard and its links are exactly a tree grown
from the origin over the first `m + 1` rows. -/
theorem swRows_spec (R C : Nat) (coin : Nat → Nat → Bool) (pick : Nat → Nat → Nat)
    (g1 : Grid) (hstd1 : g1.Std) (hr1 : g1.num_rows = R) (hc1 : g1.num_columns = C)
    (ps1 : List (Coord × Coord)) (V1 : Finset Coord)
    (hgrow1 : Grows {((0 : Nat), (0 : Nat))} ps1 V1)
    (hT1 : ∀ p1 p2 : Nat, ((p1, p2) : Coord) ∈ V1 ↔ p1 < 1 ∧ p2 < C)
    (hedge1 : edgeFinsetOf g1 = (ps1.map (fun pr => s(pr.1, pr.2))).toFinset) :
    ∀ m, m ≤ R - 1 →
      ∃ ps : List (Coord × Coord), ∃ V : Finset Coord,
        ((List.range m).foldl (fun st k =>
          ((((List.range C).foldl (swStep C (k + 1) coin pick) (st.1, [], st.2))).1,
            ((List.range C).foldl (swStep C (k + 1) coin pick) (st.1, [], st.2)).2.2))
          (g1, ([] : List (List Coord)))).1.Std ∧
        ((List.range m).foldl (fun st k =>
          ((((List.range C).foldl (swStep C (k + 1) coin pick) (st.1, [], st.2))).1,
            ((List.range C).foldl (swStep C (k + 1) coin pick) (st.1, [], st.2)).2.2))
          (g1, ([] : List (List Coord)))).1.num_rows = R ∧
        ((List.range m).foldl (fun st k =>
          ((((List.range C).foldl (swStep C (k + 1) coin pick) (st.1, [], st.2))).1,
            ((List.range C).foldl (swStep C (k + 1) coin pick) (st.1, [], st.2)).2.2))
          (g1, ([] : List (List Coord)))).1.num_columns = C ∧
        Grows {((0 : Nat), (0 : Nat))} ps V ∧
        (∀ p1 p2 : Nat, ((p1, p2) : Coord) ∈ V ↔ p1 < m + 1 ∧ p2 < C) ∧
        edgeFinsetOf ((List.range m).foldl (fun st k =>
          ((((List.range C).foldl (swStep C (k + 1) coin pick) (st.1, [], st.2))).1,
            ((List.range C).foldl (swStep C (k + 1) coin pick) (st.1, [], st.2)).2.2))
          (g1, ([] : List (List Coord)))).1 =
          (ps.map (fun pr => s(pr.1, pr.2))).toFinset := by
  intro m
  induction m with
  | zero =>
    intro _
    exact ⟨ps1, V1, hstd1, hr1, hc1, hgrow1, fun p1 p2 => hT1 p1 p2, hedge1⟩
  | succ m ihm =>
    intro hm
    obtain ⟨ps, V, hstd2, hr2, hc2, hgrow2, hT2, hedge2⟩ := ihm (by omega)
    rw [List.range_succ, List.foldl_append, List.foldl_cons, List.foldl_nil]
    rcases hstm : (List.range m).foldl (fun st k =>
      ((((List.range C).foldl (swStep C (k + 1) coin pick) (st.1, [], st.2))).1,
        ((List.range C).foldl (swStep C (k + 1) coin pick) (st.1, [], st.2)).2.2))
      (g1, ([] : List (List Coord))) with ⟨gm, logm⟩
    rw [hstm] at hstd2 hr2 hc2 hedge2
    have hstd3 : gm.Std := hstd2
    have hr3 : gm.num_rows = R := hr2
    have hc3 : gm.num_columns = C := hc2
    have hedge3 : edgeFinsetOf gm = (ps.map (fun pr => s(pr.1, pr.2))).toFinset := hedge2
    obtain ⟨s, qs, hsC, istd, ir, ic, igrow, iedge, itmp⟩ :=
      swRow_spec R C (m + 1) coin pick (by omega) (by omega) gm logm hstd3 hr3 hc3 V
        (fun p1 p2 => hT2 p1 p2) C (le_refl C)
    have hsC2 : s = C := by
      rcases itmp with ⟨-, h⟩ | ⟨-, -, h⟩
      · exact h
      · omega
    rw [hsC2] at igrow iedge
    have hTnew : ∀ p1 p2 : Nat, ((p1, p2) : Coord) ∈
        V ∪ (Finset.range C).image (fun t => ((m + 1 : Nat), t)) ↔
        p1 < m + 1 + 1 ∧ p2 < C := by
      intro p1 p2
      rw [Finset.mem_union, Finset.mem_image]
      constructor
      · rintro (hv | ⟨t, ht, heq⟩)
        · have hvv := (hT2 p1 p2).mp hv
          exact ⟨by omega, hvv.2⟩
        · rw [Finset.mem_range] at ht
          simp only [Prod.mk.injEq] at heq
          exact ⟨by omega, by omega⟩
      · rintro ⟨h1, h2⟩
        rcases Nat.lt_or_ge p1 (m + 1) with hlt | hge
        · exact Or.inl ((hT2 p1 p2).mpr ⟨hlt, h2⟩)
        · right
          refine ⟨p2, ?_, ?_⟩
          · rw [Finset.mem_range]
            omega
          · simp only [Prod.mk.injEq, true_and, and_true]
            omega
    refine ⟨ps ++ qs, V ∪ (Finset.range C).image (fun t => ((m + 1 : Nat), t)),
      istd, ir, ic, hgrow2.append igrow, hTnew, ?_⟩
    show edgeFinsetOf ((List.range C).foldl (swStep C (m + 1) coin pick)
      (gm, [], logm)).1 = _
    rw [iedge, hedge3, Nat.sub_self, Finset.range_zero, Finset.image_empty,
      Finset.union_empty, ← List.toFinset_append, ← List.map_append]

/-- `sidewinder` on a fresh grid yields a standard grid whose links form a
spanning tree: the top row is an east path and every later row is attached
by exactly one north link per run, the runs partitioning the row into
east-linked intervals. -/
theorem sidewinder_tree (R C : Nat) (hR : 1 ≤ R) (hC : 1 ≤ C)
    (coin : Nat → Nat → Bool) (pick : Nat → Nat → Nat) :
    TreeOut (sidewinder (Grid.init R C) coin pick).1 R C := by
  have hsw : (sidewinder (Grid.init R C) coin pick).1 =
      ((List.range (R - 1)).foldl (fun st k =>
        ((((List.range C).foldl (swStep C (k + 1) coin pick) (st.1, [], st.2))).1,
          ((List.range C).foldl (swStep C (k + 1) coin pick) (st.1, [], st.2)).2.2))
        ((List.range C).foldl (fun acc j =>
          if j ≠ C - 1 then linkToField acc (0, j) Cell.east else acc) (Grid.init R C),
          ([] : List (List Coord)))).1 := rfl
  obtain ⟨hstdA, hrA, hcA, hedgeA⟩ :=
    topRow_spec C (Grid.init R C) (std_init R C) (by show 0 < R; omega) rfl C (le_refl C)
  have hrA2 : ((List.range C).foldl (fun acc j =>
      if j ≠ C - 1 then linkToField acc (0, j) Cell.east else acc)
      (Grid.init R C)).num_rows = R := hrA
  obtain ⟨psA, hgrowA, hTA, hsymA⟩ := topGrows C hC
  have hedgeA2 : edgeFinsetOf ((List.range C).foldl (fun acc j =>
      if j ≠ C - 1 then linkToField acc (0, j) Cell.east else acc) (Grid.init R C)) =
      (psA.map (fun pr => s(pr.1, pr.2))).toFinset := by
    rw [hedgeA, edgeFinset_init, Finset.empty_union,
      show min C (C - 1) = C - 1 from by omega, hsymA]
  have hTA2 : ∀ p1 p2 : Nat, ((p1, p2) : Coord) ∈
      ({((0 : Nat), (0 : Nat))} : Finset Coord) ∪
      (Finset.range (C - 1)).image (fun d => ((0 : Nat), 0 + d + 1)) ↔
      p1 < 1 ∧ p2 < C := by
    intro p1 p2
    rw [hTA p1 p2]
    constructor
    · rintro ⟨h1, h2⟩
      exact ⟨by omega, h2⟩
    · rintro ⟨h1, h2⟩
      exact ⟨by omega, h2⟩
  obtain ⟨ps, V, hstdF, hrF, hcF, hgrowF, hTF, hedgeF⟩ :=
    swRows_spec R C coin pick _ hstdA hrA2 hcA psA _ hgrowA hTA2 hedgeA2
      (R - 1) (le_refl _)
  have hVall : V = allCoordsF R C := by
    apply Finset.ext
    rintro ⟨p1, p2⟩
    rw [hTF p1 p2, mem_allCoordsF]
    constructor
    · rintro ⟨h1, h2⟩
      exact ⟨by omega, h2⟩
    · rintro ⟨h1, h2⟩
      exact ⟨by omega, h2⟩
  rw [hVall] at hgrowF
  rw [hsw]
  exact ⟨hstdF, hrF, hcF, ((0 : Nat), (0 : Nat)), ps, hgrowF, hedgeF⟩

/-- C1: for every grid with rows ≥ 1 and columns ≥ 1, each of the five
generation algorithms, run on a fresh fully-unlinked grid, completes with
exactly `rows*columns - 1` undirected links (each counted once), a link
relation connected over all cells, and no cycle.  `binary_tree` and
`sidewinder` always terminate; the three stochastic algorithms are
fuel-bounded over the injected random stream, and the property holds
whenever they complete (`recursive_backtracker` is run from any in-bounds
start cell, as the source does via `random_cell`). -/
theorem C1_spanning_tree (R C : Nat) (hR : 1 ≤ R) (hC : 1 ≤ C) :
    (∀ r : Rng, mazeOk (binary_tree (Grid.init R C) r) R C) ∧
    (∀ (coin : Nat → Nat → Bool) (pick : Nat → Nat → Nat),
      mazeOk (sidewinder (Grid.init R C) coin pick).1 R C) ∧
    (∀ (r : Rng) (fuel : Nat) (g2 : Grid),
      aldous_broder (Grid.init R C) r fuel = .done g2 → mazeOk g2 R C) ∧
    (∀ (r : Rng) (fuel : Nat) (g2 : Grid),
      wilson (Grid.init R C) r fuel = .done g2 → mazeOk g2 R C) ∧
    (∀ (start : Coord) (r : Rng) (fuel : Nat) (g2 : Grid),
      start.1 < R → start.2 < C →
      recursive_backtracker (Grid.init R C) start r fuel = .done g2 →
      mazeOk g2 R C) := by
  refine ⟨?_, ?_, ?_, ?_, ?_⟩
  · intro r
    exact treeOut_mazeOk _ R C (binary_tree_tree R C hR hC r)
  · intro coin pick
    exact treeOut_mazeOk _ R C (sidewinder_tree R C hR hC coin pick)
  · intro r fuel g2 h
    exact treeOut_mazeOk _ R C (aldous_broder_tree R C r fuel g2 h)
  · intro r fuel g2 h
    exact treeOut_mazeOk _ R C (wilson_tree R C r fuel g2 h)
  · intro start r fuel g2 h1 h2 h
    exact treeOut_mazeOk _ R C
      (recursive_backtracker_tree R C start r fuel g2 ⟨h1, h2⟩ h)

/-- Witness for C1 at the concrete 1×2 grid: both dimension hypotheses are
discharged by computation and the binary-tree conclusion is instantiated. -/
theorem C1_spanning_tree_witness :
    1 ≤ 1 ∧ 1 ≤ 2 ∧ mazeOk (binary_tree (Grid.init 1 2) (fun t => t)) 1 2 :=
  ⟨by decide, by decide,
    (C1_spanning_tree 1 2 (by decide) (by decide)).1 (fun t => t)⟩

end Mazes
